import Mathlib

/-!
# Verification of the bptree-kvstore B+ tree key-value store

This file gives a shallow embedding of the repository's storage engine:

* a page-store model of the B+ tree (`src/btree.cpp`, headers in `src/btree.h`),
  where the buffer pool is abstracted to direct page access (the pool is a
  transparent cache for a single-threaded caller under correct pinning);
* a state-machine model of the buffer pool (`src/buffer_pool_manager.h/cpp`)
  with frames, page table, free list and LRU list;
* a model of the tree operations over the buffer pool state used to account
  for pin balance.

Keys are C++ `int`, modelled as `Int` (only compared, never overflowed).
Values are `std::string` payloads, modelled as lists of bytes (`List Nat`);
a leaf slot's raw 128-byte `char value[VALUE_SIZE]` array is modelled as a
`List Nat` of length `VALUE_SIZE`.
-/

namespace BPT

/-- `VALUE_SIZE` from btree.h. -/
def VALUE_SIZE : Nat := 128

/-- `LEAF_MAX_ENTRIES = (PAGE_SIZE - sizeof(LeafPageHeader)) / sizeof(LeafEntry)`
    `= (4096 - 16) / 132 = 30`. -/
def LEAF_MAX_ENTRIES : Nat := 30

/-- `INTERNAL_MAX_KEYS = (PAGE_SIZE - sizeof(BPlusTreePageHeader) - sizeof(int)) / (2*sizeof(int))`
    `= (4096 - 12 - 4) / 8 = 510`. -/
def INTERNAL_MAX_KEYS : Nat := 510

/-- `INVALID_PAGE_ID` from btree.h. -/
def INVALID_PAGE_ID : Int := -1

/-- A leaf slot: `struct LeafEntry { int key; char value[VALUE_SIZE]; }`.
    `value` holds the raw bytes of the fixed-size array. -/
structure LeafEntry where
  key : Int
  value : List Nat
deriving Repr, DecidableEq

instance : Inhabited LeafEntry := ⟨⟨0, []⟩⟩

/-- A page image, as the tree interprets it through its typed views:
    the meta page (`struct MetaPage`), a leaf page
    (`LeafPageHeader` + entry array), an internal page
    (`BPlusTreePageHeader` + children array + keys array), or an
    all-zero page freshly produced by `NewPage` before initialization. -/
inductive PageData where
  | free
  | meta (rootPageId : Int)
  | leaf (next : Int) (parent : Int) (entries : List LeafEntry)
  | internal (parent : Int) (keys : List Int) (children : List Int)
deriving Repr, DecidableEq

/-- The logical page store: `pages` is the sequence of allocated pages
    (index = page id; `DiskManager::AllocatePage` returns `num_pages++`),
    `root` is the tree's `root_page_id_` member. -/
structure Store where
  pages : List PageData
  root : Int
deriving Repr, DecidableEq

/-- The store of a freshly created database file (no pages, empty tree). -/
def emptyStore : Store := ⟨[], INVALID_PAGE_ID⟩

/-- Reading page `pid` (models `FetchPage` + `DiskManager::ReadPage`;
    a read past the end of the file is zero-padded, hence `.free`). -/
def pageAt (s : Store) (pid : Int) : PageData :=
  if pid < 0 then .free else s.pages.getD pid.toNat .free

/-- Writing page `pid` in place (mutation of a pinned frame, later unpinned
    dirty).  Writes to invalid ids do not occur in reachable executions. -/
def setPage (s : Store) (pid : Int) (d : PageData) : Store :=
  if 0 ≤ pid then { s with pages := s.pages.set pid.toNat d } else s

/-- `BufferPoolManager::NewPage` + `DiskManager::AllocatePage`: the fresh id is
    the current page count; the new frame is zero-filled. -/
def allocPage (s : Store) : Int × Store :=
  ((s.pages.length : Int), { s with pages := s.pages ++ [.free] })

/-- Entry array of a page viewed as a leaf (`GetLeafEntries`). -/
def entriesOf : PageData → List LeafEntry
  | .leaf _ _ es => es
  | _ => []

/-- `next_page_id` of a page viewed as a leaf.  Non-leaf pages are never
    viewed as leaves in reachable executions; zero bytes decode as 0. -/
def nextOf : PageData → Int
  | .leaf nx _ _ => nx
  | _ => 0

/-- `parent_page_id` field of the common node header. -/
def parentOf : PageData → Int
  | .leaf _ par _ => par
  | .internal par _ _ => par
  | _ => 0

/-- Generic binary-search loop `while (lo < hi) { mid = (lo+hi)/2; if p(mid) lo = mid+1 else hi = mid }`,
    shared shape of `LeafFindKey` and `InternalFindChild`.  `fuel` bounds the
    iteration count (`hi - lo` suffices; the interval shrinks each step). -/
def bsearchGo (p : Nat → Bool) : Nat → Nat → Nat → Nat
  | 0, lo, _ => lo
  | fuel + 1, lo, hi =>
    if lo < hi then
      let mid := (lo + hi) / 2
      if p mid then bsearchGo p fuel (mid + 1) hi else bsearchGo p fuel lo mid
    else lo

/-- `BPlusTree::LeafFindKey`: lowest index `i` with `entries[i].key ≥ key`. -/
def LeafFindKey (es : List LeafEntry) (key : Int) : Nat :=
  bsearchGo (fun mid => decide ((es.getD mid default).key < key)) es.length 0 es.length

/-- `BPlusTree::InternalFindChild`: binary search for the child to follow,
    `children[lo]` where `lo` counts the keys `≤ key`. -/
def InternalFindChild (keys children : List Int) (key : Int) : Int :=
  children.getD (bsearchGo (fun mid => decide (keys.getD mid 0 ≤ key)) keys.length 0 keys.length) 0

/-- The value bytes actually read by `std::strncpy(dst, value.c_str(), VALUE_SIZE - 1)`:
    the bytes of `v` up to (excluding) its first NUL, truncated to
    `VALUE_SIZE - 1` bytes. -/
def cstrTrunc (v : List Nat) : List Nat :=
  (v.takeWhile (· ≠ 0)).take (VALUE_SIZE - 1)

/-- The raw 128-byte array after `memset(value, 0, VALUE_SIZE)` followed by
    `strncpy(value, v.c_str(), VALUE_SIZE - 1)`. -/
def storeBytes (v : List Nat) : List Nat :=
  cstrTrunc v ++ List.replicate (VALUE_SIZE - (cstrTrunc v).length) 0

/-- The raw array after `memset(value, 0, VALUE_SIZE)` alone (lazy deletion). -/
def zeroValue : List Nat := List.replicate VALUE_SIZE 0

/-- Reading a raw value array as a C string: `std::string(entries[idx].value)`
    takes the bytes up to the first NUL. -/
def cstr (v : List Nat) : List Nat := v.takeWhile (· ≠ 0)

/-- `BPlusTree::LeafInsert`, acting on the entry array: overwrite in place on a
    duplicate key, otherwise shift `[idx..)` right by one and fill slot `idx`. -/
def LeafInsert (es : List LeafEntry) (key : Int) (v : List Nat) : List LeafEntry :=
  let idx := LeafFindKey es key
  if idx < es.length ∧ (es.getD idx default).key = key then
    es.set idx ⟨key, storeBytes v⟩
  else
    es.take idx ++ ⟨key, storeBytes v⟩ :: es.drop idx

/-- `BPlusTree::InternalInsert`, acting on the key and child arrays: linear
    scan for the first index with `keys[idx] ≥ key`, insert `key` there and
    `right_child_id` just after the corresponding child. -/
def InternalInsert (keys children : List Int) (key : Int) (rightChildId : Int) :
    List Int × List Int :=
  let idx := (keys.takeWhile (· < key)).length
  (keys.take idx ++ key :: keys.drop idx,
   children.take (idx + 1) ++ rightChildId :: children.drop (idx + 1))

/-- `BPlusTree::FindLeafPage` descent loop from page `pid`.  The C++ loop
    terminates because the tree is finite and acyclic; `fuel` (instantiated
    with the page count, an upper bound on the height) models that. -/
def findLeafFrom (s : Store) : Nat → Int → Int → Int
  | 0, pid, _ => pid
  | fuel + 1, pid, key =>
    match pageAt s pid with
    | .internal _ keys children => findLeafFrom s fuel (InternalFindChild keys children key) key
    | _ => pid

/-- `BPlusTree::FindLeafPage` (callers check `root_page_id_ != INVALID_PAGE_ID`
    first). -/
def FindLeafPage (s : Store) (key : Int) : Int :=
  findLeafFrom s s.pages.length s.root key

/-- `BPlusTree::UpdateMetaPage`: fetch page 0, store `root_page_id_` into its
    root field, unpin dirty.  Page 0 exists whenever this runs in a reachable
    execution. -/
def UpdateMetaPage (s : Store) : Store :=
  if 0 < s.pages.length then setPage s 0 (.meta s.root) else s

/-- Write the `parent_page_id` header field of page `pid` in place (the C++
    writes through the common `BPlusTreePageHeader`; the page is a tree node
    in every reachable execution). -/
def setParent (s : Store) (pid : Int) (newPar : Int) : Store :=
  match pageAt s pid with
  | .leaf nx _ es => setPage s pid (.leaf nx newPar es)
  | .internal _ ks cs => setPage s pid (.internal newPar ks cs)
  | _ => s

/-- `BPlusTree::CreateNewRoot`. -/
def CreateNewRoot (s : Store) (leftPid : Int) (key : Int) (rightPid : Int) : Store :=
  let (newRootId, s1) := allocPage s
  let s2 := setPage s1 newRootId (.internal INVALID_PAGE_ID [key] [leftPid, rightPid])
  let s3 := setParent (setParent s2 leftPid newRootId) rightPid newRootId
  UpdateMetaPage { s3 with root := newRootId }

/-- The state-mutating part of `BPlusTree::SplitInternal`, up to (but not
    including) the recursive `InsertIntoParent` call: build the temporary
    key/child arrays with the new pair inserted, move the upper halves to a
    fresh page, reparent the moved children.  Returns the new store, the
    promoted middle key and the new page id (`none` when the page is not an
    internal node, which never happens in a reachable execution). -/
def splitInternalStep (s : Store) (pid : Int) (key : Int) (rightChildId : Int) :
    Option (Store × Int × Int) :=
  match pageAt s pid with
  | .internal par keys children =>
    let idx := (keys.takeWhile (· < key)).length
    let tks := keys.take idx ++ key :: keys.drop idx
    let tcs := children.take (idx + 1) ++ rightChildId :: children.drop (idx + 1)
    let sp := tks.length / 2
    let middle := tks.getD sp 0
    let (newId, s1) := allocPage s
    let s2 := setPage s1 pid (.internal par (tks.take sp) (tcs.take (sp + 1)))
    let s3 := setPage s2 newId (.internal par (tks.drop (sp + 1)) (tcs.drop (sp + 1)))
    let s4 := (tcs.drop (sp + 1)).foldl (fun st c => setParent st c newId) s3
    some (s4, middle, newId)
  | _ => none

/-- `BPlusTree::InsertIntoParent`.  The C++ recursion climbs the (acyclic)
    parent chain (via `SplitInternal`, whose non-recursive part is
    `splitInternalStep`); `fuel` bounds its length. -/
def InsertIntoParent (s : Store) (leftPid : Int) (key : Int) (rightPid : Int) :
    Nat → Store
  | 0 => s
  | fuel + 1 =>
    let lpar := parentOf (pageAt s leftPid)
    if lpar = INVALID_PAGE_ID then CreateNewRoot s leftPid key rightPid
    else
      let s1 := setParent s rightPid lpar
      match pageAt s1 lpar with
      | .internal gp keys children =>
        if keys.length < INTERNAL_MAX_KEYS then
          let (ks, cs) := InternalInsert keys children key rightPid
          setPage s1 lpar (.internal gp ks cs)
        else
          match splitInternalStep s1 lpar key rightPid with
          | some (s4, middle, newId) => InsertIntoParent s4 lpar middle newId fuel
          | none => s1
      | _ => s1

/-- `BPlusTree::SplitInternal` = `splitInternalStep` followed by
    `InsertIntoParent` on the promoted key. -/
def SplitInternal (s : Store) (pid : Int) (key : Int) (rightChildId : Int)
    (fuel : Nat) : Store :=
  match splitInternalStep s pid key rightChildId with
  | some (s4, middle, newId) => InsertIntoParent s4 pid middle newId fuel
  | none => s

/-- `BPlusTree::SplitLeaf`.  The temporary array merges the new entry into the
    existing entries at position `idx`; the left half stays in the old page,
    the right half moves to the new page, the sibling chain is spliced. -/
def SplitLeaf (s : Store) (pid : Int) (key : Int) (v : List Nat) (fuel : Nat) : Store :=
  let es := entriesOf (pageAt s pid)
  let nxt := nextOf (pageAt s pid)
  let par := parentOf (pageAt s pid)
  let idx := LeafFindKey es key
  let temp := es.take idx ++ (⟨key, storeBytes v⟩ : LeafEntry) :: es.drop idx
  let sp := temp.length / 2
  let (newId, s1) := allocPage s
  let s2 := setPage s1 pid (.leaf newId par (temp.take sp))
  let s3 := setPage s2 newId (.leaf nxt par (temp.drop sp))
  let middle := ((temp.drop sp).headD default).key
  InsertIntoParent s3 pid middle newId fuel

/-- `BPlusTree::Insert`.  Returns the C++ result flag together with the new
    store.  Case A (empty tree) allocates the meta page (zero-filled; its root
    field reads as 0) and the root leaf; case B descends and either inserts in
    place or splits. -/
def Insert (s : Store) (key : Int) (v : List Nat) : Bool × Store :=
  if s.root = INVALID_PAGE_ID then
    let (metaId, s1) := allocPage s
    let s2 := setPage s1 metaId (.meta 0)
    let (rootId, s3) := allocPage s2
    let s4 := setPage s3 rootId (.leaf INVALID_PAGE_ID INVALID_PAGE_ID (LeafInsert [] key v))
    let s5 := UpdateMetaPage { s4 with root := rootId }
    (true, s5)
  else
    let leafPid := FindLeafPage s key
    let p := pageAt s leafPid
    let es := entriesOf p
    if es.length < LEAF_MAX_ENTRIES then
      (true, setPage s leafPid (.leaf (nextOf p) (parentOf p) (LeafInsert es key v)))
    else
      (true, SplitLeaf s leafPid key v s.pages.length)

/-- `BPlusTree::Search`. -/
def Search (s : Store) (key : Int) : Option (List Nat) :=
  if s.root = INVALID_PAGE_ID then none
  else
    let es := entriesOf (pageAt s (FindLeafPage s key))
    let idx := LeafFindKey es key
    if idx < es.length ∧ (es.getD idx default).key = key then
      if (es.getD idx default).value.headD 0 ≠ 0 then
        some (cstr (es.getD idx default).value)
      else none
    else none

/-- `BPlusTree::Remove` (lazy deletion: zero the value bytes in place). -/
def Remove (s : Store) (key : Int) : Bool × Store :=
  if s.root = INVALID_PAGE_ID then (false, s)
  else
    let pid := FindLeafPage s key
    let p := pageAt s pid
    let es := entriesOf p
    let idx := LeafFindKey es key
    if idx < es.length ∧ (es.getD idx default).key = key then
      (true, setPage s pid (.leaf (nextOf p) (parentOf p) (es.set idx ⟨key, zeroValue⟩)))
    else
      (false, s)

/-- Inner loop of `BPlusTree::Scan` over one leaf's entries: early return
    (flag `true`) as soon as a key exceeds `endKey`; otherwise collect
    non-tombstoned entries with `key ≥ startKey`. -/
def scanEntries (a b : Int) : List LeafEntry → List (Int × List Nat) →
    List (Int × List Nat) × Bool
  | [], acc => (acc, false)
  | e :: rest, acc =>
    if b < e.key then (acc, true)
    else scanEntries a b rest
      (if a ≤ e.key ∧ e.value.headD 0 ≠ 0 then acc ++ [(e.key, cstr e.value)] else acc)

/-- Outer loop of `BPlusTree::Scan` over the sibling chain.  On the first
    iteration (empty result list) the start index comes from `LeafFindKey`;
    afterwards it is 0.  `fuel` bounds the chain length (the chain is acyclic
    in every reachable store). -/
def scanLoop (s : Store) (a b : Int) : Nat → Int → List (Int × List Nat) →
    List (Int × List Nat)
  | 0, _, acc => acc
  | fuel + 1, pid, acc =>
    let p := pageAt s pid
    let es := entriesOf p
    let start := if acc.isEmpty then LeafFindKey es a else 0
    match scanEntries a b (es.drop start) acc with
    | (acc2, true) => acc2
    | (acc2, false) =>
      if nextOf p = INVALID_PAGE_ID then acc2
      else scanLoop s a b fuel (nextOf p) acc2

/-- `BPlusTree::Scan`. -/
def Scan (s : Store) (a b : Int) : List (Int × List Nat) :=
  if s.root = INVALID_PAGE_ID then []
  else scanLoop s a b s.pages.length (FindLeafPage s a) []

/-- `BPlusTree::IsEmpty`. -/
def IsEmpty (s : Store) : Bool := s.root = INVALID_PAGE_ID

/-- `BPlusTree::LoadMetaPage` + constructor: the root page id persisted in
    page 0, or `INVALID_PAGE_ID` on a fresh file. -/
def LoadMetaPage (s : Store) : Int :=
  if 0 < s.pages.length then
    match pageAt s 0 with
    | .meta r => r
    | _ => 0
  else INVALID_PAGE_ID

/-- Destroying the tree/pool and reconstructing them on the same file: the
    pages all reach disk (see the buffer pool theorems), and the root page id
    is re-read by `LoadMetaPage`. -/
def reopen (s : Store) : Store :=
  { pages := s.pages, root := LoadMetaPage s }

/-- The stores reachable from a fresh database file by `Insert`/`Remove`
    (`Search` and `Scan` do not modify the store). -/
inductive Reachable : Store → Prop
  | empty : Reachable emptyStore
  | ins {s} (key : Int) (v : List Nat) : Reachable s → Reachable (Insert s key v).2
  | del {s} (key : Int) : Reachable s → Reachable (Remove s key).2

/-- A store-modifying public operation (`Search`/`Scan` are pure). -/
inductive Op where
  | ins (key : Int) (v : List Nat)
  | del (key : Int)

/-- Apply one operation to a store, keeping the resulting store. -/
def applyOp (s : Store) : Op → Store
  | .ins key v => (Insert s key v).2
  | .del key => (Remove s key).2

/-- Apply a sequence of operations in order. -/
def applyOps (s : Store) (ops : List Op) : Store := ops.foldl applyOp s

/-! ## Root page id stability (claim C10) -/

theorem setPage_root (s : Store) (p : Int) (d : PageData) : (setPage s p d).root = s.root := by
  unfold setPage; split <;> rfl

theorem setParent_root (s : Store) (p n : Int) : (setParent s p n).root = s.root := by
  unfold setParent
  split <;> simp [setPage_root]

theorem updateMeta_root (s : Store) : (UpdateMetaPage s).root = s.root := by
  unfold UpdateMetaPage; split <;> simp [setPage_root]

theorem foldl_setParent_root (l : List Int) (s : Store) (n : Int) :
    (l.foldl (fun st c => setParent st c n) s).root = s.root := by
  induction l generalizing s with
  | nil => rfl
  | cons c l ih => simp [List.foldl_cons, ih, setParent_root]

theorem createNewRoot_root (s : Store) (l k r : Int) :
    0 ≤ (CreateNewRoot s l k r).root := by
  unfold CreateNewRoot allocPage
  simp [updateMeta_root, setParent_root, setPage_root]

theorem allocPage_root (s : Store) : (allocPage s).2.root = s.root := rfl

theorem splitInternalStep_root (s : Store) (pid k rc : Int) (s4 : Store) (m n : Int)
    (h : splitInternalStep s pid k rc = some (s4, m, n)) : s4.root = s.root := by
  unfold splitInternalStep at h
  split at h
  · simp only [Option.some.injEq, Prod.mk.injEq] at h
    rw [← h.1]
    simp [foldl_setParent_root, setPage_root, allocPage_root]
  · exact absurd h (by simp)

theorem insertIntoParent_root (fuel : Nat) (s : Store) (l k r : Int)
    (h : s.root ≠ INVALID_PAGE_ID) :
    (InsertIntoParent s l k r fuel).root ≠ INVALID_PAGE_ID := by
  induction fuel generalizing s l k r with
  | zero => rw [InsertIntoParent]; exact h
  | succ fuel ih =>
    rw [InsertIntoParent]
    dsimp only
    split
    · have := createNewRoot_root s l k r
      intro hc; rw [hc] at this; exact absurd this (by norm_num [INVALID_PAGE_ID])
    · split
      · split
        · simpa only [setPage_root, setParent_root] using h
        · split
          · rename_i s4 m n heq
            exact ih _ _ _ _ (by
              rw [splitInternalStep_root _ _ _ _ _ _ _ heq, setParent_root]; exact h)
          · simpa only [setParent_root] using h
      · simpa only [setParent_root] using h

theorem splitInternal_root (s : Store) (pid k rc : Int) (fuel : Nat)
    (h : s.root ≠ INVALID_PAGE_ID) :
    (SplitInternal s pid k rc fuel).root ≠ INVALID_PAGE_ID := by
  unfold SplitInternal
  split
  · rename_i s4 m n heq
    exact insertIntoParent_root fuel _ _ _ _
      (by rw [splitInternalStep_root _ _ _ _ _ _ _ heq]; exact h)
  · exact h

theorem splitLeaf_root (s : Store) (pid k : Int) (v : List Nat) (fuel : Nat)
    (h : s.root ≠ INVALID_PAGE_ID) :
    (SplitLeaf s pid k v fuel).root ≠ INVALID_PAGE_ID := by
  unfold SplitLeaf
  dsimp only
  exact insertIntoParent_root fuel _ _ _ _
    (by simpa only [setPage_root, allocPage_root] using h)

/-- `Insert` never leaves the root invalid. -/
theorem insert_root_valid (s : Store) (key : Int) (v : List Nat) :
    (Insert s key v).2.root ≠ INVALID_PAGE_ID := by
  unfold Insert
  split
  · dsimp only
    simp only [updateMeta_root, setPage_root, allocPage]
    intro hc
    simp only [INVALID_PAGE_ID] at hc
    omega
  · rename_i hroot
    dsimp only
    split
    · simpa [setPage_root] using hroot
    · exact splitLeaf_root s _ key v s.pages.length hroot

/-- `Remove` never changes the root. -/
theorem remove_root (s : Store) (key : Int) : (Remove s key).2.root = s.root := by
  unfold Remove
  split
  · rfl
  · dsimp only
    split <;> simp [setPage_root]

theorem applyOp_root_valid (s : Store) (op : Op) (h : s.root ≠ INVALID_PAGE_ID) :
    (applyOp s op).root ≠ INVALID_PAGE_ID := by
  cases op with
  | ins key v => exact insert_root_valid s key v
  | del key => rw [applyOp, remove_root]; exact h

theorem applyOps_root_valid (ops : List Op) (s : Store) (h : s.root ≠ INVALID_PAGE_ID) :
    (applyOps s ops).root ≠ INVALID_PAGE_ID := by
  induction ops generalizing s with
  | nil => exact h
  | cons op ops ih => exact ih _ (applyOp_root_valid s op h)

/-- C10: once any `Insert` has succeeded on a store, `IsEmpty()` returns
    `false` after every subsequent sequence of `Insert`/`Remove` operations
    (`Search`/`Scan` do not modify the store): no operation ever resets
    `root_page_id_` to `INVALID_PAGE_ID`, so lazy deletion can never return
    the tree to the empty state even when every key has been removed. -/
theorem C10_isEmpty_false_forever (s : Store) (key : Int) (v : List Nat) (ops : List Op) :
    IsEmpty (applyOps (Insert s key v).2 ops) = false := by
  have h := applyOps_root_valid ops _ (insert_root_valid s key v)
  simpa [IsEmpty] using h

/-- If `Remove` returns `false` it has not modified the store. -/
theorem remove_false_unchanged (s : Store) (key : Int)
    (h : (Remove s key).1 = false) : (Remove s key).2 = s := by
  revert h
  unfold Remove
  split
  · intro _; rfl
  · dsimp only
    split
    · intro h; exact absurd h (by simp)
    · intro _; rfl

/-! ## Buffer pool model

A state-machine translation of `BufferPoolManager` (buffer_pool_manager.h):
an array of frames, a page table (association list, keys unique by the map
invariant), a free list, an LRU list of unpinned resident frames (front =
most recently unpinned; `lru_map_` only supports membership tests and
erasure, subsumed by `List.erase` on a duplicate-free list), and the backing
`DiskManager` (a page-indexed image plus the allocation counter
`num_pages_`; reads past the end of the file are zero-padded, hence the
total function defaulting to zero pages). -/

/-- One buffer pool frame (`struct Page`). -/
structure Frame where
  pageId : Int
  data : PageData
  isDirty : Bool
  pinCount : Int
deriving Repr, DecidableEq

instance : Inhabited Frame := ⟨⟨-1, .free, false, 0⟩⟩

/-- The disk manager: page image of the file and `num_pages_`. -/
structure Disk where
  data : Int → PageData
  numPages : Int

/-- `DiskManager::WritePage`. -/
def diskWrite (d : Disk) (pid : Int) (p : PageData) : Disk :=
  { d with data := fun q => if q = pid then p else d.data q }

/-- A fresh (empty) disk file. -/
def emptyDisk : Disk := ⟨fun _ => .free, 0⟩

/-- The whole buffer pool state. -/
structure BPState where
  poolSize : Nat
  frames : List Frame
  pageTable : List (Int × Nat)
  freeList : List Nat
  lruList : List Nat
  disk : Disk

/-- `BufferPoolManager` constructor: all frames in the free list. -/
def initBP (n : Nat) (d : Disk) : BPState :=
  ⟨n, List.replicate n default, [], List.range n, [], d⟩

/-- `page_table_[pid] = fid` (`std::unordered_map::operator[]` assignment). -/
def ptAssign (t : List (Int × Nat)) (pid : Int) (fid : Nat) : List (Int × Nat) :=
  if (List.lookup pid t).isSome then t.map (fun e => if e.1 = pid then (pid, fid) else e)
  else t ++ [(pid, fid)]

/-- `page_table_.erase(pid)`. -/
def ptErase (t : List (Int × Nat)) (pid : Int) : List (Int × Nat) :=
  t.filter (fun e => e.1 ≠ pid)

/-- The LRU pop-back loop of `FindVictimPage`: pop the back repeatedly,
    dropping each popped entry from the LRU index, until a frame with
    `pin_count == 0` turns up.  Takes and returns the LRU list reversed
    (head = least recently used). -/
def fvGo (frames : List Frame) : List Nat → Option Nat × List Nat
  | [] => (none, [])
  | fid :: rest =>
    if (frames.getD fid default).pinCount = 0 then (some fid, rest)
    else fvGo frames rest

/-- `BufferPoolManager::FindVictimPage`: free list first, then LRU from the
    back.  `none` models the `pool_size_` sentinel. -/
def FindVictimPage (st : BPState) : Option Nat × BPState :=
  match st.freeList with
  | fid :: rest => (some fid, { st with freeList := rest })
  | [] =>
    let (r, rev2) := fvGo st.frames st.lruList.reverse
    (r, { st with lruList := rev2.reverse })

/-- Shared eviction step of `FetchPage`/`NewPage`: if the victim frame holds a
    resident page, write it back when dirty and drop it from the page table. -/
def evictFrame (st : BPState) (fid : Nat) : BPState :=
  let f := st.frames.getD fid default
  if f.pageId ≠ -1 then
    let st1 := if f.isDirty then { st with disk := diskWrite st.disk f.pageId f.data } else st
    { st1 with pageTable := ptErase st1.pageTable f.pageId }
  else st

/-- `BufferPoolManager::FetchPage`.  Returns the frame index handed to the
    caller (`Page*`), or `none`. -/
def FetchPage (st : BPState) (pid : Int) : Option Nat × BPState :=
  match List.lookup pid st.pageTable with
  | some fid =>
    let f := st.frames.getD fid default
    (some fid, { st with frames := st.frames.set fid { f with pinCount := f.pinCount + 1 },
                         lruList := st.lruList.erase fid })
  | none =>
    match FindVictimPage st with
    | (none, st1) => (none, st1)
    | (some fid, st1) =>
      let st2 := evictFrame st1 fid
      let newFrame : Frame := ⟨pid, st2.disk.data pid, false, 1⟩
      (some fid, { st2 with frames := st2.frames.set fid newFrame,
                            pageTable := ptAssign st2.pageTable pid fid })

/-- `BufferPoolManager::UnpinPage`. -/
def UnpinPage (st : BPState) (pid : Int) (isDirty : Bool) : Bool × BPState :=
  match List.lookup pid st.pageTable with
  | none => (false, st)
  | some fid =>
    let f := st.frames.getD fid default
    if f.pinCount ≤ 0 then (false, st)
    else
      let f1 : Frame := { f with pinCount := f.pinCount - 1, isDirty := f.isDirty || isDirty }
      let st1 := { st with frames := st.frames.set fid f1 }
      if f1.pinCount = 0 then (true, { st1 with lruList := fid :: st1.lruList })
      else (true, st1)

/-- `BufferPoolManager::FlushPage`. -/
def FlushPage (st : BPState) (pid : Int) : Bool × BPState :=
  match List.lookup pid st.pageTable with
  | none => (false, st)
  | some fid =>
    let f := st.frames.getD fid default
    (true, { st with disk := diskWrite st.disk f.pageId f.data,
                     frames := st.frames.set fid { f with isDirty := false } })

/-- `BufferPoolManager::NewPage`.  Returns the fresh page id and frame. -/
def NewPage (st : BPState) : Option (Int × Nat) × BPState :=
  match FindVictimPage st with
  | (none, st1) => (none, st1)
  | (some fid, st1) =>
    let st2 := evictFrame st1 fid
    let pid := st2.disk.numPages
    let st3 := { st2 with disk := { st2.disk with numPages := st2.disk.numPages + 1 } }
    let newFrame : Frame := ⟨pid, .free, false, 1⟩
    (some (pid, fid), { st3 with frames := st3.frames.set fid newFrame,
                                 pageTable := ptAssign st3.pageTable pid fid })

/-- `BufferPoolManager::DeletePage`. -/
def DeletePage (st : BPState) (pid : Int) : Bool × BPState :=
  match List.lookup pid st.pageTable with
  | none => (true, st)
  | some fid =>
    let f := st.frames.getD fid default
    if 0 < f.pinCount then (false, st)
    else
      (true, { st with lruList := st.lruList.erase fid,
                       pageTable := ptErase st.pageTable pid,
                       frames := st.frames.set fid { f with pageId := -1, isDirty := false, pinCount := 0 },
                       freeList := st.freeList ++ [fid] })

/-- `BufferPoolManager::FlushAllPages`: write back every resident dirty page
    and clear its dirty bit (iteration order over the hash map is
    unspecified; the folded writes target distinct pages). -/
def FlushAllPages (st : BPState) : BPState :=
  st.pageTable.foldl
    (fun acc e =>
      let f := acc.frames.getD e.2 default
      if f.isDirty then
        { acc with disk := diskWrite acc.disk f.pageId f.data,
                   frames := acc.frames.set e.2 { f with isDirty := false } }
      else acc)
    st

/-! ## Buffer pool invariants -/

/-- Helper: `List.getD` through the pin count, total over frame indices. -/
def pinOf (st : BPState) (fid : Nat) : Int := (st.frames.getD fid default).pinCount

/-- Frame indices currently resident (range of the page table). -/
def residentFids (st : BPState) : List Nat := st.pageTable.map (·.2)

/-- The buffer pool invariant of §4.2: a frame is in the free list xor
    resides in the page table; a resident frame is in the LRU list iff its
    pin count is zero; page-table entries point at frames holding the keyed
    page; free frames are reset; pins are never negative. -/
structure BPInv (st : BPState) : Prop where
  framesLen : st.frames.length = st.poolSize
  keysNodup : (st.pageTable.map (·.1)).Nodup
  valsNodup : (residentFids st).Nodup
  tableOk : ∀ e ∈ st.pageTable, e.2 < st.poolSize ∧
    (st.frames.getD e.2 default).pageId = e.1 ∧ 0 ≤ e.1 ∧ e.1 < st.disk.numPages
  freeNodup : st.freeList.Nodup
  freeOk : ∀ fid ∈ st.freeList, fid < st.poolSize ∧ fid ∉ residentFids st ∧
    (st.frames.getD fid default).pageId = -1 ∧ (st.frames.getD fid default).pinCount = 0 ∧
    (st.frames.getD fid default).isDirty = false
  cover : ∀ fid, fid < st.poolSize → fid ∈ st.freeList ∨ fid ∈ residentFids st
  lruNodup : st.lruList.Nodup
  lruOk : ∀ fid ∈ st.lruList, fid ∈ residentFids st ∧ pinOf st fid = 0
  lruComplete : ∀ e ∈ st.pageTable, pinOf st e.2 = 0 → e.2 ∈ st.lruList
  pinNonneg : ∀ fid, 0 ≤ pinOf st fid
  numNonneg : 0 ≤ st.disk.numPages

theorem lookup_some_mem {t : List (Int × Nat)} {pid : Int} {fid : Nat}
    (h : List.lookup pid t = some fid) : (pid, fid) ∈ t := by
  induction t with
  | nil => simp [List.lookup] at h
  | cons e t ih =>
    rw [show e = (e.1, e.2) from rfl, List.lookup_cons] at h
    by_cases hc : pid = e.1
    · simp [hc] at h
      simp [← h, hc]
    · simp [beq_false_of_ne hc] at h
      exact List.mem_cons_of_mem _ (ih h)

theorem mem_lookup_of_nodup {t : List (Int × Nat)} {pid : Int} {fid : Nat}
    (hn : (t.map (·.1)).Nodup) (h : (pid, fid) ∈ t) : List.lookup pid t = some fid := by
  induction t with
  | nil => simp at h
  | cons e t ih =>
    rw [List.map_cons, List.nodup_cons] at hn
    rcases List.mem_cons.1 h with h | h
    · rw [← h, List.lookup_cons, beq_self_eq_true]
    · have hne : pid ≠ e.1 := by
        intro hc
        exact hn.1 (by rw [← hc]; exact List.mem_map_of_mem _ h)
      rw [show e = (e.1, e.2) from rfl, List.lookup_cons, beq_false_of_ne hne]
      exact ih hn.2 h

theorem lookup_none_iff {t : List (Int × Nat)} {pid : Int} :
    List.lookup pid t = none ↔ pid ∉ t.map (·.1) := by
  rw [List.lookup_eq_none_iff]
  constructor
  · intro h hc
    rcases List.mem_map.1 hc with ⟨e, he, hk⟩
    have := h e he
    simp [hk] at this
  · intro h e he
    simp only [bne_iff_ne, ne_eq]
    intro hc
    exact h (List.mem_map.2 ⟨e, he, hc.symm⟩)

theorem mem_ptErase {t : List (Int × Nat)} {pid : Int} {e : Int × Nat} :
    e ∈ ptErase t pid ↔ e ∈ t ∧ e.1 ≠ pid := by
  simp [ptErase, List.mem_filter]

theorem ptErase_keys_sublist (t : List (Int × Nat)) (pid : Int) :
    ((ptErase t pid).map (·.1)).Sublist (t.map (·.1)) :=
  (List.filter_sublist t).map _

theorem ptErase_vals_sublist (t : List (Int × Nat)) (pid : Int) :
    ((ptErase t pid).map (·.2)).Sublist (t.map (·.2)) :=
  (List.filter_sublist t).map _

theorem ptAssign_of_lookup_none {t : List (Int × Nat)} {pid : Int} (fid : Nat)
    (h : List.lookup pid t = none) : ptAssign t pid fid = t ++ [(pid, fid)] := by
  rw [ptAssign, h]
  rfl

theorem getD_set_self {l : List Frame} {i : Nat} {a : Frame} (h : i < l.length) :
    (l.set i a).getD i default = a := by
  rw [List.getD_eq_getElem?_getD, List.getElem?_set_self h]
  rfl

theorem getD_set_ne {l : List Frame} {i j : Nat} {a : Frame} (h : i ≠ j) :
    (l.set i a).getD j default = l.getD j default := by
  rw [List.getD_eq_getElem?_getD, List.getElem?_set_ne h, ← List.getD_eq_getElem?_getD]

/-- `UnpinPage` preserves the buffer pool invariant. -/
theorem bpinv_unpin {st : BPState} (inv : BPInv st) (pid : Int) (d : Bool) :
    BPInv (UnpinPage st pid d).2 := by
  unfold UnpinPage
  cases hl : List.lookup pid st.pageTable with
  | none => exact inv
  | some fid =>
    dsimp only
    have hmem : (pid, fid) ∈ st.pageTable := lookup_some_mem hl
    have hres : fid ∈ residentFids st := List.mem_map_of_mem _ hmem
    have hfid : fid < st.poolSize := (inv.tableOk _ hmem).1
    have hlen : fid < st.frames.length := inv.framesLen ▸ hfid
    by_cases hp : (st.frames.getD fid default).pinCount ≤ 0
    · simp only [if_pos hp]
      exact inv
    · simp only [if_neg hp]
      have hnotlru : fid ∉ st.lruList := by
        intro hc
        exact hp (le_of_eq (inv.lruOk fid hc).2)
      have hnotfree : fid ∉ st.freeList := fun hc => ((inv.freeOk fid hc).2.1) hres
      set f := st.frames.getD fid default with hf
      set f1 : Frame := { f with pinCount := f.pinCount - 1, isDirty := f.isDirty || d } with hf1
      have hgetself : (st.frames.set fid f1).getD fid default = f1 := getD_set_self hlen
      have hgetne : ∀ g, g ≠ fid → (st.frames.set fid f1).getD g default =
          st.frames.getD g default := fun g hg => getD_set_ne (Ne.symm hg)
      have base : ∀ (lru2 : List Nat),
          (∀ g ∈ lru2, g ∈ residentFids st ∧
            ((st.frames.set fid f1).getD g default).pinCount = 0) →
          lru2.Nodup →
          (∀ e ∈ st.pageTable, ((st.frames.set fid f1).getD e.2 default).pinCount = 0 →
            e.2 ∈ lru2) →
          BPInv { st with frames := st.frames.set fid f1, lruList := lru2 } := by
        intro lru2 hok hnd hcomp
        constructor
        · simpa [List.length_set] using inv.framesLen
        · exact inv.keysNodup
        · exact inv.valsNodup
        · intro e he
          rcases inv.tableOk e he with ⟨h1, h2, h3⟩
          refine ⟨h1, ?_, h3⟩
          by_cases hc : e.2 = fid
          · rw [hc, hgetself]
            rw [hc] at h2
            exact h2
          · rw [hgetne _ hc]; exact h2
        · exact inv.freeNodup
        · intro g hg
          rcases inv.freeOk g hg with ⟨h1, h2, h3⟩
          have hgne : g ≠ fid := fun hc => h2 (hc ▸ hres)
          rw [show ({ st with frames := st.frames.set fid f1, lruList := lru2 } :
            BPState).frames = st.frames.set fid f1 from rfl, hgetne _ hgne]
          exact ⟨h1, h2, h3⟩
        · exact inv.cover
        · exact hnd
        · intro g hg
          have := hok g hg
          exact ⟨this.1, this.2⟩
        · intro e he hz
          exact hcomp e he hz
        · intro g
          by_cases hc : g = fid
          · subst hc
            show 0 ≤ ((st.frames.set g f1).getD g default).pinCount
            rw [hgetself]
            have := inv.pinNonneg g
            simp only [pinOf] at this hp ⊢
            omega
          · show 0 ≤ ((st.frames.set fid f1).getD g default).pinCount
            rw [hgetne _ hc]
            exact inv.pinNonneg g
        · exact inv.numNonneg
      split
      · rename_i hz
        refine base (fid :: st.lruList) ?_ ?_ ?_
        · intro g hg
          rcases List.mem_cons.1 hg with hg | hg
          · subst hg; exact ⟨hres, by rw [hgetself]; exact hz⟩
          · rcases inv.lruOk g hg with ⟨h1, h2⟩
            have hgne : g ≠ fid := fun hc => hnotlru (hc ▸ hg)
            exact ⟨h1, by rw [hgetne _ hgne]; exact h2⟩
        · exact List.nodup_cons.2 ⟨hnotlru, inv.lruNodup⟩
        · intro e he hz2
          by_cases hc : e.2 = fid
          · rw [hc]; exact List.mem_cons_self _ _
          · rw [hgetne _ hc] at hz2
            exact List.mem_cons_of_mem _ (inv.lruComplete e he hz2)
      · rename_i hz
        refine base st.lruList ?_ inv.lruNodup ?_
        · intro g hg
          rcases inv.lruOk g hg with ⟨h1, h2⟩
          have hgne : g ≠ fid := fun hc => hnotlru (hc ▸ hg)
          exact ⟨h1, by rw [hgetne _ hgne]; exact h2⟩
        · intro e he hz2
          by_cases hc : e.2 = fid
          · rw [hc, hgetself] at hz2
            exact absurd hz2 hz
          · rw [hgetne _ hc] at hz2
            exact inv.lruComplete e he hz2

/-- Core of `FlushPage`/`FlushAllPages` frame updates: clearing the dirty bit
    of a resident frame (and writing the disk) preserves the invariant. -/
theorem bpinv_clearDirty {st : BPState} (inv : BPInv st) {e : Int × Nat}
    (he : e ∈ st.pageTable) (d : Disk) (hnum : d.numPages = st.disk.numPages) :
    BPInv { st with
            disk := d,
            frames := st.frames.set e.2
              { st.frames.getD e.2 default with isDirty := false } } := by
  have hfid : e.2 < st.poolSize := (inv.tableOk e he).1
  have hlen : e.2 < st.frames.length := inv.framesLen ▸ hfid
  have hres : e.2 ∈ residentFids st := List.mem_map_of_mem _ he
  set f1 : Frame := { st.frames.getD e.2 default with isDirty := false } with hf1
  have hgetself : (st.frames.set e.2 f1).getD e.2 default = f1 := getD_set_self hlen
  have hgetne : ∀ g, g ≠ e.2 → (st.frames.set e.2 f1).getD g default =
      st.frames.getD g default := fun g hg => getD_set_ne (Ne.symm hg)
  have hpin : ∀ g, ((st.frames.set e.2 f1).getD g default).pinCount =
      (st.frames.getD g default).pinCount := by
    intro g
    by_cases hc : g = e.2
    · subst hc; rw [hgetself]
    · rw [hgetne _ hc]
  constructor
  · simpa [List.length_set] using inv.framesLen
  · exact inv.keysNodup
  · exact inv.valsNodup
  · intro e2 he2
    rcases inv.tableOk e2 he2 with ⟨h1, h2, h3, h4⟩
    refine ⟨h1, ?_, h3, by rw [hnum]; exact h4⟩
    by_cases hc : e2.2 = e.2
    · rw [hc, hgetself]; rw [hc] at h2; exact h2
    · rw [hgetne _ hc]; exact h2
  · exact inv.freeNodup
  · intro g hg
    rcases inv.freeOk g hg with ⟨h1, h2, h3, h4, h5⟩
    have hgne : g ≠ e.2 := fun hc => h2 (hc ▸ hres)
    refine ⟨h1, h2, ?_⟩
    rw [show ({ st with disk := d, frames := st.frames.set e.2 f1 } : BPState).frames =
      st.frames.set e.2 f1 from rfl, hgetne _ hgne]
    exact ⟨h3, h4, h5⟩
  · exact inv.cover
  · exact inv.lruNodup
  · intro g hg
    refine ⟨(inv.lruOk g hg).1, ?_⟩
    show ((st.frames.set e.2 f1).getD g default).pinCount = 0
    rw [hpin]
    exact (inv.lruOk g hg).2
  · intro e2 he2 hz
    refine inv.lruComplete e2 he2 ?_
    show (st.frames.getD e2.2 default).pinCount = 0
    rw [← hpin e2.2]
    exact hz
  · intro g
    show 0 ≤ ((st.frames.set e.2 f1).getD g default).pinCount
    rw [hpin]
    exact inv.pinNonneg g
  · rw [show ({ st with disk := d, frames := st.frames.set e.2 f1 } : BPState).disk = d
      from rfl, hnum]
    exact inv.numNonneg

/-- `FlushPage` preserves the buffer pool invariant. -/
theorem bpinv_flush {st : BPState} (inv : BPInv st) (pid : Int) :
    BPInv (FlushPage st pid).2 := by
  unfold FlushPage
  cases hl : List.lookup pid st.pageTable with
  | none => exact inv
  | some fid =>
    dsimp only
    exact bpinv_clearDirty inv (lookup_some_mem hl) _ rfl

/-- With duplicate-free frame indices, an entry of the page table is
    determined by its frame index. -/
theorem entry_unique_fid {t : List (Int × Nat)} (h : (t.map (·.2)).Nodup)
    {p1 p2 : Int} {f : Nat} (h1 : (p1, f) ∈ t) (h2 : (p2, f) ∈ t) : p1 = p2 := by
  have := List.inj_on_of_nodup_map h h1 h2 rfl
  exact congrArg Prod.fst this

/-- Membership in the page table after erasing one page id, assuming unique
    keys: exactly the entries with a different key survive. -/
theorem mem_ptErase_iff {t : List (Int × Nat)} (hk : (t.map (·.1)).Nodup)
    (hv : (t.map (·.2)).Nodup) {pid : Int} {fid : Nat} (hm : (pid, fid) ∈ t) :
    ∀ g, (g ∈ (ptErase t pid).map (·.2)) ↔ g ∈ t.map (·.2) ∧ g ≠ fid := by
  intro g
  constructor
  · intro hg
    rcases List.mem_map.1 hg with ⟨e, he, hkk⟩
    rcases mem_ptErase.1 he with ⟨he2, hne⟩
    subst hkk
    refine ⟨List.mem_map_of_mem _ he2, ?_⟩
    intro hc
    refine hne (entry_unique_fid hv ?_ hm)
    rw [← hc]
    exact he2
  · intro ⟨hg, hne⟩
    rcases List.mem_map.1 hg with ⟨e, he, hkk⟩
    subst hkk
    have hkne : e.1 ≠ pid := by
      intro hc
      refine hne ?_
      have := List.inj_on_of_nodup_map hk he hm (show e.1 = (pid, fid).1 from hc)
      exact congrArg Prod.snd this
    exact List.mem_map_of_mem _ (mem_ptErase.2 ⟨he, hkne⟩)

/-- `DeletePage` preserves the buffer pool invariant. -/
theorem bpinv_delete {st : BPState} (inv : BPInv st) (pid : Int) :
    BPInv (DeletePage st pid).2 := by
  unfold DeletePage
  cases hl : List.lookup pid st.pageTable with
  | none => exact inv
  | some fid =>
    dsimp only
    have hmem : (pid, fid) ∈ st.pageTable := lookup_some_mem hl
    have hres : fid ∈ residentFids st := List.mem_map_of_mem _ hmem
    have hfid : fid < st.poolSize := (inv.tableOk _ hmem).1
    have hlen : fid < st.frames.length := inv.framesLen ▸ hfid
    split
    · exact inv
    · rename_i hpin0
      have hpz : (st.frames.getD fid default).pinCount = 0 := by
        have := inv.pinNonneg fid
        simp only [pinOf] at this
        omega
      have hnotfree : fid ∉ st.freeList := fun hc => ((inv.freeOk fid hc).2.1) hres
      set f1 : Frame := { st.frames.getD fid default with
        pageId := -1, isDirty := false, pinCount := 0 } with hf1
      have hgetself : (st.frames.set fid f1).getD fid default = f1 := getD_set_self hlen
      have hgetne : ∀ g, g ≠ fid → (st.frames.set fid f1).getD g default =
          st.frames.getD g default := fun g hg => getD_set_ne (Ne.symm hg)
      have hresE := mem_ptErase_iff inv.keysNodup inv.valsNodup hmem
      constructor
      · simpa [List.length_set] using inv.framesLen
      · exact (ptErase_keys_sublist _ _).nodup inv.keysNodup
      · exact (ptErase_vals_sublist _ _).nodup inv.valsNodup
      · intro e he
        rcases mem_ptErase.1 he with ⟨he2, hne⟩
        rcases inv.tableOk e he2 with ⟨h1, h2, h3, h4⟩
        have hene : e.2 ≠ fid := by
          intro hc
          exact hne (entry_unique_fid inv.valsNodup (hc ▸ he2) hmem)
        refine ⟨h1, ?_, h3, h4⟩
        show ((st.frames.set fid f1).getD e.2 default).pageId = e.1
        rw [hgetne _ hene]
        exact h2
      · show (st.freeList ++ [fid]).Nodup
        rw [List.nodup_append]
        exact ⟨inv.freeNodup, List.nodup_singleton _, by
          intro a ha hb
          rw [List.mem_singleton] at hb
          exact hnotfree (hb ▸ ha)⟩
      · intro g hg
        rcases List.mem_append.1 hg with hg | hg
        · rcases inv.freeOk g hg with ⟨h1, h2, h3, h4, h5⟩
          have hgne : g ≠ fid := fun hc => h2 (hc ▸ hres)
          refine ⟨h1, fun hc => h2 ((hresE g).1 hc).1, ?_, ?_, ?_⟩
          · show ((st.frames.set fid f1).getD g default).pageId = -1
            rw [hgetne _ hgne]; exact h3
          · show ((st.frames.set fid f1).getD g default).pinCount = 0
            rw [hgetne _ hgne]; exact h4
          · show ((st.frames.set fid f1).getD g default).isDirty = false
            rw [hgetne _ hgne]; exact h5
        · rw [List.mem_singleton] at hg
          refine ⟨hg ▸ hfid, fun hc => ((hresE g).1 hc).2 hg, ?_, ?_, ?_⟩
          · show ((st.frames.set fid f1).getD g default).pageId = -1
            rw [hg, hgetself]
          · show ((st.frames.set fid f1).getD g default).pinCount = 0
            rw [hg, hgetself]
          · show ((st.frames.set fid f1).getD g default).isDirty = false
            rw [hg, hgetself]
      · intro g hg
        rcases inv.cover g hg with h | h
        · exact Or.inl (List.mem_append_left _ h)
        · by_cases hc : g = fid
          · exact Or.inl (List.mem_append_right _ (by rw [hc]; exact List.mem_singleton_self _))
          · exact Or.inr ((hresE g).2 ⟨h, hc⟩)
      · exact inv.lruNodup.erase _
      · intro g hg
        rcases (inv.lruNodup.mem_erase_iff).1 hg with ⟨hne, hg2⟩
        rcases inv.lruOk g hg2 with ⟨h1, h2⟩
        refine ⟨(hresE g).2 ⟨h1, hne⟩, ?_⟩
        show ((st.frames.set fid f1).getD g default).pinCount = 0
        rw [hgetne _ hne]
        exact h2
      · intro e he hz
        rcases mem_ptErase.1 he with ⟨he2, hne⟩
        have hene : e.2 ≠ fid := by
          intro hc
          exact hne (entry_unique_fid inv.valsNodup (hc ▸ he2) hmem)
        have : (st.frames.getD e.2 default).pinCount = 0 := by
          have hz2 : ((st.frames.set fid f1).getD e.2 default).pinCount = 0 := hz
          rw [hgetne _ hene] at hz2
          exact hz2
        rw [(inv.lruNodup.mem_erase_iff)]
        exact ⟨hene, inv.lruComplete e he2 this⟩
      · intro g
        show 0 ≤ ((st.frames.set fid f1).getD g default).pinCount
        by_cases hc : g = fid
        · subst hc; rw [hgetself]
        · rw [hgetne _ hc]; exact inv.pinNonneg g
      · exact inv.numNonneg

/-! ## Victim selection -/

/-- When the head candidate has pin count zero (guaranteed by the LRU
    invariant), the defensive pop-back loop accepts it at once. -/
theorem fvGo_cons_zero {frames : List Frame} {x : Nat} {r : List Nat}
    (h : (frames.getD x default).pinCount = 0) :
    fvGo frames (x :: r) = (some x, r) := by
  unfold fvGo
  rw [if_pos h]

theorem fv_of_free {st : BPState} {fid : Nat} {rest : List Nat}
    (h : st.freeList = fid :: rest) :
    FindVictimPage st = (some fid, { st with freeList := rest }) := by
  unfold FindVictimPage
  rw [h]

theorem fv_of_lru {st : BPState} (inv : BPInv st) {fid : Nat} {init : List Nat}
    (hfree : st.freeList = []) (hlru : st.lruList = init ++ [fid]) :
    FindVictimPage st = (some fid, { st with lruList := init }) := by
  have hrev : st.lruList.reverse = fid :: init.reverse := by
    rw [hlru, List.reverse_append, List.reverse_singleton]
    rfl
  have hpz : (st.frames.getD fid default).pinCount = 0 :=
    (inv.lruOk fid (by rw [hlru]; exact List.mem_append_right _ (by simp))).2
  unfold FindVictimPage
  rw [hfree]
  dsimp only
  rw [hrev, fvGo_cons_zero hpz]
  dsimp only
  rw [List.reverse_reverse]

theorem setLru_self (st : BPState) : ({ st with lruList := st.lruList } : BPState) = st := rfl

theorem fv_of_nil {st : BPState} (hfree : st.freeList = []) (hlru : st.lruList = []) :
    FindVictimPage st = (none, st) := by
  rcases st with ⟨ps, fr, pt, fl, ll, dk⟩
  simp only at hfree hlru
  subst hfree
  subst hlru
  rfl

theorem fv_none_state {st : BPState} (inv : BPInv st) {st1 : BPState}
    (h : FindVictimPage st = (none, st1)) : st1 = st ∧ st.freeList = [] ∧ st.lruList = [] := by
  rcases hfree : st.freeList with _ | ⟨f, rest⟩
  · rcases st.lruList.eq_nil_or_concat with hlru | ⟨init, last, hcat⟩
    · rw [fv_of_nil hfree hlru] at h
      rw [Prod.mk.injEq] at h
      exact ⟨h.2.symm, rfl, hlru⟩
    · exfalso
      rw [List.concat_eq_append] at hcat
      rw [fv_of_lru inv hfree hcat] at h
      rw [Prod.mk.injEq] at h
      exact Option.noConfusion h.1
  · exfalso
    rw [fv_of_free hfree] at h
    rw [Prod.mk.injEq] at h
    exact Option.noConfusion h.1

/-- State of the pool after a victim frame has been obtained and evicted:
    the invariant holds except that the victim frame `fid` is temporarily
    neither free nor resident. -/
structure VictimOk (st : BPState) (fid : Nat) : Prop where
  framesLen : st.frames.length = st.poolSize
  keysNodup : (st.pageTable.map (·.1)).Nodup
  valsNodup : (residentFids st).Nodup
  tableOk : ∀ e ∈ st.pageTable, e.2 < st.poolSize ∧
    (st.frames.getD e.2 default).pageId = e.1 ∧ 0 ≤ e.1 ∧ e.1 < st.disk.numPages
  freeNodup : st.freeList.Nodup
  freeOk : ∀ g ∈ st.freeList, g < st.poolSize ∧ g ∉ residentFids st ∧
    (st.frames.getD g default).pageId = -1 ∧ (st.frames.getD g default).pinCount = 0 ∧
    (st.frames.getD g default).isDirty = false
  coverV : ∀ g, g < st.poolSize → g = fid ∨ g ∈ st.freeList ∨ g ∈ residentFids st
  lruNodup : st.lruList.Nodup
  lruOk : ∀ g ∈ st.lruList, g ∈ residentFids st ∧ pinOf st g = 0
  lruComplete : ∀ e ∈ st.pageTable, pinOf st e.2 = 0 → e.2 ∈ st.lruList
  pinNonneg : ∀ g, 0 ≤ pinOf st g
  numNonneg : 0 ≤ st.disk.numPages
  fidLt : fid < st.poolSize
  fidNotRes : fid ∉ residentFids st
  fidNotFree : fid ∉ st.freeList
  fidNotLru : fid ∉ st.lruList

/-- Obtaining and evicting a victim yields a `VictimOk` state with the same
    allocation counter and no new page-table keys. -/
theorem victim_prepare {st : BPState} (inv : BPInv st) {fid : Nat} {st1 : BPState}
    (h : FindVictimPage st = (some fid, st1)) :
    VictimOk (evictFrame st1 fid) fid ∧
    (evictFrame st1 fid).disk.numPages = st.disk.numPages ∧
    (∀ q, q ∈ (evictFrame st1 fid).pageTable.map (·.1) → q ∈ st.pageTable.map (·.1)) := by
  rcases hfree : st.freeList with _ | ⟨f0, rest⟩
  · -- free list empty: victim from the back of the LRU list
    rcases st.lruList.eq_nil_or_concat with hnil | ⟨init, last, hcat⟩
    · exfalso
      rw [fv_of_nil hfree hnil] at h
      rw [Prod.mk.injEq] at h
      exact Option.noConfusion h.1
    · rw [List.concat_eq_append] at hcat
      rw [fv_of_lru inv hfree hcat] at h
      rw [Prod.mk.injEq] at h
      obtain ⟨hfid, hst1⟩ := h
      replace hfid : fid = last := by simpa using hfid.symm
      subst hfid
      subst hst1
      -- the victim frame is resident, pinned zero
      have hmemlru : fid ∈ st.lruList := by rw [hcat]; exact List.mem_append_right _ (by simp)
      obtain ⟨hresfid, hpinfid⟩ := inv.lruOk fid hmemlru
      obtain ⟨e, he, he2⟩ := List.mem_map.1 hresfid
      obtain ⟨hlt, hpg, hge, hlt2⟩ := inv.tableOk e he
      have hefid : (e.1, fid) ∈ st.pageTable := by rw [← he2]; exact he
      have hlastinit : fid ∉ init := by
        have := inv.lruNodup
        rw [hcat, List.nodup_append] at this
        intro hc
        exact this.2.2 hc (by simp)
      have hinitnodup : init.Nodup := by
        have := inv.lruNodup
        rw [hcat, List.nodup_append] at this
        exact this.1
      have hpg' : ((({ st with lruList := init } : BPState)).frames.getD fid default).pageId
          = e.1 := by rw [he2] at hpg; exact hpg
      have hne : ((({ st with lruList := init } : BPState)).frames.getD fid default).pageId
          ≠ -1 := by rw [hpg']; omega
      have hresE := mem_ptErase_iff inv.keysNodup inv.valsNodup hefid
      have key : ∀ (d2 : Disk), d2.numPages = st.disk.numPages →
          VictimOk ⟨st.poolSize, st.frames, ptErase st.pageTable e.1, st.freeList, init, d2⟩
            fid ∧
          ((⟨st.poolSize, st.frames, ptErase st.pageTable e.1, st.freeList, init, d2⟩ :
            BPState)).disk.numPages = st.disk.numPages ∧
          (∀ q, q ∈ ((⟨st.poolSize, st.frames, ptErase st.pageTable e.1, st.freeList, init,
              d2⟩ : BPState)).pageTable.map (·.1) →
            q ∈ st.pageTable.map (·.1)) := by
        intro d2 hd2
        refine ⟨?_, hd2, ?_⟩
        · constructor
          · exact inv.framesLen
          · exact (ptErase_keys_sublist _ _).nodup inv.keysNodup
          · exact (ptErase_vals_sublist _ _).nodup inv.valsNodup
          · intro e2 he2m
            rcases mem_ptErase.1 he2m with ⟨hee, _⟩
            rcases inv.tableOk e2 hee with ⟨a1, a2, a3, a4⟩
            exact ⟨a1, a2, a3, by rw [hd2]; exact a4⟩
          · exact inv.freeNodup
          · intro g hg
            rcases inv.freeOk g hg with ⟨a1, a2, a3⟩
            exact ⟨a1, fun hc => a2 ((hresE g).1 hc).1, a3⟩
          · intro g hgn
            rcases inv.cover g hgn with hc | hc
            · exact Or.inr (Or.inl hc)
            · by_cases hgf : g = fid
              · exact Or.inl hgf
              · exact Or.inr (Or.inr ((hresE g).2 ⟨hc, hgf⟩))
          · exact hinitnodup
          · intro g hg
            have hgm : g ∈ st.lruList := by rw [hcat]; exact List.mem_append_left _ hg
            rcases inv.lruOk g hgm with ⟨a1, a2⟩
            have hgf : g ≠ fid := fun hc => hlastinit (hc ▸ hg)
            exact ⟨(hresE g).2 ⟨a1, hgf⟩, a2⟩
          · intro e2 he2m hz
            rcases mem_ptErase.1 he2m with ⟨hee, hene⟩
            have : e2.2 ≠ fid := by
              intro hc
              exact hene (entry_unique_fid inv.valsNodup (hc ▸ hee) hefid)
            have := inv.lruComplete e2 hee hz
            rw [hcat] at this
            rcases List.mem_append.1 this with hm | hm
            · exact hm
            · rw [List.mem_singleton] at hm
              exact absurd hm ‹e2.2 ≠ fid›
          · exact inv.pinNonneg
          · rw [hd2]; exact inv.numNonneg
          · rw [← he2]; exact hlt
          · intro hc
            exact ((hresE fid).1 hc).2 rfl
          · rw [hfree]; simp
          · exact hlastinit
        · intro q hq
          rcases List.mem_map.1 hq with ⟨e2, he2m, hk⟩
          exact hk ▸ List.mem_map_of_mem _ (mem_ptErase.1 he2m).1
      unfold evictFrame
      rw [if_pos hne]
      by_cases hd :
          ((({ st with lruList := init } : BPState)).frames.getD fid default).isDirty = true
      · rw [if_pos hd]
        dsimp only
        rw [hpg']
        exact key _ rfl
      · rw [if_neg hd]
        dsimp only
        rw [hpg']
        exact key _ rfl
  · -- free list nonempty: victim is its front, a pristine frame
    rw [fv_of_free hfree] at h
    rw [Prod.mk.injEq] at h
    obtain ⟨hfid, hst1⟩ := h
    replace hfid : fid = f0 := by simpa using hfid.symm
    subst hfid
    subst hst1
    obtain ⟨hlt, hnres, hpgid, hpin0, hdirty⟩ := inv.freeOk fid (by rw [hfree]; simp)
    have hev : evictFrame { st with freeList := rest } fid =
        { st with freeList := rest } := by
      unfold evictFrame
      rw [if_neg (by
        show ¬ ((({ st with freeList := rest } : BPState)).frames.getD fid default).pageId ≠ -1
        simpa using hpgid)]
    rw [hev]
    have hfreeN : st.freeList.Nodup := inv.freeNodup
    rw [hfree] at hfreeN
    rw [List.nodup_cons] at hfreeN
    refine ⟨?_, rfl, fun q hq => hq⟩
    constructor
    · exact inv.framesLen
    · exact inv.keysNodup
    · exact inv.valsNodup
    · exact inv.tableOk
    · exact hfreeN.2
    · intro g hg
      exact inv.freeOk g (by rw [hfree]; exact List.mem_cons_of_mem _ hg)
    · intro g hgn
      rcases inv.cover g hgn with hc | hc
      · rw [hfree] at hc
        rcases List.mem_cons.1 hc with hc | hc
        · exact Or.inl hc
        · exact Or.inr (Or.inl hc)
      · exact Or.inr (Or.inr hc)
    · exact inv.lruNodup
    · exact inv.lruOk
    · exact inv.lruComplete
    · exact inv.pinNonneg
    · exact inv.numNonneg
    · exact hlt
    · exact hnres
    · exact hfreeN.1
    · intro hc
      exact hnres (inv.lruOk fid hc).1

/-- Installing a fresh page image into an evicted victim frame restores the
    full invariant. -/
theorem bpinv_install {st2 : BPState} {fid : Nat} (vok : VictimOk st2 fid)
    {pid : Int} (hpid0 : 0 ≤ pid) (hpidlt : pid < st2.disk.numPages)
    (hnot : List.lookup pid st2.pageTable = none) (dta : PageData) :
    BPInv { st2 with frames := st2.frames.set fid ⟨pid, dta, false, 1⟩,
                     pageTable := ptAssign st2.pageTable pid fid } := by
  have hnotkeys : pid ∉ st2.pageTable.map (·.1) := lookup_none_iff.1 hnot
  have hlen : fid < st2.frames.length := vok.framesLen ▸ vok.fidLt
  rw [ptAssign_of_lookup_none _ hnot]
  set nf : Frame := ⟨pid, dta, false, 1⟩ with hnf
  have hgetself : (st2.frames.set fid nf).getD fid default = nf := getD_set_self hlen
  have hgetne : ∀ g, g ≠ fid → (st2.frames.set fid nf).getD g default =
      st2.frames.getD g default := fun g hg => getD_set_ne (Ne.symm hg)
  have hvals : ∀ g, g ∈ (st2.pageTable ++ [(pid, fid)]).map (·.2) ↔
      g ∈ residentFids st2 ∨ g = fid := by
    intro g
    rw [List.map_append]
    simp [residentFids]
  constructor
  · simpa [List.length_set] using vok.framesLen
  · rw [List.map_append, List.nodup_append]
    exact ⟨vok.keysNodup, by simp, by
      intro a ha hb
      simp at hb
      exact hnotkeys (hb ▸ ha)⟩
  · show ((st2.pageTable ++ [(pid, fid)]).map (·.2)).Nodup
    rw [List.map_append, List.nodup_append]
    exact ⟨vok.valsNodup, by simp, by
      intro a ha hb
      simp at hb
      exact vok.fidNotRes (hb ▸ ha)⟩
  · intro e he
    rcases List.mem_append.1 he with he | he
    · rcases vok.tableOk e he with ⟨a1, a2, a3, a4⟩
      have hene : e.2 ≠ fid := fun hc => vok.fidNotRes (hc ▸ List.mem_map_of_mem _ he)
      refine ⟨a1, ?_, a3, a4⟩
      show ((st2.frames.set fid nf).getD e.2 default).pageId = e.1
      rw [hgetne _ hene]
      exact a2
    · rw [List.mem_singleton] at he
      subst he
      refine ⟨vok.fidLt, ?_, hpid0, hpidlt⟩
      show ((st2.frames.set fid nf).getD fid default).pageId = pid
      rw [hgetself]
  · exact vok.freeNodup
  · intro g hg
    rcases vok.freeOk g hg with ⟨a1, a2, a3, a4, a5⟩
    have hgne : g ≠ fid := fun hc => vok.fidNotFree (hc ▸ hg)
    refine ⟨a1, ?_, ?_, ?_, ?_⟩
    · intro hc
      rcases (hvals g).1 hc with hc | hc
      · exact a2 hc
      · exact hgne hc
    · show ((st2.frames.set fid nf).getD g default).pageId = -1
      rw [hgetne _ hgne]; exact a3
    · show ((st2.frames.set fid nf).getD g default).pinCount = 0
      rw [hgetne _ hgne]; exact a4
    · show ((st2.frames.set fid nf).getD g default).isDirty = false
      rw [hgetne _ hgne]; exact a5
  · intro g hgn
    rcases vok.coverV g hgn with hc | hc | hc
    · exact Or.inr ((hvals g).2 (Or.inr hc))
    · exact Or.inl hc
    · exact Or.inr ((hvals g).2 (Or.inl hc))
  · exact vok.lruNodup
  · intro g hg
    have hgne : g ≠ fid := fun hc => vok.fidNotLru (hc ▸ hg)
    rcases vok.lruOk g hg with ⟨a1, a2⟩
    refine ⟨(hvals g).2 (Or.inl a1), ?_⟩
    show ((st2.frames.set fid nf).getD g default).pinCount = 0
    rw [hgetne _ hgne]
    exact a2
  · intro e he hz
    rcases List.mem_append.1 he with he | he
    · have hene : e.2 ≠ fid := fun hc => vok.fidNotRes (hc ▸ List.mem_map_of_mem _ he)
      refine vok.lruComplete e he ?_
      show (st2.frames.getD e.2 default).pinCount = 0
      have hz2 : ((st2.frames.set fid nf).getD e.2 default).pinCount = 0 := hz
      rw [hgetne _ hene] at hz2
      exact hz2
    · rw [List.mem_singleton] at he
      subst he
      exfalso
      have hz2 : ((st2.frames.set fid nf).getD fid default).pinCount = 0 := hz
      rw [hgetself] at hz2
      exact one_ne_zero hz2
  · intro g
    show 0 ≤ ((st2.frames.set fid nf).getD g default).pinCount
    by_cases hc : g = fid
    · subst hc; rw [hgetself]; norm_num
    · rw [hgetne _ hc]; exact vok.pinNonneg g
  · exact vok.numNonneg

/-- `VictimOk` is stable under raising the allocation counter. -/
theorem victimOk_bumpNum {st : BPState} {fid : Nat} (vok : VictimOk st fid) {m : Int}
    (h : st.disk.numPages ≤ m) :
    VictimOk { st with disk := { st.disk with numPages := m } } fid := by
  constructor
  · exact vok.framesLen
  · exact vok.keysNodup
  · exact vok.valsNodup
  · intro e he
    rcases vok.tableOk e he with ⟨a1, a2, a3, a4⟩
    exact ⟨a1, a2, a3, lt_of_lt_of_le a4 h⟩
  · exact vok.freeNodup
  · exact vok.freeOk
  · exact vok.coverV
  · exact vok.lruNodup
  · exact vok.lruOk
  · exact vok.lruComplete
  · exact vok.pinNonneg
  · exact le_trans vok.numNonneg h
  · exact vok.fidLt
  · exact vok.fidNotRes
  · exact vok.fidNotFree
  · exact vok.fidNotLru

/-- `FetchPage` preserves the buffer pool invariant (for a page id that is
    backed by the file, as in every reachable execution). -/
theorem bpinv_fetch {st : BPState} (inv : BPInv st) {pid : Int}
    (h0 : 0 ≤ pid) (h1 : pid < st.disk.numPages) : BPInv (FetchPage st pid).2 := by
  unfold FetchPage
  cases hl : List.lookup pid st.pageTable with
  | some fid =>
    dsimp only
    have hmem : (pid, fid) ∈ st.pageTable := lookup_some_mem hl
    have hres : fid ∈ residentFids st := List.mem_map_of_mem _ hmem
    have hfid : fid < st.poolSize := (inv.tableOk _ hmem).1
    have hlen : fid < st.frames.length := inv.framesLen ▸ hfid
    set f := st.frames.getD fid default with hf
    set f1 : Frame := { f with pinCount := f.pinCount + 1 } with hf1
    have hgetself : (st.frames.set fid f1).getD fid default = f1 := getD_set_self hlen
    have hgetne : ∀ g, g ≠ fid → (st.frames.set fid f1).getD g default =
        st.frames.getD g default := fun g hg => getD_set_ne (Ne.symm hg)
    constructor
    · simpa [List.length_set] using inv.framesLen
    · exact inv.keysNodup
    · exact inv.valsNodup
    · intro e he
      rcases inv.tableOk e he with ⟨a1, a2, a3, a4⟩
      refine ⟨a1, ?_, a3, a4⟩
      by_cases hc : e.2 = fid
      · show ((st.frames.set fid f1).getD e.2 default).pageId = e.1
        rw [hc, hgetself]
        rw [hc] at a2
        exact a2
      · show ((st.frames.set fid f1).getD e.2 default).pageId = e.1
        rw [hgetne _ hc]
        exact a2
    · exact inv.freeNodup
    · intro g hg
      rcases inv.freeOk g hg with ⟨a1, a2, a3, a4, a5⟩
      have hgne : g ≠ fid := fun hc => a2 (hc ▸ hres)
      refine ⟨a1, a2, ?_, ?_, ?_⟩
      · show ((st.frames.set fid f1).getD g default).pageId = -1
        rw [hgetne _ hgne]; exact a3
      · show ((st.frames.set fid f1).getD g default).pinCount = 0
        rw [hgetne _ hgne]; exact a4
      · show ((st.frames.set fid f1).getD g default).isDirty = false
        rw [hgetne _ hgne]; exact a5
    · exact inv.cover
    · exact inv.lruNodup.erase _
    · intro g hg
      rcases (inv.lruNodup.mem_erase_iff).1 hg with ⟨hgne, hg2⟩
      rcases inv.lruOk g hg2 with ⟨a1, a2⟩
      refine ⟨a1, ?_⟩
      show ((st.frames.set fid f1).getD g default).pinCount = 0
      rw [hgetne _ hgne]
      exact a2
    · intro e he hz
      by_cases hc : e.2 = fid
      · exfalso
        have hz2 : ((st.frames.set fid f1).getD e.2 default).pinCount = 0 := hz
        rw [hc, hgetself] at hz2
        have := inv.pinNonneg fid
        simp only [pinOf, ← hf] at this
        simp only [hf1] at hz2
        omega
      · have hz2 : ((st.frames.set fid f1).getD e.2 default).pinCount = 0 := hz
        rw [hgetne _ hc] at hz2
        rw [(inv.lruNodup.mem_erase_iff)]
        exact ⟨hc, inv.lruComplete e he hz2⟩
    · intro g
      show 0 ≤ ((st.frames.set fid f1).getD g default).pinCount
      by_cases hc : g = fid
      · subst hc
        rw [hgetself]
        have := inv.pinNonneg g
        simp only [pinOf, ← hf] at this
        simp only [hf1]
        omega
      · rw [hgetne _ hc]; exact inv.pinNonneg g
    · exact inv.numNonneg
  | none =>
    cases hfv : FindVictimPage st with
    | mk r st1 =>
      cases r with
      | none =>
        dsimp only
        rw [(fv_none_state inv hfv).1]
        exact inv
      | some fid =>
        dsimp only
        obtain ⟨vok, hnum, hkeys⟩ := victim_prepare inv hfv
        have hnot2 : List.lookup pid (evictFrame st1 fid).pageTable = none :=
          lookup_none_iff.2 (fun hc => lookup_none_iff.1 hl (hkeys _ hc))
        exact bpinv_install vok h0 (hnum ▸ h1) hnot2 _

/-- `NewPage` preserves the buffer pool invariant. -/
theorem bpinv_new {st : BPState} (inv : BPInv st) : BPInv (NewPage st).2 := by
  unfold NewPage
  cases hfv : FindVictimPage st with
  | mk r st1 =>
    cases r with
    | none =>
      dsimp only
      rw [(fv_none_state inv hfv).1]
      exact inv
    | some fid =>
      dsimp only
      obtain ⟨vok, hnum, hkeys⟩ := victim_prepare inv hfv
      have vok3 := victimOk_bumpNum vok
        (le_of_lt (lt_add_one (evictFrame st1 fid).disk.numPages))
      have hnot3 : List.lookup (evictFrame st1 fid).disk.numPages
          (evictFrame st1 fid).pageTable = none := by
        refine lookup_none_iff.2 ?_
        intro hc
        rcases List.mem_map.1 hc with ⟨e, he, hk⟩
        have := (vok.tableOk e he).2.2.2
        rw [hk] at this
        exact lt_irrefl _ this
      exact bpinv_install vok3 vok.numNonneg
        (lt_add_one _) hnot3 _

/-- One step of the `FlushAllPages` fold. -/
def flushStep (acc : BPState) (e : Int × Nat) : BPState :=
  let f := acc.frames.getD e.2 default
  if f.isDirty then
    { acc with disk := diskWrite acc.disk f.pageId f.data,
               frames := acc.frames.set e.2 { f with isDirty := false } }
  else acc

theorem flushAll_eq_foldl (st : BPState) :
    FlushAllPages st = st.pageTable.foldl flushStep st := rfl

theorem flushStep_table (acc : BPState) (e : Int × Nat) :
    (flushStep acc e).pageTable = acc.pageTable := by
  unfold flushStep
  dsimp only
  split <;> rfl

theorem flushStep_numPages (acc : BPState) (e : Int × Nat) :
    (flushStep acc e).disk.numPages = acc.disk.numPages := by
  unfold flushStep
  dsimp only
  split <;> rfl

/-- The `FlushAllPages` fold: invariant preservation and its effect on the
    disk image and the frames. -/
theorem flushAll_go : ∀ (l : List (Int × Nat)) (acc : BPState), BPInv acc →
    (l.map (·.1)).Nodup → (l.map (·.2)).Nodup → (∀ e ∈ l, e ∈ acc.pageTable) →
    BPInv (l.foldl flushStep acc) ∧
    (l.foldl flushStep acc).pageTable = acc.pageTable ∧
    (l.foldl flushStep acc).disk.numPages = acc.disk.numPages ∧
    (∀ q, q ∉ l.map (·.1) → (l.foldl flushStep acc).disk.data q = acc.disk.data q) ∧
    (∀ g, g ∉ l.map (·.2) →
      (l.foldl flushStep acc).frames.getD g default = acc.frames.getD g default) ∧
    (∀ e ∈ l, ((l.foldl flushStep acc).frames.getD e.2 default).isDirty = false ∧
      ((l.foldl flushStep acc).frames.getD e.2 default).data =
        (acc.frames.getD e.2 default).data ∧
      ((l.foldl flushStep acc).frames.getD e.2 default).pageId =
        (acc.frames.getD e.2 default).pageId ∧
      (l.foldl flushStep acc).disk.data e.1 =
        (if (acc.frames.getD e.2 default).isDirty then (acc.frames.getD e.2 default).data
         else acc.disk.data e.1)) := by
  intro l
  induction l with
  | nil =>
    intro acc inv _ _ _
    exact ⟨inv, rfl, rfl, fun _ _ => rfl, fun _ _ => rfl, by simp⟩
  | cons e rest ih =>
    intro acc inv hk hv hmem
    rw [List.map_cons, List.nodup_cons] at hk hv
    have hemem : e ∈ acc.pageTable := hmem e (List.mem_cons_self _ _)
    have hfid : e.2 < acc.poolSize := (inv.tableOk e hemem).1
    have hlen : e.2 < acc.frames.length := inv.framesLen ▸ hfid
    have hpgid : (acc.frames.getD e.2 default).pageId = e.1 := (inv.tableOk e hemem).2.1
    have hstep_inv : BPInv (flushStep acc e) := by
      unfold flushStep
      dsimp only
      split
      · exact bpinv_clearDirty inv hemem _ rfl
      · exact inv
    have hstep_frame_self : (flushStep acc e).frames.getD e.2 default =
        { acc.frames.getD e.2 default with isDirty := false } ∨
        ((flushStep acc e).frames.getD e.2 default = acc.frames.getD e.2 default ∧
          (acc.frames.getD e.2 default).isDirty = false) := by
      unfold flushStep
      dsimp only
      split
      · exact Or.inl (getD_set_self hlen)
      · rename_i hnd
        refine Or.inr ⟨rfl, ?_⟩
        revert hnd
        cases (acc.frames.getD e.2 default).isDirty <;> simp
    have hstep_frame_ne : ∀ g, g ≠ e.2 → (flushStep acc e).frames.getD g default =
        acc.frames.getD g default := by
      intro g hg
      unfold flushStep
      dsimp only
      split
      · exact getD_set_ne (Ne.symm hg)
      · rfl
    have hstep_disk_ne : ∀ q, q ≠ e.1 → (flushStep acc e).disk.data q = acc.disk.data q := by
      intro q hq
      unfold flushStep
      dsimp only
      split
      · show (diskWrite acc.disk _ _).data q = acc.disk.data q
        unfold diskWrite
        dsimp only
        rw [if_neg (by rw [hpgid]; exact hq)]
      · rfl
    have hstep_disk_self : (flushStep acc e).disk.data e.1 =
        (if (acc.frames.getD e.2 default).isDirty then (acc.frames.getD e.2 default).data
         else acc.disk.data e.1) := by
      unfold flushStep
      dsimp only
      split
      · show (diskWrite acc.disk _ _).data e.1 = _
        unfold diskWrite
        dsimp only
        rw [if_pos hpgid.symm]
      · rfl
    have hmem2 : ∀ e2 ∈ rest, e2 ∈ (flushStep acc e).pageTable := by
      intro e2 he2
      rw [flushStep_table]
      exact hmem e2 (List.mem_cons_of_mem _ he2)
    obtain ⟨r1, r2, r3, r4, r5, r6⟩ := ih (flushStep acc e) hstep_inv hk.2 hv.2 hmem2
    rw [List.foldl_cons]
    refine ⟨r1, by rw [r2, flushStep_table], by rw [r3, flushStep_numPages], ?_, ?_, ?_⟩
    · intro q hq
      rw [List.map_cons, List.mem_cons] at hq
      push_neg at hq
      rw [r4 q hq.2, hstep_disk_ne q hq.1]
    · intro g hg
      rw [List.map_cons, List.mem_cons] at hg
      push_neg at hg
      rw [r5 g hg.2, hstep_frame_ne g hg.1]
    · intro e2 he2
      rcases List.mem_cons.1 he2 with he2 | he2
      · rw [he2]
        have hv1 : e.2 ∉ rest.map (·.2) := hv.1
        have hk1 : e.1 ∉ rest.map (·.1) := hk.1
        have hfr := r5 e.2 hv1
        have hdk := r4 e.1 hk1
        rw [hfr, hdk, hstep_disk_self]
        rcases hstep_frame_self with hs | ⟨hs, hclean⟩
        · rw [hs]
          exact ⟨rfl, rfl, rfl, rfl⟩
        · rw [hs]
          exact ⟨hclean, rfl, rfl, rfl⟩
      · have hne2 : e2.2 ≠ e.2 := fun hc => hv.1 (hc ▸ List.mem_map_of_mem _ he2)
        have hne1 : e2.1 ≠ e.1 := fun hc => hk.1 (hc ▸ List.mem_map_of_mem _ he2)
        obtain ⟨c1, c2, c3, c4⟩ := r6 e2 he2
        refine ⟨c1, ?_, ?_, ?_⟩
        · rw [c2, hstep_frame_ne _ hne2]
        · rw [c3, hstep_frame_ne _ hne2]
        · rw [c4, hstep_frame_ne _ hne2, hstep_disk_ne _ hne1]

/-- `FlushAllPages` preserves the buffer pool invariant. -/
theorem bpinv_flushAll {st : BPState} (inv : BPInv st) : BPInv (FlushAllPages st) := by
  rw [flushAll_eq_foldl]
  exact (flushAll_go st.pageTable st inv inv.keysNodup inv.valsNodup (fun _ h => h)).1

/-- The constructor state satisfies the invariant. -/
theorem bpinv_init (n : Nat) (d : Disk) (h : 0 ≤ d.numPages) : BPInv (initBP n d) := by
  constructor
  · simp [initBP]
  · simp [initBP]
  · simp [initBP, residentFids]
  · intro e he; simp [initBP] at he
  · exact List.nodup_range n
  · intro g hg
    simp only [initBP, List.mem_range] at hg
    refine ⟨hg, by simp [initBP, residentFids], ?_⟩
    show ((List.replicate n (default : Frame)).getD g default).pageId = -1 ∧
      ((List.replicate n (default : Frame)).getD g default).pinCount = 0 ∧
      ((List.replicate n (default : Frame)).getD g default).isDirty = false
    rw [List.getD_eq_getElem?_getD, List.getElem?_replicate]
    split <;> exact ⟨rfl, rfl, rfl⟩
  · intro g hg
    exact Or.inl (by simpa [initBP] using hg)
  · simp [initBP]
  · intro g hg; simp [initBP] at hg
  · intro e he; simp [initBP] at he
  · intro g
    show 0 ≤ ((List.replicate n (default : Frame)).getD g default).pinCount
    rw [List.getD_eq_getElem?_getD, List.getElem?_replicate]
    split <;> exact le_refl 0
  · exact h

/-- Effect of `evictFrame` on a frame holding a resident page. -/
theorem evict_effects (st1 : BPState) (fid : Nat) (q : Int)
    (hpg : (st1.frames.getD fid default).pageId = q) (hq : q ≠ -1) :
    ((st1.frames.getD fid default).isDirty = true →
      (evictFrame st1 fid).disk.data q = (st1.frames.getD fid default).data) ∧
    (evictFrame st1 fid).pageTable = ptErase st1.pageTable q ∧
    (evictFrame st1 fid).disk.numPages = st1.disk.numPages := by
  unfold evictFrame
  dsimp only
  rw [if_pos (show (st1.frames.getD fid default).pageId ≠ -1 by rw [hpg]; exact hq)]
  by_cases hd : (st1.frames.getD fid default).isDirty = true
  · rw [if_pos hd]
    refine ⟨fun _ => ?_, by rw [hpg], rfl⟩
    show (diskWrite st1.disk _ _).data q = _
    unfold diskWrite
    dsimp only
    rw [if_pos hpg.symm]
  · rw [if_neg hd]
    exact ⟨fun hc => absurd hc hd, by rw [hpg], rfl⟩

/-- No unpinned resident frame exists iff the LRU list is empty (under the
    invariant). -/
theorem lru_empty_iff {st : BPState} (inv : BPInv st) :
    st.lruList = [] ↔ ∀ g ∈ residentFids st, pinOf st g ≠ 0 := by
  constructor
  · intro hnil g hg hz
    rcases List.mem_map.1 hg with ⟨e, he, hk⟩
    have := inv.lruComplete e he (by rw [hk]; exact hz)
    rw [hnil] at this
    simp at this
  · intro h
    rcases hl : st.lruList with _ | ⟨x, r⟩
    · rfl
    · exfalso
      have hx : x ∈ st.lruList := by rw [hl]; exact List.mem_cons_self _ _
      rcases inv.lruOk x hx with ⟨h1, h2⟩
      exact h x h1 h2

/-- C7: on a miss, `FetchPage` (and `NewPage`) obtain a victim frame by first
    popping the front of the free list if non-empty, otherwise popping from
    the back of the LRU list the first frame with `pin_count == 0` (under the
    pool invariant the back of the LRU list is such a frame); if the chosen
    victim holds a resident page whose dirty bit is set, that page's bytes
    are written to disk before the frame is reused, and the victim's page id
    is removed from the page table; the call returns null exactly when the
    free list is empty and no unpinned resident frame exists. -/
theorem C7_fetch_new_victim {st : BPState} (inv : BPInv st) (pid : Int)
    (hmiss : List.lookup pid st.pageTable = none) :
    ((FetchPage st pid).1 = none ↔
        st.freeList = [] ∧ ∀ g ∈ residentFids st, pinOf st g ≠ 0) ∧
    ((NewPage st).1 = none ↔
        st.freeList = [] ∧ ∀ g ∈ residentFids st, pinOf st g ≠ 0) ∧
    (∀ f0 rest, st.freeList = f0 :: rest →
        (FetchPage st pid).1 = some f0 ∧ (NewPage st).1 = some (st.disk.numPages, f0)) ∧
    (∀ init last, st.freeList = [] → st.lruList = init ++ [last] →
        (FetchPage st pid).1 = some last ∧ (NewPage st).1 = some (st.disk.numPages, last) ∧
        pinOf st last = 0 ∧
        (∀ q, (q, last) ∈ st.pageTable →
          ((st.frames.getD last default).isDirty = true →
            (FetchPage st pid).2.disk.data q = (st.frames.getD last default).data ∧
            (NewPage st).2.disk.data q = (st.frames.getD last default).data) ∧
          q ∉ (FetchPage st pid).2.pageTable.map (·.1) ∧
          q ∉ (NewPage st).2.pageTable.map (·.1))) := by
  have hfetch : FetchPage st pid =
      match FindVictimPage st with
      | (none, st1) => (none, st1)
      | (some fid, st1) =>
        let st2 := evictFrame st1 fid
        let newFrame : Frame := ⟨pid, st2.disk.data pid, false, 1⟩
        (some fid, { st2 with frames := st2.frames.set fid newFrame,
                              pageTable := ptAssign st2.pageTable pid fid }) := by
    unfold FetchPage
    rw [hmiss]
  refine ⟨?_, ?_, ?_, ?_⟩
  · -- FetchPage null condition
    rw [hfetch, ← lru_empty_iff inv]
    cases hfv : FindVictimPage st with
    | mk r st1 =>
      cases r with
      | none =>
        simp only
        obtain ⟨_, h2, h3⟩ := fv_none_state inv hfv
        simp [h2, h3]
      | some fid =>
        simp only
        constructor
        · intro hc; exact Option.noConfusion hc
        · intro ⟨h2, h3⟩
          rw [fv_of_nil h2 h3] at hfv
          rw [Prod.mk.injEq] at hfv
          exact Option.noConfusion hfv.1
  · -- NewPage null condition
    rw [← lru_empty_iff inv]
    unfold NewPage
    cases hfv : FindVictimPage st with
    | mk r st1 =>
      cases r with
      | none =>
        simp only
        obtain ⟨_, h2, h3⟩ := fv_none_state inv hfv
        simp [h2, h3]
      | some fid =>
        simp only
        constructor
        · intro hc; exact Option.noConfusion hc
        · intro ⟨h2, h3⟩
          rw [fv_of_nil h2 h3] at hfv
          rw [Prod.mk.injEq] at hfv
          exact Option.noConfusion hfv.1
  · -- free list first
    intro f0 rest hfree
    constructor
    · rw [hfetch, fv_of_free hfree]
    · unfold NewPage
      rw [fv_of_free hfree]
      have : (evictFrame { st with freeList := rest } f0).disk.numPages = st.disk.numPages := by
        obtain ⟨hlt, hnres, hpgid, hpin0, hdirty⟩ := inv.freeOk f0 (by rw [hfree]; simp)
        unfold evictFrame
        dsimp only
        rw [if_neg (by
          show ¬ ((({ st with freeList := rest } : BPState)).frames.getD f0 default).pageId ≠ -1
          simpa using hpgid)]
      simp only [this]
  · -- back of the LRU list otherwise
    intro init last hfree hlru
    have hmemlru : last ∈ st.lruList := by rw [hlru]; exact List.mem_append_right _ (by simp)
    obtain ⟨hreslast, hpinlast⟩ := inv.lruOk last hmemlru
    refine ⟨?_, ?_, hpinlast, ?_⟩
    · rw [hfetch, fv_of_lru inv hfree hlru]
    · unfold NewPage
      rw [fv_of_lru inv hfree hlru]
      obtain ⟨e, he, he2⟩ := List.mem_map.1 hreslast
      obtain ⟨hlt, hpg, hge, hlt2⟩ := inv.tableOk e he
      have hnum : (evictFrame { st with lruList := init } last).disk.numPages =
          st.disk.numPages := by
        refine (evict_effects { st with lruList := init } last e.1 ?_ (by omega)).2.2
        show (st.frames.getD last default).pageId = e.1
        rw [← he2]
        exact hpg
      simp only [hnum]
    · intro q hq
      have hpgq : (st.frames.getD last default).pageId = q := by
        have := (inv.tableOk (q, last) hq).2.1
        exact this
      have hgeq : 0 ≤ q := (inv.tableOk (q, last) hq).2.2.1
      have hqpid : q ≠ pid := by
        intro hc
        exact lookup_none_iff.1 hmiss (hc ▸ List.mem_map_of_mem _ hq)
      obtain ⟨hev1, hev2, hev3⟩ := evict_effects
        { st with lruList := init } last q hpgq (by omega)
      have hqgone : q ∉ (ptErase st.pageTable q).map (·.1) := by
        intro hc
        rcases List.mem_map.1 hc with ⟨e2, he2m, hk2⟩
        exact (mem_ptErase.1 he2m).2 hk2
      constructor
      · intro hd
        constructor
        · rw [hfetch, fv_of_lru inv hfree hlru]
          show (evictFrame { st with lruList := init } last).disk.data q = _
          exact hev1 hd
        · unfold NewPage
          rw [fv_of_lru inv hfree hlru]
          show (evictFrame { st with lruList := init } last).disk.data q = _
          exact hev1 hd
      · constructor
        · rw [hfetch, fv_of_lru inv hfree hlru]
          show q ∉ (ptAssign (evictFrame { st with lruList := init } last).pageTable
            pid last).map (·.1)
          rw [ptAssign_of_lookup_none _ (by
            refine lookup_none_iff.2 ?_
            rw [hev2]
            intro hc
            rcases List.mem_map.1 hc with ⟨e2, he2m, hk2⟩
            exact lookup_none_iff.1 hmiss
              (hk2 ▸ List.mem_map_of_mem _ (mem_ptErase.1 he2m).1))]
          rw [List.map_append, List.mem_append]
          intro hc
          rcases hc with hc | hc
          · rw [hev2] at hc
            exact hqgone hc
          · simp at hc
            exact hqpid hc
        · unfold NewPage
          rw [fv_of_lru inv hfree hlru]
          show q ∉ (ptAssign (evictFrame { st with lruList := init } last).pageTable
            ((evictFrame { st with lruList := init } last)).disk.numPages last).map (·.1)
          have hfresh : (evictFrame { st with lruList := init } last).disk.numPages ∉
              (evictFrame { st with lruList := init } last).pageTable.map (·.1) := by
            intro hc
            rcases List.mem_map.1 hc with ⟨e2, he2m, hk2⟩
            rw [hev2] at he2m
            have := (inv.tableOk e2 (mem_ptErase.1 he2m).1).2.2.2
            rw [hk2, hev3] at this
            exact lt_irrefl _ this
          rw [ptAssign_of_lookup_none _ (lookup_none_iff.2 hfresh)]
          rw [List.map_append, List.mem_append]
          intro hc
          rcases hc with hc | hc
          · rw [hev2] at hc
            exact hqgone hc
          · simp at hc
            rw [hev3] at hc
            have hsame : (({ st with lruList := init } : BPState)).disk.numPages =
              st.disk.numPages := rfl
            rw [hsame] at hc
            have hqlt : q < st.disk.numPages := (inv.tableOk (q, last) hq).2.2.2
            omega

/-! ## Tree representation invariant

The B+ tree invariant of §3.4, as a predicate on the page store: `SubOk`
describes a well-formed subtree at a given height with key-range bounds
(`lb` inclusive, `ub` exclusive); `KidsOkF` threads the bounds through an
internal node's children/keys arrays; `TreeOk` adds global conditions
(distinct page ids, the sibling chain, the meta page). -/

/-- Inclusive lower bound (`none` = −∞). -/
def lbOk : Option Int → Int → Prop
  | none, _ => True
  | some a, k => a ≤ k

/-- Exclusive upper bound (`none` = +∞). -/
def ubOk : Option Int → Int → Prop
  | none, _ => True
  | some b, k => k < b

instance (o : Option Int) (k : Int) : Decidable (lbOk o k) := by
  cases o <;> simp only [lbOk] <;> infer_instance

instance (o : Option Int) (k : Int) : Decidable (ubOk o k) := by
  cases o <;> simp only [ubOk] <;> infer_instance

/-- Well-formed raw value array: `VALUE_SIZE` bytes, a NUL-free prefix (its
    C-string content) padded with NULs.  Every array ever written by
    `LeafInsert`/`Remove` has this shape. -/
def ValWF (v : List Nat) : Prop :=
  v.length = VALUE_SIZE ∧ v = cstr v ++ List.replicate (VALUE_SIZE - (cstr v).length) 0

instance (v : List Nat) : Decidable (ValWF v) := by
  unfold ValWF; infer_instance

/-- The children/keys arrays of an internal node, with the key-range bounds
    rolled through: child `i` covers `[keys[i-1], keys[i])` (outermost bounds
    at the ends).  `P c lb ub` is the subtree property of child `c`. -/
def KidsOkF (P : Int → Option Int → Option Int → Prop) :
    List Int → List Int → Option Int → Option Int → Prop
  | [c], [], lb, ub => P c lb ub
  | c :: cs, k :: ks, lb, ub => P c lb (some k) ∧ KidsOkF P cs ks (some k) ub
  | _, _, _, _ => False

/-- Well-formed subtree of height `h` rooted at page `pid` with parent
    pointer `par` and key range `[lb, ub)`. -/
def SubOk (s : Store) : Nat → Int → Int → Option Int → Option Int → Prop
  | 0, pid, par, lb, ub =>
    ∃ nx es, pageAt s pid = .leaf nx par es ∧ es ≠ [] ∧ es.length ≤ LEAF_MAX_ENTRIES ∧
      List.Pairwise (fun a b => a.key < b.key) es ∧
      (∀ e ∈ es, lbOk lb e.key ∧ ubOk ub e.key ∧ ValWF e.value)
  | h + 1, pid, par, lb, ub =>
    ∃ keys children, pageAt s pid = .internal par keys children ∧
      1 ≤ keys.length ∧ keys.length ≤ INTERNAL_MAX_KEYS ∧
      KidsOkF (fun c lb2 ub2 => SubOk s h c pid lb2 ub2) children keys lb ub

/-- All page ids of a subtree (pre-order). -/
def nodeIds (s : Store) : Nat → Int → List Int
  | 0, pid => [pid]
  | h + 1, pid =>
    pid :: (match pageAt s pid with
      | .internal _ _ cs => cs.flatMap (nodeIds s h)
      | _ => [])

/-- The leaf page ids of a subtree, in key order. -/
def leafIds (s : Store) : Nat → Int → List Int
  | 0, pid => [pid]
  | h + 1, pid =>
    match pageAt s pid with
    | .internal _ _ cs => cs.flatMap (leafIds s h)
    | _ => []

/-- All leaf entries of a subtree, in key order. -/
def absAt (s : Store) : Nat → Int → List LeafEntry
  | 0, pid => entriesOf (pageAt s pid)
  | h + 1, pid =>
    match pageAt s pid with
    | .internal _ _ cs => cs.flatMap (absAt s h)
    | _ => []

/-- The sibling chain condition: consecutive leaves (in key order) are linked
    by `next_page_id`, and the rightmost leaf ends the chain with
    `INVALID_PAGE_ID`. -/
def ChainNext (s : Store) (l : List Int) : Prop :=
  List.Chain' (fun a b => nextOf (pageAt s a) = b) l ∧
  (∀ a, l.getLast? = some a → nextOf (pageAt s a) = INVALID_PAGE_ID)

/-- The global well-formedness of a non-empty tree of height `h`. -/
structure TreeOk (s : Store) (h : Nat) : Prop where
  root1 : 1 ≤ s.root
  sub : SubOk s h s.root (-1) none none
  nodup : (nodeIds s h s.root).Nodup
  bounds : ∀ p ∈ nodeIds s h s.root, 1 ≤ p ∧ p.toNat < s.pages.length
  chain : ChainNext s (leafIds s h s.root)
  meta : pageAt s 0 = .meta s.root
  complete : ∀ i : Nat, i < s.pages.length → (i : Int) = 0 ∨ (i : Int) ∈ nodeIds s h s.root

/-- The store invariant: either the untouched empty store, or a well-formed
    tree. -/
def Inv (s : Store) : Prop :=
  (s.root = INVALID_PAGE_ID ∧ s.pages = []) ∨ ∃ h, TreeOk s h

/-- Height of the tree, computed by descending first children (used to give
    the abstraction function an executable form). -/
def heightFrom (s : Store) : Nat → Int → Nat
  | 0, _ => 0
  | fuel + 1, pid =>
    match pageAt s pid with
    | .internal _ _ cs => heightFrom s fuel (cs.getD 0 0) + 1
    | _ => 0

/-- The association list abstraction of the store: all leaf entries in key
    order (tombstones included as zero-valued entries). -/
def absOf (s : Store) : List LeafEntry :=
  if s.root = INVALID_PAGE_ID then []
  else absAt s (heightFrom s s.pages.length s.root) s.root

/-! ## Binary search characterization -/

theorem bsearchGo_count (p : Nat → Bool) (c : Nat) :
    ∀ (fuel lo hi : Nat), (∀ i, lo ≤ i → i < hi → (p i = true ↔ i < c)) →
    lo ≤ c → c ≤ hi → hi - lo ≤ fuel →
    bsearchGo p fuel lo hi = c := by
  intro fuel
  induction fuel with
  | zero =>
    intro lo hi _ h1 h2 h3
    unfold bsearchGo
    omega
  | succ fuel ih =>
    intro lo hi hc h1 h2 h3
    unfold bsearchGo
    by_cases hlt : lo < hi
    · rw [if_pos hlt]
      dsimp only
      have hmid1 : lo ≤ (lo + hi) / 2 := by omega
      have hmid2 : (lo + hi) / 2 < hi := by omega
      cases hpm : p ((lo + hi) / 2) with
      | true =>
        rw [if_pos rfl]
        have hcc : (lo + hi) / 2 < c := (hc _ hmid1 hmid2).1 hpm
        exact ih _ _ (fun i hi1 hi2 => hc i (by omega) hi2) (by omega) h2 (by omega)
      | false =>
        rw [if_neg (by simp)]
        have hcc : c ≤ (lo + hi) / 2 := by
          by_contra hcon
          have := (hc _ hmid1 hmid2).2 (by omega)
          rw [hpm] at this
          exact Bool.false_ne_true this
        exact ih _ _ (fun i hi1 hi2 => hc i hi1 (by omega)) h1 hcc (by omega)
    · rw [if_neg hlt]
      omega

theorem sorted_countP_iff {α : Type} (d : α) (f : α → Int) (p : Int → Bool)
    (hmono : ∀ x y : Int, x ≤ y → p y = true → p x = true) :
    ∀ (l : List α), List.Pairwise (fun a b => f a < f b) l →
    ∀ i, i < l.length → (p (f (l.getD i d)) = true ↔ i < l.countP (fun e => p (f e))) := by
  intro l
  induction l with
  | nil => intro _ i hi; simp at hi
  | cons a l ih =>
    intro hs i hi
    rw [List.pairwise_cons] at hs
    rw [List.countP_cons]
    cases hpa : p (f a) with
    | true =>
      simp only [hpa, if_pos rfl]
      cases i with
      | zero => simpa using hpa
      | succ i =>
        have hi2 : i < l.length := by simpa using hi
        have := ih hs.2 i hi2
        simpa [List.getD_cons_succ] using this
    | false =>
      have hzero : l.countP (fun e => p (f e)) = 0 := by
        rw [List.countP_eq_zero]
        intro b hb
        intro hpb
        have : p (f a) = true := hmono _ _ (le_of_lt (hs.1 b hb)) hpb
        rw [hpa] at this
        exact Bool.false_ne_true this
      cases i with
      | zero =>
        simp only [List.getD_cons_zero, hpa, hzero]
        simp
      | succ i =>
        have hi2 : i < l.length := by simpa using hi
        simp only [List.getD_cons_succ]
        have hmemb : l.getD i d ∈ l := by
          rw [List.getD_eq_getElem l d hi2]
          exact List.getElem_mem _
        constructor
        · intro hpb
          exfalso
          have : p (f a) = true := hmono _ _ (le_of_lt (hs.1 _ hmemb)) hpb
          rw [hpa] at this
          exact Bool.false_ne_true this
        · intro hcon
          exfalso
          rw [hzero] at hcon
          simp at hcon

/-- `LeafFindKey` on a sorted entry array is the number of keys `< key`. -/
theorem leafFindKey_count {es : List LeafEntry} {k : Int}
    (hs : List.Pairwise (fun a b => a.key < b.key) es) :
    LeafFindKey es k = es.countP (fun e => decide (e.key < k)) := by
  unfold LeafFindKey
  exact bsearchGo_count _ _ _ _ _
    (fun i _ hi => sorted_countP_iff default (·.key) (fun x => decide (x < k))
      (fun x y hxy hy => by simp at hy ⊢; omega) es hs i hi)
    (Nat.zero_le _) (List.countP_le_length _) (le_refl _)

/-- `InternalFindChild` on sorted keys follows `children[#{keys ≤ key}]`. -/
theorem internalFindChild_count {keys : List Int} {k : Int}
    (hs : List.Pairwise (· < ·) keys) (children : List Int) :
    InternalFindChild keys children k =
      children.getD (keys.countP (fun x => decide (x ≤ k))) 0 := by
  unfold InternalFindChild
  congr 1
  exact bsearchGo_count _ _ _ _ _
    (fun i _ hi => sorted_countP_iff 0 id (fun x => decide (x ≤ k))
      (fun x y hxy hy => by simp at hy ⊢; omega) keys hs i hi)
    (Nat.zero_le _) (List.countP_le_length _) (le_refl _)

/-- The linear scan index of `InternalInsert`/`SplitInternal` equals the
    count of keys `< key` on sorted keys. -/
theorem takeWhile_length_count {keys : List Int} {k : Int}
    (hs : List.Pairwise (· < ·) keys) :
    (keys.takeWhile (fun x => decide (x < k))).length =
      keys.countP (fun x => decide (x < k)) := by
  induction keys with
  | nil => rfl
  | cons a l ih =>
    rw [List.pairwise_cons] at hs
    by_cases hpa : a < k
    · simp only [List.takeWhile_cons, List.countP_cons]
      simp [hpa, ih hs.2]
    · have hzero : l.countP (fun x => decide (x < k)) = 0 := by
        rw [List.countP_eq_zero]
        intro b hb hpb
        simp at hpb
        have := hs.1 b hb
        omega
      simp only [List.takeWhile_cons, List.countP_cons]
      simp [hpa, hzero]

/-! ## Subtree facts -/

theorem lbOk_trans {lb : Option Int} {x y : Int} (h : lbOk lb x) (hxy : x ≤ y) : lbOk lb y := by
  cases lb with
  | none => trivial
  | some a => exact le_trans h hxy

theorem ubOk_trans {ub : Option Int} {x y : Int} (h : ubOk ub x) (hxy : y ≤ x) : ubOk ub y := by
  cases ub with
  | none => trivial
  | some b => exact lt_of_le_of_lt hxy h

theorem kidsOkF_mono {P Q : Int → Option Int → Option Int → Prop} :
    ∀ {cs ks : List Int} {lb ub : Option Int}, KidsOkF P cs ks lb ub →
    (∀ c ∈ cs, ∀ lb2 ub2, P c lb2 ub2 → Q c lb2 ub2) → KidsOkF Q cs ks lb ub := by
  intro cs
  induction cs with
  | nil => intro ks lb ub h _; cases ks <;> exact absurd h (by simp [KidsOkF])
  | cons c cs ih =>
    intro ks lb ub h himp
    cases ks with
    | nil =>
      cases cs with
      | nil => exact himp c (by simp) _ _ h
      | cons c2 cs2 => exact absurd h (by simp [KidsOkF])
    | cons k ks =>
      rw [KidsOkF] at h ⊢
      exact ⟨himp c (by simp) _ _ h.1,
        ih h.2 (fun c2 hc2 lb2 ub2 hp => himp c2 (List.mem_cons_of_mem _ hc2) _ _ hp)⟩

theorem kidsOkF_shape {P : Int → Option Int → Option Int → Prop} :
    ∀ {cs ks : List Int} {lb ub : Option Int}, KidsOkF P cs ks lb ub →
    cs ≠ [] ∧ cs.length = ks.length + 1 := by
  intro cs
  induction cs with
  | nil => intro ks lb ub h; cases ks <;> exact absurd h (by simp [KidsOkF])
  | cons c cs ih =>
    intro ks lb ub h
    cases ks with
    | nil =>
      cases cs with
      | nil => exact ⟨by simp, rfl⟩
      | cons c2 cs2 => exact absurd h (by simp [KidsOkF])
    | cons k ks =>
      rw [KidsOkF] at h
      refine ⟨by simp, ?_⟩
      have := (ih h.2).2
      simp only [List.length_cons]
      omega

theorem kidsOkF_forall_mem {P : Int → Option Int → Option Int → Prop} :
    ∀ {cs ks : List Int} {lb ub : Option Int}, KidsOkF P cs ks lb ub →
    ∀ c ∈ cs, ∃ lb2 ub2, P c lb2 ub2 := by
  intro cs
  induction cs with
  | nil => intro ks lb ub h; cases ks <;> exact absurd h (by simp [KidsOkF])
  | cons c cs ih =>
    intro ks lb ub h c2 hc2
    cases ks with
    | nil =>
      cases cs with
      | nil =>
        rw [List.mem_singleton] at hc2
        exact ⟨lb, ub, hc2 ▸ h⟩
      | cons c3 cs3 => exact absurd h (by simp [KidsOkF])
    | cons k ks =>
      rw [KidsOkF] at h
      rcases List.mem_cons.1 hc2 with hc2 | hc2
      · exact ⟨lb, some k, hc2 ▸ h.1⟩
      · exact ih h.2 c2 hc2

/-- The facts that propagate from subtrees to their concatenated entry
    lists. -/
def EntryFacts (l : List LeafEntry) (lb ub : Option Int) : Prop :=
  l ≠ [] ∧ List.Pairwise (fun a b => a.key < b.key) l ∧
  ∀ e ∈ l, lbOk lb e.key ∧ ubOk ub e.key ∧ ValWF e.value

theorem entryFacts_append {l1 l2 : List LeafEntry} {lb ub : Option Int} {k : Int}
    (h1 : EntryFacts l1 lb (some k)) (h2 : EntryFacts l2 (some k) ub) :
    EntryFacts (l1 ++ l2) lb ub := by
  obtain ⟨hne1, hs1, hb1⟩ := h1
  obtain ⟨hne2, hs2, hb2⟩ := h2
  obtain ⟨e2, he2⟩ := List.exists_mem_of_ne_nil l2 hne2
  refine ⟨by simp [hne1], ?_, ?_⟩
  · rw [List.pairwise_append]
    refine ⟨hs1, hs2, ?_⟩
    intro a ha b hb
    have hak : a.key < k := (hb1 a ha).2.1
    have hkb : k ≤ b.key := (hb2 b hb).1
    omega
  · intro e he
    rcases List.mem_append.1 he with he | he
    · obtain ⟨x1, x2, x3⟩ := hb1 e he
      refine ⟨x1, ?_, x3⟩
      have h1 : e.key < k := x2
      have h2 : k ≤ e2.key := (hb2 e2 he2).1
      have h3 : ubOk ub e2.key := (hb2 e2 he2).2.1
      exact ubOk_trans h3 (by omega)
    · obtain ⟨x1, x2, x3⟩ := hb2 e he
      refine ⟨?_, x2, x3⟩
      obtain ⟨e1, he1⟩ := List.exists_mem_of_ne_nil l1 hne1
      have h1 : lbOk lb e1.key := (hb1 e1 he1).1
      have h2 : e1.key < k := (hb1 e1 he1).2.1
      have h3 : k ≤ e.key := x1
      exact lbOk_trans h1 (by omega)

/-- Entry facts for the flattened children of an internal node. -/
theorem kidsOkF_entryFacts {P : Int → Option Int → Option Int → Prop}
    (f : Int → List LeafEntry)
    (hchild : ∀ c lb2 ub2, P c lb2 ub2 → EntryFacts (f c) lb2 ub2) :
    ∀ {cs ks : List Int} {lb ub : Option Int}, KidsOkF P cs ks lb ub →
    EntryFacts (cs.flatMap f) lb ub := by
  intro cs
  induction cs with
  | nil => intro ks lb ub h; cases ks <;> exact absurd h (by simp [KidsOkF])
  | cons c cs ih =>
    intro ks lb ub h
    cases ks with
    | nil =>
      cases cs with
      | nil => simpa [List.flatMap_cons] using hchild c lb ub h
      | cons c2 cs2 => exact absurd h (by simp [KidsOkF])
    | cons k ks =>
      rw [KidsOkF] at h
      rw [List.flatMap_cons]
      exact entryFacts_append (hchild c _ _ h.1) (ih h.2)

/-- A well-formed subtree has a nonempty, sorted, bounded entry list. -/
theorem subOk_entryFacts {s : Store} :
    ∀ {h : Nat} {pid par : Int} {lb ub : Option Int}, SubOk s h pid par lb ub →
    EntryFacts (absAt s h pid) lb ub := by
  intro h
  induction h with
  | zero =>
    intro pid par lb ub hsub
    obtain ⟨nx, es, hpg, hne, _, hsort, hb⟩ := hsub
    rw [show absAt s 0 pid = entriesOf (pageAt s pid) from rfl, hpg]
    exact ⟨hne, hsort, fun e he => hb e he⟩
  | succ h ih =>
    intro pid par lb ub hsub
    obtain ⟨keys, children, hpg, _, _, hkids⟩ := hsub
    rw [show absAt s (h + 1) pid =
      (match pageAt s pid with
        | .internal _ _ cs => cs.flatMap (absAt s h)
        | _ => []) from rfl, hpg]
    exact kidsOkF_entryFacts (absAt s h) (fun c lb2 ub2 hp => ih hp) hkids

/-! ## Frame lemmas: locality of page mutations -/

theorem flatMap_congr {α β : Type} {l : List α} {f g : α → List β}
    (h : ∀ a ∈ l, f a = g a) : l.flatMap f = l.flatMap g := by
  induction l with
  | nil => rfl
  | cons a l ih =>
    rw [List.flatMap_cons, List.flatMap_cons, h a (by simp), ih (fun b hb => h b (by simp [hb]))]

/-- A page holding real content is in range. -/
theorem pageAt_valid {s : Store} {p : Int} {d : PageData} (h : pageAt s p = d)
    (hd : d ≠ .free) : 0 ≤ p ∧ p.toNat < s.pages.length := by
  unfold pageAt at h
  split at h
  · exact absurd h.symm hd
  · rename_i hge
    push_neg at hge
    refine ⟨hge, ?_⟩
    by_contra hc
    push_neg at hc
    rw [List.getD_eq_getElem?_getD, List.getElem?_eq_none hc] at h
    exact hd h.symm

theorem pageAt_setPage {s : Store} {p : Int} (hp : 0 ≤ p) (hlt : p.toNat < s.pages.length)
    (d : PageData) (q : Int) :
    pageAt (setPage s p d) q = if q = p then d else pageAt s q := by
  unfold setPage pageAt
  rw [if_pos hp]
  by_cases hq : q = p
  · subst hq
    rw [if_pos rfl, if_neg (by omega)]
    dsimp only
    rw [List.getD_eq_getElem?_getD, List.getElem?_set_self hlt]
    rfl
  · rw [if_neg hq]
    by_cases hq0 : q < 0
    · rw [if_pos hq0, if_pos hq0]
    · rw [if_neg hq0, if_neg hq0]
      dsimp only
      rw [List.getD_eq_getElem?_getD, List.getElem?_set_ne (by omega), ← List.getD_eq_getElem?_getD]

theorem setPage_length {s : Store} {p : Int} (d : PageData) :
    (setPage s p d).pages.length = s.pages.length := by
  unfold setPage
  split <;> simp

theorem setParent_length {s : Store} {p np : Int} :
    (setParent s p np).pages.length = s.pages.length := by
  unfold setParent
  split <;> simp [setPage_length]

/-- `setParent` only changes the parent field of page `p`. -/
theorem pageAt_setParent {s : Store} (p np q : Int) :
    (q ≠ p → pageAt (setParent s p np) q = pageAt s q) ∧
    (entriesOf (pageAt (setParent s p np) q) = entriesOf (pageAt s q) ∧
     nextOf (pageAt (setParent s p np) q) = nextOf (pageAt s q)) := by
  unfold setParent
  cases hpg : pageAt s p with
  | leaf nx par es =>
    obtain ⟨h0, hlt⟩ := pageAt_valid hpg (by simp)
    rw [pageAt_setPage h0 hlt]
    by_cases hq : q = p
    · subst hq
      rw [if_pos rfl, hpg]
      exact ⟨fun hc => absurd rfl hc, rfl, rfl⟩
    · rw [if_neg hq]
      exact ⟨fun _ => rfl, rfl, rfl⟩
  | internal par ks cs =>
    obtain ⟨h0, hlt⟩ := pageAt_valid hpg (by simp)
    rw [pageAt_setPage h0 hlt]
    by_cases hq : q = p
    · subst hq
      rw [if_pos rfl, hpg]
      exact ⟨fun hc => absurd rfl hc, rfl, rfl⟩
    · rw [if_neg hq]
      exact ⟨fun _ => rfl, rfl, rfl⟩
  | free => exact ⟨fun _ => rfl, rfl, rfl⟩
  | meta r => exact ⟨fun _ => rfl, rfl, rfl⟩

theorem pid_mem_nodeIds (s : Store) (h : Nat) (pid : Int) : pid ∈ nodeIds s h pid := by
  cases h <;> simp [nodeIds]

/-- Main frame lemma: if every page of a subtree is unchanged, the subtree's
    representation (and its derived lists) is unchanged. -/
theorem subOk_frame {s s2 : Store} :
    ∀ {h : Nat} {pid par : Int} {lb ub : Option Int},
    SubOk s h pid par lb ub →
    (∀ q ∈ nodeIds s h pid, pageAt s2 q = pageAt s q) →
    SubOk s2 h pid par lb ub ∧ nodeIds s2 h pid = nodeIds s h pid ∧
    leafIds s2 h pid = leafIds s h pid ∧ absAt s2 h pid = absAt s h pid := by
  intro h
  induction h with
  | zero =>
    intro pid par lb ub hsub hfr
    obtain ⟨nx, es, hpg, rest⟩ := hsub
    have hpq := hfr pid (pid_mem_nodeIds s 0 pid)
    refine ⟨⟨nx, es, by rw [hpq]; exact hpg, rest⟩, rfl, rfl, ?_⟩
    show entriesOf (pageAt s2 pid) = entriesOf (pageAt s pid)
    rw [hpq]
  | succ h ih =>
    intro pid par lb ub hsub hfr
    obtain ⟨keys, children, hpg, hk1, hk2, hkids⟩ := hsub
    have hpq := hfr pid (pid_mem_nodeIds s (h+1) pid)
    have hframe_child : ∀ c ∈ children, ∀ q ∈ nodeIds s h c, pageAt s2 q = pageAt s q := by
      intro c hc q hq
      refine hfr q ?_
      rw [show nodeIds s (h+1) pid = pid :: (match pageAt s pid with
        | .internal _ _ cs => cs.flatMap (nodeIds s h)
        | _ => []) from rfl, hpg]
      exact List.mem_cons_of_mem _ (List.mem_flatMap.2 ⟨c, hc, hq⟩)
    have hchildren_eq : ∀ c ∈ children, nodeIds s2 h c = nodeIds s h c ∧
        leafIds s2 h c = leafIds s h c ∧ absAt s2 h c = absAt s h c := by
      intro c hc
      obtain ⟨lb2, ub2, hp⟩ := kidsOkF_forall_mem hkids c hc
      obtain ⟨_, a, b, c2⟩ := ih hp (hframe_child c hc)
      exact ⟨a, b, c2⟩
    refine ⟨⟨keys, children, by rw [hpq]; exact hpg, hk1, hk2, ?_⟩, ?_, ?_, ?_⟩
    · refine kidsOkF_mono hkids ?_
      intro c hc lb2 ub2 hp
      exact (ih hp (hframe_child c hc)).1
    · rw [show nodeIds s2 (h+1) pid = pid :: (match pageAt s2 pid with
        | .internal _ _ cs => cs.flatMap (nodeIds s2 h)
        | _ => []) from rfl, hpq, hpg]
      rw [show nodeIds s (h+1) pid = pid :: (match pageAt s pid with
        | .internal _ _ cs => cs.flatMap (nodeIds s h)
        | _ => []) from rfl, hpg]
      exact congrArg _ (flatMap_congr (fun c hc => (hchildren_eq c hc).1))
    · rw [show leafIds s2 (h+1) pid = (match pageAt s2 pid with
        | .internal _ _ cs => cs.flatMap (leafIds s2 h)
        | _ => []) from rfl, hpq, hpg]
      rw [show leafIds s (h+1) pid = (match pageAt s pid with
        | .internal _ _ cs => cs.flatMap (leafIds s h)
        | _ => []) from rfl, hpg]
      exact flatMap_congr (fun c hc => (hchildren_eq c hc).2.1)
    · rw [show absAt s2 (h+1) pid = (match pageAt s2 pid with
        | .internal _ _ cs => cs.flatMap (absAt s2 h)
        | _ => []) from rfl, hpq, hpg]
      rw [show absAt s (h+1) pid = (match pageAt s pid with
        | .internal _ _ cs => cs.flatMap (absAt s h)
        | _ => []) from rfl, hpg]
      exact flatMap_congr (fun c hc => (hchildren_eq c hc).2.2)

theorem subOk_pid_facts {s : Store} {h : Nat} {pid par : Int} {lb ub : Option Int}
    (hsub : SubOk s h pid par lb ub) : 0 ≤ pid ∧ pid.toNat < s.pages.length := by
  cases h with
  | zero =>
    obtain ⟨nx, es, hpg, _⟩ := hsub
    exact pageAt_valid hpg (by simp)
  | succ h =>
    obtain ⟨keys, children, hpg, _⟩ := hsub
    exact pageAt_valid hpg (by simp)

theorem nodeIds_valid {s : Store} :
    ∀ {h : Nat} {pid par : Int} {lb ub : Option Int}, SubOk s h pid par lb ub →
    ∀ p ∈ nodeIds s h pid, 0 ≤ p ∧ p.toNat < s.pages.length := by
  intro h
  induction h with
  | zero =>
    intro pid par lb ub hsub p hp
    rw [show nodeIds s 0 pid = [pid] from rfl, List.mem_singleton] at hp
    exact hp ▸ subOk_pid_facts hsub
  | succ h ih =>
    intro pid par lb ub hsub p hp
    obtain ⟨keys, children, hpg, _, _, hkids⟩ := hsub
    rw [show nodeIds s (h+1) pid = pid :: (match pageAt s pid with
      | .internal _ _ cs => cs.flatMap (nodeIds s h)
      | _ => []) from rfl, hpg] at hp
    rcases List.mem_cons.1 hp with hp | hp
    · exact hp ▸ pageAt_valid hpg (by simp)
    · rcases List.mem_flatMap.1 hp with ⟨c, hc, hq⟩
      obtain ⟨lb2, ub2, hsub2⟩ := kidsOkF_forall_mem hkids c hc
      exact ih hsub2 p hq

theorem leafIds_subset_nodeIds (s : Store) :
    ∀ (h : Nat) (pid : Int), ∀ p ∈ leafIds s h pid, p ∈ nodeIds s h pid := by
  intro h
  induction h with
  | zero => intro pid p hp; exact hp
  | succ h ih =>
    intro pid p hp
    rw [show leafIds s (h+1) pid = (match pageAt s pid with
      | .internal _ _ cs => cs.flatMap (leafIds s h)
      | _ => []) from rfl] at hp
    rw [show nodeIds s (h+1) pid = pid :: (match pageAt s pid with
      | .internal _ _ cs => cs.flatMap (nodeIds s h)
      | _ => []) from rfl]
    cases hpg : pageAt s pid with
    | internal par ks cs =>
      rw [hpg] at hp
      rcases List.mem_flatMap.1 hp with ⟨c, hc, hq⟩
      exact List.mem_cons_of_mem _ (List.mem_flatMap.2 ⟨c, hc, ih c p hq⟩)
    | leaf nx par es => rw [hpg] at hp; simp at hp
    | free => rw [hpg] at hp; simp at hp
    | meta r => rw [hpg] at hp; simp at hp

theorem leafIds_spec {s : Store} :
    ∀ {h : Nat} {pid par : Int} {lb ub : Option Int}, SubOk s h pid par lb ub →
    ∀ p ∈ leafIds s h pid, ∃ par2 lb2 ub2, SubOk s 0 p par2 lb2 ub2 := by
  intro h
  induction h with
  | zero =>
    intro pid par lb ub hsub p hp
    rw [show leafIds s 0 pid = [pid] from rfl, List.mem_singleton] at hp
    exact ⟨par, lb, ub, hp ▸ hsub⟩
  | succ h ih =>
    intro pid par lb ub hsub p hp
    obtain ⟨keys, children, hpg, _, _, hkids⟩ := hsub
    rw [show leafIds s (h+1) pid = (match pageAt s pid with
      | .internal _ _ cs => cs.flatMap (leafIds s h)
      | _ => []) from rfl, hpg] at hp
    rcases List.mem_flatMap.1 hp with ⟨c, hc, hq⟩
    obtain ⟨lb2, ub2, hsub2⟩ := kidsOkF_forall_mem hkids c hc
    exact ih hsub2 p hq

/-- The subtree's entry list is the concatenation of its leaves' entry
    arrays, in chain order. -/
theorem absAt_eq_flat {s : Store} :
    ∀ {h : Nat} {pid par : Int} {lb ub : Option Int}, SubOk s h pid par lb ub →
    absAt s h pid = (leafIds s h pid).flatMap (fun p => entriesOf (pageAt s p)) := by
  intro h
  induction h with
  | zero =>
    intro pid par lb ub _
    show entriesOf (pageAt s pid) = [pid].flatMap (fun p => entriesOf (pageAt s p))
    simp
  | succ h ih =>
    intro pid par lb ub hsub
    obtain ⟨keys, children, hpg, _, _, hkids⟩ := hsub
    rw [show absAt s (h+1) pid = (match pageAt s pid with
      | .internal _ _ cs => cs.flatMap (absAt s h)
      | _ => []) from rfl, hpg]
    rw [show leafIds s (h+1) pid = (match pageAt s pid with
      | .internal _ _ cs => cs.flatMap (leafIds s h)
      | _ => []) from rfl, hpg]
    rw [List.flatMap_assoc]
    refine flatMap_congr ?_
    intro c hc
    obtain ⟨lb2, ub2, hsub2⟩ := kidsOkF_forall_mem hkids c hc
    exact ih hsub2

theorem nodeIds_length_gt {s : Store} :
    ∀ {h : Nat} {pid par : Int} {lb ub : Option Int}, SubOk s h pid par lb ub →
    h < (nodeIds s h pid).length := by
  intro h
  induction h with
  | zero => intro pid par lb ub _; simp [nodeIds]
  | succ h ih =>
    intro pid par lb ub hsub
    obtain ⟨keys, children, hpg, _, _, hkids⟩ := hsub
    rw [show nodeIds s (h+1) pid = pid :: (match pageAt s pid with
      | .internal _ _ cs => cs.flatMap (nodeIds s h)
      | _ => []) from rfl, hpg]
    obtain ⟨hne, _⟩ := kidsOkF_shape hkids
    rcases children with _ | ⟨c, rest⟩
    · exact absurd rfl hne
    · obtain ⟨lb2, ub2, hsub2⟩ := kidsOkF_forall_mem hkids c (by simp)
      have := ih hsub2
      dsimp only
      rw [List.length_cons, List.flatMap_cons, List.length_append]
      omega

/-- On a well-formed subtree the executable height computation returns the
    height. -/
theorem heightFrom_eq {s : Store} :
    ∀ {h : Nat} {pid par : Int} {lb ub : Option Int}, SubOk s h pid par lb ub →
    ∀ fuel, h ≤ fuel → heightFrom s fuel pid = h := by
  intro h
  induction h with
  | zero =>
    intro pid par lb ub hsub fuel _
    obtain ⟨nx, es, hpg, _⟩ := hsub
    cases fuel with
    | zero => rfl
    | succ fuel =>
      show (match pageAt s pid with
        | .internal _ _ cs => heightFrom s fuel (cs.getD 0 0) + 1
        | _ => 0) = 0
      rw [hpg]
  | succ h ih =>
    intro pid par lb ub hsub fuel hfuel
    obtain ⟨keys, children, hpg, _, _, hkids⟩ := hsub
    cases fuel with
    | zero => omega
    | succ fuel =>
      show (match pageAt s pid with
        | .internal _ _ cs => heightFrom s fuel (cs.getD 0 0) + 1
        | _ => 0) = h + 1
      rw [hpg]
      obtain ⟨hne, _⟩ := kidsOkF_shape hkids
      rcases hcs : children with _ | ⟨c, rest⟩
      · exact absurd hcs hne
      · obtain ⟨lb2, ub2, hsub2⟩ := kidsOkF_forall_mem hkids c (by rw [hcs]; simp)
        dsimp only
        rw [show (c :: rest).getD 0 0 = c from rfl]
        rw [ih hsub2 fuel (by omega)]

theorem nodup_bounded_length {l : List Int} {n : Nat} (hnd : l.Nodup)
    (hb : ∀ p ∈ l, 0 ≤ p ∧ p.toNat < n) : l.length ≤ n := by
  have hmap : (l.map Int.toNat).Nodup := by
    refine List.Nodup.map_on ?_ hnd
    intro x hx y hy hxy
    have hx0 := (hb x hx).1
    have hy0 := (hb y hy).1
    omega
  have hsub : ∀ m ∈ l.map Int.toNat, m ∈ Finset.range n := by
    intro m hm
    rcases List.mem_map.1 hm with ⟨p, hp, hq⟩
    rw [Finset.mem_range]
    exact hq ▸ (hb p hp).2
  have : (l.map Int.toNat).toFinset.card = (l.map Int.toNat).length :=
    List.toFinset_card_of_nodup hmap
  have hcard : (l.map Int.toNat).toFinset.card ≤ n := by
    refine le_trans (Finset.card_le_card ?_) (le_of_eq (Finset.card_range n))
    intro m hm
    exact hsub m (List.mem_toFinset.1 hm)
  rw [this] at hcard
  simpa using hcard

/-- The tree height is below the page count. -/
theorem treeOk_height_lt {s : Store} {h : Nat} (t : TreeOk s h) : h < s.pages.length := by
  have h1 := nodeIds_length_gt t.sub
  have h2 := nodup_bounded_length t.nodup (fun p hp => ⟨by
    have := (t.bounds p hp).1; omega, (t.bounds p hp).2⟩)
  omega

/-- On a well-formed store the abstraction function reads the real tree. -/
theorem absOf_eq {s : Store} {h : Nat} (t : TreeOk s h) :
    absOf s = absAt s h s.root := by
  unfold absOf
  rw [if_neg (by have := t.root1; intro hc; rw [hc] at this; norm_num [INVALID_PAGE_ID] at this)]
  rw [heightFrom_eq t.sub s.pages.length (le_of_lt (treeOk_height_lt t))]

/-! ## Node segments: splitting a node's children/keys arrays at one child -/

/-- Left segment of an internal node: children `cs` each followed by the key
    to its right (`ks`), rolling the lower bound from `lb` to `lb'`. -/
def KidsL (P : Int → Option Int → Option Int → Prop) :
    List Int → List Int → Option Int → Option Int → Prop
  | [], [], lb, lb' => lb = lb'
  | c :: cs, k :: ks, lb, lb' => P c lb (some k) ∧ KidsL P cs ks (some k) lb'
  | _, _, _, _ => False

/-- Right segment of an internal node, seen from a hole child with upper
    bound `ubH`: either the hole is the last child, or the next key equals
    `ubH` and the remaining children follow it. -/
def KidsR (P : Int → Option Int → Option Int → Prop)
    (cs ks : List Int) (ubH ub : Option Int) : Prop :=
  match ks, cs with
  | k :: ks, cs => ubH = some k ∧ KidsOkF P cs ks (some k) ub
  | [], [] => ubH = ub
  | [], _ :: _ => False

theorem kidsL_shape {P : Int → Option Int → Option Int → Prop} :
    ∀ {cs ks : List Int} {lb lb' : Option Int}, KidsL P cs ks lb lb' →
    cs.length = ks.length := by
  intro cs
  induction cs with
  | nil =>
    intro ks lb lb' h
    cases ks with
    | nil => rfl
    | cons k ks => exact absurd h (by simp [KidsL])
  | cons c cs ih =>
    intro ks lb lb' h
    cases ks with
    | nil => exact absurd h (by simp [KidsL])
    | cons k ks => rw [KidsL] at h; simpa using ih h.2

theorem kidsR_shape {P : Int → Option Int → Option Int → Prop} :
    ∀ {cs ks : List Int} {ubH ub : Option Int}, KidsR P cs ks ubH ub →
    cs.length = ks.length := by
  intro cs ks ubH ub h
  match cs, ks with
  | cs, k :: ks =>
    rw [KidsR] at h
    have := (kidsOkF_shape h.2).2
    simpa using this
  | [], [] => rfl
  | c :: cs, [] => exact absurd h (by simp [KidsR])

theorem kidsL_forall_mem {P : Int → Option Int → Option Int → Prop} :
    ∀ {cs ks : List Int} {lb lb' : Option Int}, KidsL P cs ks lb lb' →
    ∀ c ∈ cs, ∃ lb2 ub2, P c lb2 ub2 := by
  intro cs
  induction cs with
  | nil => intro ks lb lb' h c hc; simp at hc
  | cons c cs ih =>
    intro ks lb lb' h c2 hc2
    cases ks with
    | nil => exact absurd h (by simp [KidsL])
    | cons k ks =>
      rw [KidsL] at h
      rcases List.mem_cons.1 hc2 with hc2 | hc2
      · exact ⟨lb, some k, hc2 ▸ h.1⟩
      · exact ih h.2 c2 hc2

theorem kidsR_forall_mem {P : Int → Option Int → Option Int → Prop} :
    ∀ {cs ks : List Int} {ubH ub : Option Int}, KidsR P cs ks ubH ub →
    ∀ c ∈ cs, ∃ lb2 ub2, P c lb2 ub2 := by
  intro cs ks ubH ub h c hc
  match cs, ks with
  | cs, k :: ks =>
    rw [KidsR] at h
    exact kidsOkF_forall_mem h.2 c hc
  | [], [] => simp at hc
  | c2 :: cs, [] => exact absurd h (by simp [KidsR])

theorem kidsL_mono {P Q : Int → Option Int → Option Int → Prop} :
    ∀ {cs ks : List Int} {lb lb' : Option Int}, KidsL P cs ks lb lb' →
    (∀ c ∈ cs, ∀ lb2 ub2, P c lb2 ub2 → Q c lb2 ub2) → KidsL Q cs ks lb lb' := by
  intro cs
  induction cs with
  | nil =>
    intro ks lb lb' h _
    cases ks with
    | nil => exact h
    | cons k ks => exact absurd h (by simp [KidsL])
  | cons c cs ih =>
    intro ks lb lb' h himp
    cases ks with
    | nil => exact absurd h (by simp [KidsL])
    | cons k ks =>
      rw [KidsL] at h ⊢
      exact ⟨himp c (by simp) _ _ h.1,
        ih h.2 (fun c2 hc2 lb2 ub2 hp => himp c2 (List.mem_cons_of_mem _ hc2) _ _ hp)⟩

theorem kidsR_mono {P Q : Int → Option Int → Option Int → Prop} :
    ∀ {cs ks : List Int} {ubH ub : Option Int}, KidsR P cs ks ubH ub →
    (∀ c ∈ cs, ∀ lb2 ub2, P c lb2 ub2 → Q c lb2 ub2) → KidsR Q cs ks ubH ub := by
  intro cs ks ubH ub h himp
  match cs, ks with
  | cs, k :: ks =>
    rw [KidsR] at h ⊢
    exact ⟨h.1, kidsOkF_mono h.2 himp⟩
  | [], [] => exact h
  | c :: cs, [] => exact absurd h (by simp [KidsR])

/-- Splitting `KidsOkF` at a hole child given an explicit decomposition of
    the arrays. -/
theorem kidsOkF_decomp {P : Int → Option Int → Option Int → Prop} :
    ∀ {csL : List Int} {ksL : List Int} {c : Int} {csR ksR : List Int}
    {lb ub : Option Int},
    KidsOkF P (csL ++ c :: csR) (ksL ++ ksR) lb ub → csL.length = ksL.length →
    ∃ lbH ubH, KidsL P csL ksL lb lbH ∧ P c lbH ubH ∧ KidsR P csR ksR ubH ub := by
  intro csL
  induction csL with
  | nil =>
    intro ksL c csR ksR lb ub h hlen
    rw [List.length_nil] at hlen
    rw [List.eq_nil_of_length_eq_zero hlen.symm] at h ⊢
    rw [List.nil_append, List.nil_append] at h
    cases ksR with
    | nil =>
      cases csR with
      | nil => exact ⟨lb, ub, rfl, h, rfl⟩
      | cons c2 cs2 => exact absurd h (by simp [KidsOkF])
    | cons k ks =>
      rw [KidsOkF] at h
      exact ⟨lb, some k, rfl, h.1, rfl, h.2⟩
  | cons a csL ih =>
    intro ksL c csR ksR lb ub h hlen
    cases ksL with
    | nil => simp at hlen
    | cons ka ksL =>
      rw [List.cons_append, List.cons_append, KidsOkF] at h
      obtain ⟨lbH, ubH, h1, h2, h3⟩ := ih h.2 (by simpa using hlen)
      exact ⟨lbH, ubH, ⟨h.1, h1⟩, h2, h3⟩

/-- Joining a left segment, a hole child and a right segment back into
    `KidsOkF`. -/
theorem kidsOkF_join {P : Int → Option Int → Option Int → Prop} :
    ∀ {csL : List Int} {ksL : List Int} {c : Int} {csR ksR : List Int}
    {lb lbH ubH ub : Option Int},
    KidsL P csL ksL lb lbH → P c lbH ubH → KidsR P csR ksR ubH ub →
    KidsOkF P (csL ++ c :: csR) (ksL ++ ksR) lb ub := by
  intro csL
  induction csL with
  | nil =>
    intro ksL c csR ksR lb lbH ubH ub hL hc hR
    cases ksL with
    | nil =>
      rw [show KidsL P [] [] lb lbH = (lb = lbH) from rfl] at hL
      subst hL
      rw [List.nil_append, List.nil_append]
      match csR, ksR with
      | [], [] =>
        rw [show KidsR P [] [] ubH ub = (ubH = ub) from rfl] at hR
        exact hR ▸ hc
      | csR, k :: ks =>
        rw [KidsR] at hR
        rw [KidsOkF]
        exact ⟨hR.1 ▸ hc, hR.2⟩
      | c2 :: csR, [] => exact absurd hR (by simp [KidsR])
    | cons k ks => exact absurd hL (by simp [KidsL])
  | cons a csL ih =>
    intro ksL c csR ksR lb lbH ubH ub hL hc hR
    cases ksL with
    | nil => exact absurd hL (by simp [KidsL])
    | cons ka ksL =>
      rw [KidsL] at hL
      rw [List.cons_append, List.cons_append, KidsOkF]
      exact ⟨hL.1, ih hL.2 hc hR⟩

/-- Extending a left segment by one more child/key pair. -/
theorem kidsL_snoc {P : Int → Option Int → Option Int → Prop} :
    ∀ {cs ks : List Int} {lb lbH : Option Int} {c k : Int},
    KidsL P cs ks lb lbH → P c lbH (some k) →
    KidsL P (cs ++ [c]) (ks ++ [k]) lb (some k) := by
  intro cs
  induction cs with
  | nil =>
    intro ks lb lbH c k hL hc
    cases ks with
    | nil =>
      rw [show KidsL P [] [] lb lbH = (lb = lbH) from rfl] at hL
      subst hL
      rw [List.nil_append, List.nil_append]
      exact ⟨hc, rfl⟩
    | cons k2 ks => exact absurd hL (by simp [KidsL])
  | cons a cs ih =>
    intro ks lb lbH c k hL hc
    cases ks with
    | nil => exact absurd hL (by simp [KidsL])
    | cons ka ks =>
      rw [KidsL] at hL
      rw [List.cons_append, List.cons_append, KidsL]
      exact ⟨hL.1, ih hL.2 hc⟩

/-- Joining with two children and a separator key in the hole (the shape
    produced by `InsertIntoParent`). -/
theorem kidsOkF_join2 {P : Int → Option Int → Option Int → Prop}
    {csL ksL csR ksR : List Int} {l r k : Int} {lb lbH ubH ub : Option Int}
    (hL : KidsL P csL ksL lb lbH) (hl : P l lbH (some k)) (hr : P r (some k) ubH)
    (hR : KidsR P csR ksR ubH ub) :
    KidsOkF P (csL ++ l :: r :: csR) (ksL ++ k :: ksR) lb ub := by
  have h2 := kidsOkF_join (kidsL_snoc hL hl) hr hR
  simpa using h2

/-- Splitting a (full) node's merged arrays at index `sp`: the shape of
    `SplitInternal`. -/
theorem kidsOkF_split_at {P : Int → Option Int → Option Int → Prop} :
    ∀ (sp : Nat) {cs ks : List Int} {lb ub : Option Int},
    KidsOkF P cs ks lb ub → sp < ks.length →
    KidsOkF P (cs.take (sp + 1)) (ks.take sp) lb (some (ks.getD sp 0)) ∧
    KidsOkF P (cs.drop (sp + 1)) (ks.drop (sp + 1)) (some (ks.getD sp 0)) ub := by
  intro sp
  induction sp with
  | zero =>
    intro cs ks lb ub h hsp
    match cs, ks with
    | [], ks => exact absurd (kidsOkF_shape h).1 (by simp)
    | c :: cs, [] => simp at hsp
    | c :: cs, k :: ks =>
      rw [KidsOkF] at h
      refine ⟨?_, by simpa using h.2⟩
      simpa [KidsOkF] using h.1
  | succ sp ih =>
    intro cs ks lb ub h hsp
    match cs, ks with
    | [], ks => exact absurd (kidsOkF_shape h).1 (by simp)
    | c :: cs, [] => simp at hsp
    | c :: cs, k :: ks =>
      rw [KidsOkF] at h
      obtain ⟨hleft, hright⟩ := ih h.2 (by simpa using hsp)
      refine ⟨?_, by simpa using hright⟩
      rw [List.take_succ_cons, List.take_succ_cons]
      rw [show (k :: ks).getD (sp + 1) 0 = ks.getD sp 0 from rfl]
      rw [KidsOkF]
      exact ⟨h.1, hleft⟩

/-- A well-formed subtree contains at least one key inside its range. -/
theorem subOk_key_witness {s : Store} {h : Nat} {pid par : Int} {lb ub : Option Int}
    (hsub : SubOk s h pid par lb ub) : ∃ e : Int, lbOk lb e ∧ ubOk ub e := by
  obtain ⟨hne, _, hb⟩ := subOk_entryFacts hsub
  obtain ⟨x, hx⟩ := List.exists_mem_of_ne_nil _ hne
  exact ⟨x.key, (hb x hx).1, (hb x hx).2.1⟩

/-- The separator keys of a node lie strictly between the bounds and are
    strictly increasing (given every child subtree holds a key in range). -/
theorem kidsOkF_keys {P : Int → Option Int → Option Int → Prop}
    (hP : ∀ c lb2 ub2, P c lb2 ub2 → ∃ e : Int, lbOk lb2 e ∧ ubOk ub2 e) :
    ∀ {cs ks : List Int} {lb ub : Option Int}, KidsOkF P cs ks lb ub →
    List.Pairwise (· < ·) ks ∧
    ∀ k ∈ ks, (∀ a, lb = some a → a < k) ∧ (∀ b, ub = some b → k < b) := by
  intro cs
  induction cs with
  | nil => intro ks lb ub h; cases ks <;> exact absurd h (by simp [KidsOkF])
  | cons c cs ih =>
    intro ks lb ub h
    cases ks with
    | nil =>
      cases cs with
      | nil => exact ⟨List.Pairwise.nil, by simp⟩
      | cons c2 cs2 => exact absurd h (by simp [KidsOkF])
    | cons k ks =>
      rw [KidsOkF] at h
      obtain ⟨hsort, hmem⟩ := ih h.2
      obtain ⟨e, he1, he2⟩ := hP c lb (some k) h.1
      have hlbk : ∀ a, lb = some a → a < k := by
        intro a ha
        subst ha
        have : a ≤ e := he1
        have : e < k := he2
        omega
      have hkub : ∀ b, ub = some b → k < b := by
        intro b hb
        cases ks with
        | nil =>
          cases cs with
          | nil => exact absurd h.2 (by simp [KidsOkF])
          | cons c2 cs2 =>
            cases cs2 with
            | nil =>
              obtain ⟨e2, he21, he22⟩ := hP c2 (some k) ub h.2
              subst hb
              have : k ≤ e2 := he21
              have : e2 < b := he22
              omega
            | cons c3 cs3 => exact absurd h.2 (by simp [KidsOkF])
        | cons k2 ks2 =>
          have h1 := (hmem k2 (by simp)).1 k rfl
          have h2 := (hmem k2 (by simp)).2 b hb
          omega
      refine ⟨?_, ?_⟩
      · rw [List.pairwise_cons]
        exact ⟨fun k2 hk2 => (hmem k2 hk2).1 k rfl, hsort⟩
      · intro k2 hk2
        rcases List.mem_cons.1 hk2 with hk2 | hk2
        · subst hk2
          exact ⟨hlbk, hkub⟩
        · refine ⟨?_, (hmem k2 hk2).2⟩
          intro a ha
          have h1 := (hmem k2 hk2).1 k rfl
          have h2 := hlbk a ha
          omega

/-- Every key of a left segment is at most the segment's output bound. -/
theorem kidsL_le_out {P : Int → Option Int → Option Int → Prop}
    (hP : ∀ c lb2 ub2, P c lb2 ub2 → ∃ e : Int, lbOk lb2 e ∧ ubOk ub2 e) :
    ∀ {cs ks : List Int} {lb lb' : Option Int}, KidsL P cs ks lb lb' →
    ∀ k ∈ ks, ∀ b, lb' = some b → k ≤ b := by
  intro cs
  induction cs with
  | nil =>
    intro ks lb lb' h k hk
    cases ks with
    | nil => simp at hk
    | cons k2 ks => exact absurd h (by simp [KidsL])
  | cons c cs ih =>
    intro ks lb lb' h k hk b hb
    cases ks with
    | nil => exact absurd h (by simp [KidsL])
    | cons k2 ks =>
      rw [KidsL] at h
      rcases List.mem_cons.1 hk with hk | hk
      · subst hk
        cases ks with
        | nil =>
          cases cs with
          | nil =>
            rw [show KidsL P [] [] (some k) lb' = (some k = lb') from rfl] at h
            rw [← h.2] at hb
            injection hb with hb
            omega
          | cons c2 cs2 => exact absurd h.2 (by simp [KidsL])
        | cons k3 ks3 =>
          cases cs with
          | nil => exact absurd h.2 (by simp [KidsL])
          | cons c2 cs2 =>
            have h2 := h.2
            rw [KidsL] at h2
            obtain ⟨e, he1, he2⟩ := hP c2 (some k) (some k3) h2.1
            have h3 := ih h.2 k3 (by simp) b hb
            have : k ≤ e := he1
            have : e < k3 := he2
            omega
      · exact ih h.2 k hk b hb

/-- The output bound of a nonempty left segment is its last key. -/
theorem kidsL_out_mem {P : Int → Option Int → Option Int → Prop} :
    ∀ {cs ks : List Int} {lb lb' : Option Int}, KidsL P cs ks lb lb' →
    (ks = [] ∧ lb = lb') ∨ (∃ b, lb' = some b ∧ b ∈ ks) := by
  intro cs
  induction cs with
  | nil =>
    intro ks lb lb' h
    cases ks with
    | nil => exact Or.inl ⟨rfl, h⟩
    | cons k2 ks => exact absurd h (by simp [KidsL])
  | cons c cs ih =>
    intro ks lb lb' h
    cases ks with
    | nil => exact absurd h (by simp [KidsL])
    | cons k2 ks =>
      rw [KidsL] at h
      rcases ih h.2 with ⟨h1, h2⟩ | ⟨b, h1, h2⟩
      · subst h1
        exact Or.inr ⟨k2, h2.symm, by simp⟩
      · exact Or.inr ⟨b, h1, by simp [h2]⟩

/-! ## Path contexts (the zipper for the `InsertIntoParent` climb) -/

/-- One step of the root-to-leaf path: an internal node `pid` (parent field
    `par`, key range `[lb, ub)`) whose children split as `csL ++ hole :: csR`
    with keys `ksL ++ ksR` around the followed child. -/
structure Crumb where
  pid : Int
  par : Int
  csL : List Int
  ksL : List Int
  ksR : List Int
  csR : List Int
  lb : Option Int
  ub : Option Int

/-- The parent page id a context expects the plugged subtree to carry (the
    deepest crumb's node, or `INVALID_PAGE_ID` at the root). -/
def ctxPar : List Crumb → Int
  | [] => INVALID_PAGE_ID
  | c :: _ => c.pid

/-- `CtxOk s ctx hole hh lbH ubH`: `ctx` is a well-formed path of internal
    nodes from the node containing the hole child `hole` (a subtree slot of
    height `hh` covering `[lbH, ubH)`) up to the root of the store. -/
def CtxOk (s : Store) : List Crumb → Int → Nat → Option Int → Option Int → Prop
  | [], hole, _, lbH, ubH => hole = s.root ∧ lbH = none ∧ ubH = none
  | c :: rest, hole, hh, lbH, ubH =>
    pageAt s c.pid = .internal c.par (c.ksL ++ c.ksR) (c.csL ++ hole :: c.csR) ∧
    c.par = ctxPar rest ∧
    1 ≤ c.ksL.length + c.ksR.length ∧ c.ksL.length + c.ksR.length ≤ INTERNAL_MAX_KEYS ∧
    c.csL.length = c.ksL.length ∧
    KidsL (fun p lb2 ub2 => SubOk s hh p c.pid lb2 ub2) c.csL c.ksL c.lb lbH ∧
    KidsR (fun p lb2 ub2 => SubOk s hh p c.pid lb2 ub2) c.csR c.ksR ubH c.ub ∧
    CtxOk s rest c.pid (hh + 1) c.lb c.ub

/-- All page ids recorded in a context: the node pages on the path and every
    page of the off-path subtrees. -/
def ctxIds (s : Store) : List Crumb → Nat → List Int
  | [], _ => []
  | c :: rest, hh =>
    c.pid :: ((c.csL ++ c.csR).flatMap (nodeIds s hh) ++ ctxIds s rest (hh + 1))

/-- Leaf pages strictly left of the hole, in key order. -/
def ctxLvL (s : Store) : List Crumb → Nat → List Int
  | [], _ => []
  | c :: rest, hh => ctxLvL s rest (hh + 1) ++ c.csL.flatMap (leafIds s hh)

/-- Leaf pages strictly right of the hole, in key order. -/
def ctxLvR (s : Store) : List Crumb → Nat → List Int
  | [], _ => []
  | c :: rest, hh => c.csR.flatMap (leafIds s hh) ++ ctxLvR s rest (hh + 1)

/-- Leaf entries strictly left of the hole, in key order. -/
def ctxAbsL (s : Store) : List Crumb → Nat → List LeafEntry
  | [], _ => []
  | c :: rest, hh => ctxAbsL s rest (hh + 1) ++ c.csL.flatMap (absAt s hh)

/-- Leaf entries strictly right of the hole, in key order. -/
def ctxAbsR (s : Store) : List Crumb → Nat → List LeafEntry
  | [], _ => []
  | c :: rest, hh => c.csR.flatMap (absAt s hh) ++ ctxAbsR s rest (hh + 1)

/-- Plugging a well-formed subtree into a well-formed context yields a
    well-formed tree whose id/leaf/entry lists decompose around the hole. -/
theorem ctx_plug {s : Store} :
    ∀ {ctx : List Crumb} {hole : Int} {hh : Nat} {lbH ubH : Option Int},
    CtxOk s ctx hole hh lbH ubH →
    SubOk s hh hole (ctxPar ctx) lbH ubH →
    SubOk s (hh + ctx.length) s.root INVALID_PAGE_ID none none ∧
    (nodeIds s (hh + ctx.length) s.root).Perm
      (ctxIds s ctx hh ++ nodeIds s hh hole) ∧
    leafIds s (hh + ctx.length) s.root =
      ctxLvL s ctx hh ++ leafIds s hh hole ++ ctxLvR s ctx hh ∧
    absAt s (hh + ctx.length) s.root =
      ctxAbsL s ctx hh ++ absAt s hh hole ++ ctxAbsR s ctx hh := by
  intro ctx
  induction ctx with
  | nil =>
    intro hole hh lbH ubH hctx hsub
    obtain ⟨h1, h2, h3⟩ := hctx
    subst h1; subst h2; subst h3
    simpa [ctxIds, ctxLvL, ctxLvR, ctxAbsL, ctxAbsR] using hsub
  | cons c rest ih =>
    intro hole hh lbH ubH hctx hsub
    obtain ⟨hpage, hpar, hk1, hk2, hlen, hKL, hKR, hrest⟩ := hctx
    have hnode : SubOk s (hh + 1) c.pid (ctxPar rest) c.lb c.ub := by
      refine ⟨c.ksL ++ c.ksR, c.csL ++ hole :: c.csR, hpar ▸ hpage, ?_, ?_, ?_⟩
      · simpa using hk1
      · simpa using hk2
      · exact kidsOkF_join hKL hsub hKR
    obtain ⟨ihS, ihP, ihL, ihA⟩ := ih hrest hnode
    have harith : hh + 1 + rest.length = hh + (c :: rest).length := by
      simp only [List.length_cons]
      omega
    rw [harith] at ihS ihP ihL ihA
    have hnodeIds : nodeIds s (hh + 1) c.pid =
        c.pid :: (c.csL.flatMap (nodeIds s hh) ++ nodeIds s hh hole ++
          c.csR.flatMap (nodeIds s hh)) := by
      rw [show nodeIds s (hh + 1) c.pid = c.pid :: (match pageAt s c.pid with
        | .internal _ _ cs => cs.flatMap (nodeIds s hh)
        | _ => []) from rfl, hpage]
      simp [List.flatMap_append, List.flatMap_cons, List.append_assoc]
    have hleafIds : leafIds s (hh + 1) c.pid =
        c.csL.flatMap (leafIds s hh) ++ leafIds s hh hole ++
          c.csR.flatMap (leafIds s hh) := by
      rw [show leafIds s (hh + 1) c.pid = (match pageAt s c.pid with
        | .internal _ _ cs => cs.flatMap (leafIds s hh)
        | _ => []) from rfl, hpage]
      simp [List.flatMap_append, List.flatMap_cons, List.append_assoc]
    have habsAt : absAt s (hh + 1) c.pid =
        c.csL.flatMap (absAt s hh) ++ absAt s hh hole ++
          c.csR.flatMap (absAt s hh) := by
      rw [show absAt s (hh + 1) c.pid = (match pageAt s c.pid with
        | .internal _ _ cs => cs.flatMap (absAt s hh)
        | _ => []) from rfl, hpage]
      simp [List.flatMap_append, List.flatMap_cons, List.append_assoc]
    refine ⟨ihS, ?_, ?_, ?_⟩
    · refine ihP.trans ?_
      rw [hnodeIds, List.perm_iff_count]
      intro a
      simp only [ctxIds, List.flatMap_append, List.count_append, List.count_cons]
      omega
    · rw [ihL, hleafIds]
      simp only [ctxLvL, ctxLvR, List.append_assoc]
    · rw [ihA, habsAt]
      simp only [ctxAbsL, ctxAbsR, List.append_assoc]

/-- Frame lemma for contexts: if the root and every page recorded in the
    context are unchanged, the context and its derived lists are unchanged. -/
theorem ctxOk_frame {s s2 : Store} (hroot : s2.root = s.root) :
    ∀ {ctx : List Crumb} {hole : Int} {hh : Nat} {lbH ubH : Option Int},
    CtxOk s ctx hole hh lbH ubH →
    (∀ q ∈ ctxIds s ctx hh, pageAt s2 q = pageAt s q) →
    CtxOk s2 ctx hole hh lbH ubH ∧ ctxIds s2 ctx hh = ctxIds s ctx hh ∧
    ctxLvL s2 ctx hh = ctxLvL s ctx hh ∧ ctxLvR s2 ctx hh = ctxLvR s ctx hh ∧
    ctxAbsL s2 ctx hh = ctxAbsL s ctx hh ∧ ctxAbsR s2 ctx hh = ctxAbsR s ctx hh := by
  intro ctx
  induction ctx with
  | nil =>
    intro hole hh lbH ubH hctx _
    obtain ⟨h1, h2, h3⟩ := hctx
    exact ⟨⟨hroot ▸ h1, h2, h3⟩, rfl, rfl, rfl, rfl, rfl⟩
  | cons c rest ih =>
    intro hole hh lbH ubH hctx hfr
    obtain ⟨hpage, hpar, hk1, hk2, hlen, hKL, hKR, hrest⟩ := hctx
    have hfr_pid : pageAt s2 c.pid = pageAt s c.pid :=
      hfr c.pid (by simp [ctxIds])
    have hfr_sib : ∀ p ∈ c.csL ++ c.csR, ∀ q ∈ nodeIds s hh p,
        pageAt s2 q = pageAt s q := by
      intro p hp q hq
      refine hfr q ?_
      simp only [ctxIds, List.mem_cons, List.mem_append, List.mem_flatMap]
      exact Or.inr (Or.inl ⟨p, List.mem_append.1 hp, hq⟩)
    have hfr_rest : ∀ q ∈ ctxIds s rest (hh + 1), pageAt s2 q = pageAt s q := by
      intro q hq
      refine hfr q ?_
      simp only [ctxIds, List.mem_cons, List.mem_append]
      exact Or.inr (Or.inr hq)
    obtain ⟨ihC, ihI, ihLL, ihLR, ihAL, ihAR⟩ := ih hrest hfr_rest
    have hsibL : ∀ p ∈ c.csL, nodeIds s2 hh p = nodeIds s hh p ∧
        leafIds s2 hh p = leafIds s hh p ∧ absAt s2 hh p = absAt s hh p := by
      intro p hp
      obtain ⟨lb2, ub2, hsub⟩ := kidsL_forall_mem hKL p hp
      obtain ⟨_, a, b, c2⟩ := subOk_frame hsub (hfr_sib p (by simp [hp]))
      exact ⟨a, b, c2⟩
    have hsibR : ∀ p ∈ c.csR, nodeIds s2 hh p = nodeIds s hh p ∧
        leafIds s2 hh p = leafIds s hh p ∧ absAt s2 hh p = absAt s hh p := by
      intro p hp
      obtain ⟨lb2, ub2, hsub⟩ := kidsR_forall_mem hKR p hp
      obtain ⟨_, a, b, c2⟩ := subOk_frame hsub (hfr_sib p (by simp [hp]))
      exact ⟨a, b, c2⟩
    refine ⟨⟨by rw [hfr_pid]; exact hpage, hpar, hk1, hk2, hlen, ?_, ?_, ihC⟩,
      ?_, ?_, ?_, ?_, ?_⟩
    · refine kidsL_mono hKL ?_
      intro p hp lb2 ub2 hsub
      exact (subOk_frame hsub (hfr_sib p (by simp [hp]))).1
    · refine kidsR_mono hKR ?_
      intro p hp lb2 ub2 hsub
      exact (subOk_frame hsub (hfr_sib p (by simp [hp]))).1
    · simp only [ctxIds, ihI]
      congr 1
      congr 1
      refine flatMap_congr ?_
      intro p hp
      rcases List.mem_append.1 hp with hp | hp
      · exact (hsibL p hp).1
      · exact (hsibR p hp).1
    · simp only [ctxLvL, ihLL]
      congr 1
      exact flatMap_congr (fun p hp => (hsibL p hp).2.1)
    · simp only [ctxLvR, ihLR]
      congr 1
      exact flatMap_congr (fun p hp => (hsibR p hp).2.1)
    · simp only [ctxAbsL, ihAL]
      congr 1
      exact flatMap_congr (fun p hp => (hsibL p hp).2.2)
    · simp only [ctxAbsR, ihAR]
      congr 1
      exact flatMap_congr (fun p hp => (hsibR p hp).2.2)

/-- Each child of a left segment has some key of the segment as its upper
    bound. -/
theorem kidsL_child_ub {P : Int → Option Int → Option Int → Prop} :
    ∀ {cs ks : List Int} {lb lb' : Option Int}, KidsL P cs ks lb lb' →
    ∀ c ∈ cs, ∃ lb2 k, k ∈ ks ∧ P c lb2 (some k) := by
  intro cs
  induction cs with
  | nil => intro ks lb lb' h c hc; simp at hc
  | cons c cs ih =>
    intro ks lb lb' h c2 hc2
    cases ks with
    | nil => exact absurd h (by simp [KidsL])
    | cons k ks =>
      rw [KidsL] at h
      rcases List.mem_cons.1 hc2 with hc2 | hc2
      · exact ⟨lb, k, by simp, hc2 ▸ h.1⟩
      · obtain ⟨lb2, k2, hk2, hp⟩ := ih h.2 c2 hc2
        exact ⟨lb2, k2, by simp [hk2], hp⟩

/-- Each child of a node has the node's lower bound or some key as its lower
    bound. -/
theorem kidsOkF_child_lb {P : Int → Option Int → Option Int → Prop} :
    ∀ {cs ks : List Int} {lb ub : Option Int}, KidsOkF P cs ks lb ub →
    ∀ c ∈ cs, ∃ lb2 ub2, P c lb2 ub2 ∧ (lb2 = lb ∨ ∃ k ∈ ks, lb2 = some k) := by
  intro cs
  induction cs with
  | nil => intro ks lb ub h c hc; simp at hc
  | cons c cs ih =>
    intro ks lb ub h c2 hc2
    cases ks with
    | nil =>
      cases cs with
      | nil =>
        rw [List.mem_singleton] at hc2
        exact ⟨lb, ub, hc2 ▸ h, Or.inl rfl⟩
      | cons c3 cs3 => exact absurd h (by simp [KidsOkF])
    | cons k ks =>
      rw [KidsOkF] at h
      rcases List.mem_cons.1 hc2 with hc2 | hc2
      · exact ⟨lb, some k, hc2 ▸ h.1, Or.inl rfl⟩
      · obtain ⟨lb2, ub2, hp, hor⟩ := ih h.2 c2 hc2
        rcases hor with hor | ⟨k2, hk2, hor⟩
        · exact ⟨lb2, ub2, hp, Or.inr ⟨k, by simp, hor⟩⟩
        · exact ⟨lb2, ub2, hp, Or.inr ⟨k2, by simp [hk2], hor⟩⟩

/-- Keys of a left segment lie strictly above the incoming lower bound. -/
theorem kidsL_keys_gt_lb {P : Int → Option Int → Option Int → Prop}
    (hP : ∀ c lb2 ub2, P c lb2 ub2 → ∃ e : Int, lbOk lb2 e ∧ ubOk ub2 e) :
    ∀ {cs ks : List Int} {lb lb' : Option Int}, KidsL P cs ks lb lb' →
    ∀ k ∈ ks, ∀ a, lb = some a → a < k := by
  intro cs
  induction cs with
  | nil =>
    intro ks lb lb' h k hk
    cases ks with
    | nil => simp at hk
    | cons k2 ks => exact absurd h (by simp [KidsL])
  | cons c cs ih =>
    intro ks lb lb' h k hk a ha
    cases ks with
    | nil => exact absurd h (by simp [KidsL])
    | cons k2 ks =>
      rw [KidsL] at h
      obtain ⟨e, he1, he2⟩ := hP c lb (some k2) h.1
      subst ha
      have h1 : a ≤ e := he1
      have h2 : e < k2 := he2
      rcases List.mem_cons.1 hk with hk | hk
      · omega
      · have h3 := ih h.2 k hk k2 rfl
        omega

/-- Entries in a context strictly left (right) of the hole have keys strictly
    below (at least) the hole's lower (upper) bound. -/
theorem ctx_abs_bounds {s : Store} :
    ∀ {ctx : List Crumb} {hole : Int} {hh : Nat} {lbH ubH : Option Int},
    CtxOk s ctx hole hh lbH ubH →
    (∀ e ∈ ctxAbsL s ctx hh, ∃ a, lbH = some a ∧ e.key < a) ∧
    (∀ e ∈ ctxAbsR s ctx hh, ∃ b, ubH = some b ∧ b ≤ e.key) := by
  have hwit : ∀ (hh : Nat) (pp : Int), ∀ c lb2 ub2,
      SubOk s hh c pp lb2 ub2 → ∃ e : Int, lbOk lb2 e ∧ ubOk ub2 e :=
    fun hh pp c lb2 ub2 hsub => subOk_key_witness hsub
  intro ctx
  induction ctx with
  | nil =>
    intro hole hh lbH ubH hctx
    exact ⟨by intro e he; simp [ctxAbsL] at he, by intro e he; simp [ctxAbsR] at he⟩
  | cons c rest ih =>
    intro hole hh lbH ubH hctx
    obtain ⟨hpage, hpar, hk1, hk2, hlen, hKL, hKR, hrest⟩ := hctx
    obtain ⟨ihL, ihR⟩ := ih hrest
    constructor
    · intro e he
      rw [show ctxAbsL s (c :: rest) hh =
        ctxAbsL s rest (hh + 1) ++ c.csL.flatMap (absAt s hh) from rfl] at he
      rcases List.mem_append.1 he with he | he
      · obtain ⟨a', hlb', hlt'⟩ := ihL e he
        rcases kidsL_out_mem hKL with ⟨hks, hout⟩ | ⟨b, hout, hmem⟩
        · exact ⟨a', hout ▸ hlb', hlt'⟩
        · have := kidsL_keys_gt_lb (hwit hh c.pid) hKL b hmem a' hlb'
          exact ⟨b, hout, by omega⟩
      · rcases List.mem_flatMap.1 he with ⟨p, hp, hep⟩
        obtain ⟨lb2, k2, hk2mem, hsub⟩ := kidsL_child_ub hKL p hp
        obtain ⟨_, _, hb⟩ := subOk_entryFacts hsub
        have hek : e.key < k2 := (hb e hep).2.1
        obtain ⟨b, hout, hle⟩ : ∃ b, lbH = some b ∧ k2 ≤ b := by
          rcases kidsL_out_mem hKL with ⟨hks, hout⟩ | ⟨b, hout, hmem⟩
          · rw [hks] at hk2mem; simp at hk2mem
          · exact ⟨b, hout, kidsL_le_out (hwit hh c.pid) hKL k2 hk2mem b hout⟩
        exact ⟨b, hout, by omega⟩
    · intro e he
      rw [show ctxAbsR s (c :: rest) hh =
        c.csR.flatMap (absAt s hh) ++ ctxAbsR s rest (hh + 1) from rfl] at he
      have hubR : ∀ b', c.ub = some b' → ∀ bH, ubH = some bH → bH ≤ b' := by
        intro b' hub' bH hubH
        match hcs : c.csR, hks : c.ksR with
        | csR, k :: ks =>
          rw [hcs, hks, KidsR] at hKR
          rw [hKR.1] at hubH
          injection hubH with hubH
          rcases ks with _ | ⟨k2, ks2⟩
          · rcases csR with _ | ⟨c0, cs0⟩
            · exact absurd hKR.2 (by simp [KidsOkF])
            · rcases cs0 with _ | ⟨c1, cs1⟩
              · obtain ⟨e2, he21, he22⟩ := hwit hh c.pid c0 (some k) c.ub hKR.2
                rw [hub'] at he22
                have h1 : k ≤ e2 := he21
                have h2 : e2 < b' := he22
                omega
              · exact absurd hKR.2 (by simp [KidsOkF])
          · obtain ⟨_, hmem⟩ := kidsOkF_keys (hwit hh c.pid) hKR.2
            have h1 := (hmem k2 (by simp)).1 k rfl
            have h2 := (hmem k2 (by simp)).2 b' hub'
            omega
        | [], [] =>
          rw [hcs, hks] at hKR
          rw [show KidsR (fun p lb2 ub2 => SubOk s hh p c.pid lb2 ub2) [] [] ubH c.ub =
            (ubH = c.ub) from rfl] at hKR
          rw [hKR, hub'] at hubH
          injection hubH with hubH
          omega
        | c0 :: cs0, [] =>
          rw [hcs, hks] at hKR
          exact absurd hKR (by simp [KidsR])
      rcases List.mem_append.1 he with he | he
      · rcases List.mem_flatMap.1 he with ⟨p, hp, hep⟩
        obtain ⟨lb2, ub2, hsub, bH, k2, hubH, hlb, hle⟩ : ∃ lb2 ub2,
            SubOk s hh p c.pid lb2 ub2 ∧
            ∃ bH k2, ubH = some bH ∧ lb2 = some k2 ∧ bH ≤ k2 := by
          match hcs : c.csR, hks : c.ksR with
          | csR, k :: ks =>
            rw [hcs, hks, KidsR] at hKR
            obtain ⟨lb2, ub2, hsub, hor⟩ := kidsOkF_child_lb hKR.2 p (hcs ▸ hp)
            rcases hor with hor | ⟨k2, hk2, hor⟩
            · exact ⟨lb2, ub2, hsub, k, k, hKR.1, hor, le_refl k⟩
            · obtain ⟨_, hmem⟩ := kidsOkF_keys (hwit hh c.pid) hKR.2
              have := (hmem k2 hk2).1 k rfl
              exact ⟨lb2, ub2, hsub, k, k2, hKR.1, hor, by omega⟩
          | [], [] => rw [hcs] at hp; simp at hp
          | c0 :: cs0, [] =>
            rw [hcs, hks] at hKR
            exact absurd hKR (by simp [KidsR])
        obtain ⟨_, _, hb⟩ := subOk_entryFacts hsub
        have hlb2 := (hb e hep).1
        rw [hlb] at hlb2
        exact ⟨bH, hubH, by
          have : k2 ≤ e.key := hlb2
          omega⟩
      · obtain ⟨b', hub', hle'⟩ := ihR e he
        obtain ⟨bH, hubH⟩ : ∃ bH, ubH = some bH := by
          match hcs : c.csR, hks : c.ksR with
          | csR, k :: ks =>
            rw [hcs, hks, KidsR] at hKR
            exact ⟨k, hKR.1⟩
          | [], [] =>
            rw [hcs, hks] at hKR
            rw [show KidsR (fun p lb2 ub2 => SubOk s hh p c.pid lb2 ub2) [] [] ubH c.ub =
              (ubH = c.ub) from rfl] at hKR
            exact ⟨b', hKR ▸ hub'⟩
          | c0 :: cs0, [] =>
            rw [hcs, hks] at hKR
            exact absurd hKR (by simp [KidsR])
        have := hubR b' hub' bH hubH
        exact ⟨bH, hubH, by omega⟩

/-- On a sorted key list, the first `countP (· ≤ k)` keys are `≤ k` and the
    rest are `> k`. -/
theorem countP_take_drop (k : Int) :
    ∀ {keys : List Int}, List.Pairwise (· < ·) keys →
    (∀ b ∈ keys.take (keys.countP (fun x => decide (x ≤ k))), b ≤ k) ∧
    (∀ b ∈ keys.drop (keys.countP (fun x => decide (x ≤ k))), k < b) := by
  intro keys
  induction keys with
  | nil => intro _; exact ⟨by simp, by simp⟩
  | cons a keys ih =>
    intro hs
    rw [List.pairwise_cons] at hs
    obtain ⟨ih1, ih2⟩ := ih hs.2
    by_cases hak : a ≤ k
    · have hcnt : (a :: keys).countP (fun x => decide (x ≤ k)) =
          keys.countP (fun x => decide (x ≤ k)) + 1 := by
        rw [List.countP_cons]
        simp [hak]
      rw [hcnt]
      constructor
      · intro b hb
        rw [List.take_succ_cons] at hb
        rcases List.mem_cons.1 hb with hb | hb
        · exact hb ▸ hak
        · exact ih1 b hb
      · intro b hb
        rw [List.drop_succ_cons] at hb
        exact ih2 b hb
    · have hcz : keys.countP (fun x => decide (x ≤ k)) = 0 := by
        rw [List.countP_eq_zero]
        intro x hx
        have := hs.1 x hx
        simp only [decide_eq_true_eq]
        omega
      have hcnt : (a :: keys).countP (fun x => decide (x ≤ k)) = 0 := by
        rw [List.countP_cons, hcz]
        simp [hak]
      rw [hcnt]
      refine ⟨by simp, ?_⟩
      intro b hb
      rw [List.drop_zero] at hb
      rcases List.mem_cons.1 hb with hb | hb
      · omega
      · have := hs.1 b hb
        omega

/-- `findLeafFrom` stops at a leaf page. -/
theorem findLeafFrom_leaf {s : Store} {pid : Int} {nx par : Int} {es : List LeafEntry}
    (h : pageAt s pid = .leaf nx par es) (fuel : Nat) (key : Int) :
    findLeafFrom s fuel pid key = pid := by
  cases fuel with
  | zero => rfl
  | succ f =>
    show (match pageAt s pid with
      | .internal _ keys children => findLeafFrom s f (InternalFindChild keys children key) key
      | _ => pid) = pid
    rw [h]

theorem getD_eq_get {α : Type} {l : List α} {d : α} {i : Nat} (h : i < l.length) :
    l.getD i d = l[i] := by
  rw [List.getD_eq_getElem?_getD, List.getElem?_eq_getElem h]
  rfl

/-- Decomposing a list around position `i`. -/
theorem drop_decomp {α : Type} {l : List α} {i : Nat} (d : α) (h : i < l.length) :
    l = l.take i ++ l.getD i d :: l.drop (i + 1) := by
  conv_lhs => rw [← List.take_append_drop i l]
  rw [getD_eq_get h, List.drop_eq_getElem_cons h]

/-- The descent of `FindLeafPage` through a well-formed subtree reaches a
    leaf whose range contains the key, and extends the context accordingly. -/
theorem findLeaf_ctx {s : Store} (key : Int) :
    ∀ {hh : Nat} {ctx : List Crumb} {pid : Int} {lbH ubH : Option Int} {fuel : Nat},
    SubOk s hh pid (ctxPar ctx) lbH ubH →
    CtxOk s ctx pid hh lbH ubH →
    lbOk lbH key → ubOk ubH key →
    hh ≤ fuel →
    ∃ ctx2 lb2 ub2,
      CtxOk s ctx2 (findLeafFrom s fuel pid key) 0 lb2 ub2 ∧
      SubOk s 0 (findLeafFrom s fuel pid key) (ctxPar ctx2) lb2 ub2 ∧
      lbOk lb2 key ∧ ubOk ub2 key ∧
      ctx2.length = ctx.length + hh ∧
      (ctxIds s ctx2 0 ++ nodeIds s 0 (findLeafFrom s fuel pid key)).Perm
        (ctxIds s ctx hh ++ nodeIds s hh pid) ∧
      ctxLvL s ctx2 0 ++ leafIds s 0 (findLeafFrom s fuel pid key) ++ ctxLvR s ctx2 0 =
        ctxLvL s ctx hh ++ leafIds s hh pid ++ ctxLvR s ctx hh ∧
      ctxAbsL s ctx2 0 ++ absAt s 0 (findLeafFrom s fuel pid key) ++ ctxAbsR s ctx2 0 =
        ctxAbsL s ctx hh ++ absAt s hh pid ++ ctxAbsR s ctx hh := by
  intro hh
  induction hh with
  | zero =>
    intro ctx pid lbH ubH fuel hsub hctx hlb hub _
    obtain ⟨nx, es, hpg, hrest⟩ := hsub
    rw [findLeafFrom_leaf hpg fuel key]
    exact ⟨ctx, lbH, ubH, hctx, ⟨nx, es, hpg, hrest⟩, hlb, hub, by omega,
      List.Perm.refl _, rfl, rfl⟩
  | succ hh ih =>
    intro ctx pid lbH ubH fuel hsub hctx hlb hub hfuel
    obtain ⟨keys, children, hpg, hk1, hk2, hkids⟩ := hsub
    cases fuel with
    | zero => omega
    | succ f =>
      have hsorted := (kidsOkF_keys
        (fun c lb2 ub2 hs => subOk_key_witness hs) hkids).1
      have hstep : findLeafFrom s (f + 1) pid key =
          findLeafFrom s f (InternalFindChild keys children key) key := by
        show (match pageAt s pid with
          | .internal _ keys2 children2 =>
            findLeafFrom s f (InternalFindChild keys2 children2 key) key
          | _ => pid) = _
        rw [hpg]
      have hcl : children.length = keys.length + 1 := (kidsOkF_shape hkids).2
      have hidxle : keys.countP (fun x => decide (x ≤ key)) ≤ keys.length :=
        List.countP_le_length _
      have hidxlt : keys.countP (fun x => decide (x ≤ key)) < children.length := by
        omega
      have hifc : InternalFindChild keys children key =
          children.getD (keys.countP (fun x => decide (x ≤ key))) 0 :=
        internalFindChild_count hsorted children
      have hchildEq := drop_decomp 0 hidxlt
      have hkeysEq : keys =
          keys.take (keys.countP (fun x => decide (x ≤ key))) ++
          keys.drop (keys.countP (fun x => decide (x ≤ key))) :=
        (List.take_append_drop _ keys).symm
      have hkids2 : KidsOkF (fun c lb2 ub2 => SubOk s hh c pid lb2 ub2)
          (children.take (keys.countP (fun x => decide (x ≤ key))) ++
            children.getD (keys.countP (fun x => decide (x ≤ key))) 0 ::
            children.drop (keys.countP (fun x => decide (x ≤ key)) + 1))
          (keys.take (keys.countP (fun x => decide (x ≤ key))) ++
            keys.drop (keys.countP (fun x => decide (x ≤ key)))) lbH ubH := by
        rw [← hchildEq, ← hkeysEq]
        exact hkids
      obtain ⟨lbI, ubI, hKL, hcsub, hKR⟩ := kidsOkF_decomp hkids2 (by
        rw [List.length_take, List.length_take]
        omega)
      have htd := countP_take_drop key hsorted
      have hlbI : lbOk lbI key := by
        rcases kidsL_out_mem hKL with ⟨_, hout⟩ | ⟨b, hout, hmem⟩
        · exact hout ▸ hlb
        · rw [hout]
          exact htd.1 b hmem
      have hubI : ubOk ubI key := by
        rcases hdk : keys.drop (keys.countP (fun x => decide (x ≤ key))) with _ | ⟨k0, krest⟩
        · rw [hdk] at hKR
          rcases hdc : children.drop (keys.countP (fun x => decide (x ≤ key)) + 1)
            with _ | ⟨c0, cs0⟩
          · rw [hdc] at hKR
            rw [show KidsR (fun c lb2 ub2 => SubOk s hh c pid lb2 ub2)
              [] [] ubI ubH = (ubI = ubH) from rfl] at hKR
            exact hKR ▸ hub
          · rw [hdc] at hKR
            exact absurd hKR (by simp [KidsR])
        · rw [hdk, KidsR] at hKR
          rw [hKR.1]
          refine htd.2 k0 ?_
          rw [hdk]
          simp
      have harec := @ih (⟨pid, ctxPar ctx,
          children.take (keys.countP (fun x => decide (x ≤ key))),
          keys.take (keys.countP (fun x => decide (x ≤ key))),
          keys.drop (keys.countP (fun x => decide (x ≤ key))),
          children.drop (keys.countP (fun x => decide (x ≤ key)) + 1),
          lbH, ubH⟩ :: ctx)
        (children.getD (keys.countP (fun x => decide (x ≤ key))) 0)
        lbI ubI f
        hcsub
        (by
          refine ⟨?_, rfl, ?_, ?_, ?_, hKL, hKR, hctx⟩
          · show pageAt s pid = _
            rw [hpg, ← hkeysEq, ← hchildEq]
          · show 1 ≤ _ + _
            rw [List.length_take, List.length_drop]
            omega
          · show _ + _ ≤ INTERNAL_MAX_KEYS
            rw [List.length_take, List.length_drop]
            omega
          · show (children.take _).length = (keys.take _).length
            rw [List.length_take, List.length_take]
            omega)
        hlbI hubI (by omega)
      obtain ⟨ctx2, lb2, ub2, c1, c2, c3, c4, c5, c6, c7, c8⟩ := harec
      rw [hstep, hifc]
      refine ⟨ctx2, lb2, ub2, c1, c2, c3, c4, by
        simp only [List.length_cons] at c5
        omega, ?_, ?_, ?_⟩
      · refine c6.trans ?_
        rw [List.perm_iff_count]
        intro a
        have hn : nodeIds s (hh + 1) pid = pid :: children.flatMap (nodeIds s hh) := by
          rw [show nodeIds s (hh + 1) pid = pid :: (match pageAt s pid with
            | .internal _ _ cs => cs.flatMap (nodeIds s hh)
            | _ => []) from rfl, hpg]
        rw [hn]
        conv_rhs => rw [hchildEq]
        simp only [ctxIds, List.flatMap_append, List.flatMap_cons, List.count_append,
          List.count_cons]
        omega
      · refine c7.trans ?_
        have hn : leafIds s (hh + 1) pid = children.flatMap (leafIds s hh) := by
          rw [show leafIds s (hh + 1) pid = (match pageAt s pid with
            | .internal _ _ cs => cs.flatMap (leafIds s hh)
            | _ => []) from rfl, hpg]
        rw [hn]
        conv_rhs => rw [hchildEq]
        simp only [ctxLvL, ctxLvR, List.flatMap_append, List.flatMap_cons,
          List.append_assoc]
      · refine c8.trans ?_
        have hn : absAt s (hh + 1) pid = children.flatMap (absAt s hh) := by
          rw [show absAt s (hh + 1) pid = (match pageAt s pid with
            | .internal _ _ cs => cs.flatMap (absAt s hh)
            | _ => []) from rfl, hpg]
        rw [hn]
        conv_rhs => rw [hchildEq]
        simp only [ctxAbsL, ctxAbsR, List.flatMap_append, List.flatMap_cons,
          List.append_assoc]

/-- Rewriting the parent pointer of a subtree's root page preserves its
    well-formedness (with the new parent) and all derived lists. -/
theorem subOk_reparent {s : Store} {h : Nat} {c p : Int} (p' : Int) {lb ub : Option Int}
    (hsub : SubOk s h c p lb ub) (hnd : (nodeIds s h c).Nodup) :
    SubOk (setParent s c p') h c p' lb ub ∧
    nodeIds (setParent s c p') h c = nodeIds s h c ∧
    leafIds (setParent s c p') h c = leafIds s h c ∧
    absAt (setParent s c p') h c = absAt s h c := by
  cases h with
  | zero =>
    obtain ⟨nx, es, hpg, hrest⟩ := hsub
    obtain ⟨h0, hlt⟩ := pageAt_valid hpg (by simp)
    have hpg2 : pageAt (setParent s c p') c = .leaf nx p' es := by
      unfold setParent
      rw [hpg, pageAt_setPage h0 hlt, if_pos rfl]
    refine ⟨⟨nx, es, hpg2, hrest⟩, rfl, rfl, ?_⟩
    show entriesOf (pageAt (setParent s c p') c) = entriesOf (pageAt s c)
    rw [hpg2, hpg]
    rfl
  | succ h =>
    obtain ⟨ks, cs, hpg, hk1, hk2, hkids⟩ := hsub
    obtain ⟨h0, hlt⟩ := pageAt_valid hpg (by simp)
    have hpg2 : pageAt (setParent s c p') c = .internal p' ks cs := by
      unfold setParent
      rw [hpg, pageAt_setPage h0 hlt, if_pos rfl]
    have hfr : ∀ q, q ≠ c → pageAt (setParent s c p') q = pageAt s q := by
      intro q hq
      unfold setParent
      rw [hpg, pageAt_setPage h0 hlt, if_neg hq]
    have hndids : c ∉ cs.flatMap (nodeIds s h) := by
      have := hnd
      rw [show nodeIds s (h + 1) c = c :: (match pageAt s c with
        | .internal _ _ cs2 => cs2.flatMap (nodeIds s h)
        | _ => []) from rfl, hpg] at this
      exact (List.nodup_cons.1 this).1
    have hchild : ∀ p2 ∈ cs, ∀ q ∈ nodeIds s h p2,
        pageAt (setParent s c p') q = pageAt s q := by
      intro p2 hp2 q hq
      refine hfr q ?_
      intro hqc
      exact hndids (List.mem_flatMap.2 ⟨p2, hp2, hqc ▸ hq⟩)
    have hchildEq : ∀ p2 ∈ cs,
        nodeIds (setParent s c p') h p2 = nodeIds s h p2 ∧
        leafIds (setParent s c p') h p2 = leafIds s h p2 ∧
        absAt (setParent s c p') h p2 = absAt s h p2 := by
      intro p2 hp2
      obtain ⟨lb2, ub2, hs2⟩ := kidsOkF_forall_mem hkids p2 hp2
      obtain ⟨_, a, b, c2⟩ := subOk_frame hs2 (hchild p2 hp2)
      exact ⟨a, b, c2⟩
    refine ⟨⟨ks, cs, hpg2, hk1, hk2, ?_⟩, ?_, ?_, ?_⟩
    · refine kidsOkF_mono hkids ?_
      intro p2 hp2 lb2 ub2 hs2
      exact (subOk_frame hs2 (hchild p2 hp2)).1
    · rw [show nodeIds (setParent s c p') (h + 1) c =
        c :: (match pageAt (setParent s c p') c with
        | .internal _ _ cs2 => cs2.flatMap (nodeIds (setParent s c p') h)
        | _ => []) from rfl, hpg2]
      rw [show nodeIds s (h + 1) c = c :: (match pageAt s c with
        | .internal _ _ cs2 => cs2.flatMap (nodeIds s h)
        | _ => []) from rfl, hpg]
      exact congrArg _ (flatMap_congr (fun p2 hp2 => (hchildEq p2 hp2).1))
    · rw [show leafIds (setParent s c p') (h + 1) c =
        (match pageAt (setParent s c p') c with
        | .internal _ _ cs2 => cs2.flatMap (leafIds (setParent s c p') h)
        | _ => []) from rfl, hpg2]
      rw [show leafIds s (h + 1) c = (match pageAt s c with
        | .internal _ _ cs2 => cs2.flatMap (leafIds s h)
        | _ => []) from rfl, hpg]
      exact flatMap_congr (fun p2 hp2 => (hchildEq p2 hp2).2.1)
    · rw [show absAt (setParent s c p') (h + 1) c =
        (match pageAt (setParent s c p') c with
        | .internal _ _ cs2 => cs2.flatMap (absAt (setParent s c p') h)
        | _ => []) from rfl, hpg2]
      rw [show absAt s (h + 1) c = (match pageAt s c with
        | .internal _ _ cs2 => cs2.flatMap (absAt s h)
        | _ => []) from rfl, hpg]
      exact flatMap_congr (fun p2 hp2 => (hchildEq p2 hp2).2.2)

/-- The reparenting loop at the end of `SplitInternal` (its foldl form). -/
def reparentAll (s : Store) (cs : List Int) (newPar : Int) : Store :=
  cs.foldl (fun st c => setParent st c newPar) s

theorem pageAt_setParent_ne {s : Store} {c q : Int} (p' : Int) (hq : q ≠ c) :
    pageAt (setParent s c p') q = pageAt s q :=
  (pageAt_setParent c p' q).1 hq

/-- Reparenting a block of sibling subtrees: all their roots point to the new
    parent afterwards, nothing else changes. -/
theorem reparent_fold {h : Nat} {newPar oldPar : Int} :
    ∀ {cs ks : List Int} {lb ub : Option Int} {s : Store},
    KidsOkF (fun c lb2 ub2 => SubOk s h c oldPar lb2 ub2) cs ks lb ub →
    (cs.flatMap (nodeIds s h)).Nodup →
    KidsOkF (fun c lb2 ub2 =>
      SubOk (reparentAll s cs newPar) h c newPar lb2 ub2) cs ks lb ub ∧
    (∀ q, q ∉ cs → pageAt (reparentAll s cs newPar) q = pageAt s q) ∧
    (∀ q, entriesOf (pageAt (reparentAll s cs newPar) q) = entriesOf (pageAt s q) ∧
      nextOf (pageAt (reparentAll s cs newPar) q) = nextOf (pageAt s q)) ∧
    (reparentAll s cs newPar).root = s.root ∧
    (reparentAll s cs newPar).pages.length = s.pages.length ∧
    cs.flatMap (nodeIds (reparentAll s cs newPar) h) = cs.flatMap (nodeIds s h) ∧
    cs.flatMap (leafIds (reparentAll s cs newPar) h) = cs.flatMap (leafIds s h) ∧
    cs.flatMap (absAt (reparentAll s cs newPar) h) = cs.flatMap (absAt s h) := by
  intro cs
  induction cs with
  | nil =>
    intro ks lb ub s h1 _
    cases ks with
    | nil => exact absurd h1 (by simp [KidsOkF])
    | cons k ks => exact absurd h1 (by simp [KidsOkF])
  | cons c cs ih =>
    intro ks lb ub s h1 hnd
    rw [List.flatMap_cons, List.nodup_append] at hnd
    obtain ⟨hnd1, hnd2, hdisj⟩ := hnd
    have hstep : reparentAll s (c :: cs) newPar =
        reparentAll (setParent s c newPar) cs newPar := rfl
    -- facts about the first child
    have hsub1 : ∃ ubc : Option Int, SubOk s h c oldPar lb ubc ∧
        ((ks = [] ∧ cs = [] ∧ ubc = ub) ∨
         (∃ k ks2, ks = k :: ks2 ∧ ubc = some k ∧
           KidsOkF (fun c2 lb2 ub2 => SubOk s h c2 oldPar lb2 ub2) cs ks2 (some k) ub)) := by
      cases ks with
      | nil =>
        cases cs with
        | nil => exact ⟨ub, h1, Or.inl ⟨rfl, rfl, rfl⟩⟩
        | cons c2 cs2 => exact absurd h1 (by simp [KidsOkF])
      | cons k ks2 =>
        rw [KidsOkF] at h1
        exact ⟨some k, h1.1, Or.inr ⟨k, ks2, rfl, rfl, h1.2⟩⟩
    obtain ⟨ubc, hsubc, hrest⟩ := hsub1
    obtain ⟨hsubc', hnc, hlc, hac⟩ := subOk_reparent newPar hsubc hnd1
    -- frame for the remaining siblings after the first reparent
    have hfr1 : ∀ p2 ∈ cs, ∀ q ∈ nodeIds s h p2,
        pageAt (setParent s c newPar) q = pageAt s q := by
      intro p2 hp2 q hq
      refine pageAt_setParent_ne newPar ?_
      intro hqc
      exact hdisj (pid_mem_nodeIds s h c) (List.mem_flatMap.2 ⟨p2, hp2, hqc ▸ hq⟩)
    have hsibEq : ∀ p2 ∈ cs, nodeIds (setParent s c newPar) h p2 = nodeIds s h p2 ∧
        leafIds (setParent s c newPar) h p2 = leafIds s h p2 ∧
        absAt (setParent s c newPar) h p2 = absAt s h p2 := by
      intro p2 hp2
      obtain ⟨lb2, ub2, hp⟩ : ∃ lb2 ub2, SubOk s h p2 oldPar lb2 ub2 := by
        rcases hrest with ⟨_, hcs, _⟩ | ⟨k, ks2, hks, hub, hkrest⟩
        · rw [hcs] at hp2; simp at hp2
        · exact kidsOkF_forall_mem hkrest p2 hp2
      obtain ⟨_, a, b, c2⟩ := subOk_frame hp (hfr1 p2 hp2)
      exact ⟨a, b, c2⟩
    rcases hrest with ⟨hks, hcs, hub⟩ | ⟨k, ks2, hks, hub, hkrest⟩
    · subst hks; subst hcs; subst hub
      have hfin : reparentAll s [c] newPar = setParent s c newPar := rfl
      rw [hfin]
      refine ⟨hsubc', ?_, ?_, setParent_root _ _ _, setParent_length, ?_, ?_, ?_⟩
      · intro q hq
        exact pageAt_setParent_ne newPar (by simpa using hq)
      · intro q
        exact (pageAt_setParent c newPar q).2
      · simp only [List.flatMap_cons, List.flatMap_nil, hnc]
      · simp only [List.flatMap_cons, List.flatMap_nil, hlc]
      · simp only [List.flatMap_cons, List.flatMap_nil, hac]
    · subst hks; subst hub
      have hnd2' : (cs.flatMap (nodeIds (setParent s c newPar) h)).Nodup := by
        rw [flatMap_congr (fun p2 hp2 => (hsibEq p2 hp2).1)]
        exact hnd2
      have hkrest1 : KidsOkF (fun c2 lb2 ub2 =>
          SubOk (setParent s c newPar) h c2 oldPar lb2 ub2) cs ks2 (some k) ub :=
        kidsOkF_mono hkrest (fun c2 hc2 lb2 ub2 hp =>
          (subOk_frame hp (hfr1 c2 hc2)).1)
      obtain ⟨ihK, ihF, ihEN, ihR, ihLen, ihN, ihLf, ihA⟩ := ih hkrest1 hnd2'
      rw [hstep]
      have hcnotin : ∀ q ∈ nodeIds s h c, q ∉ cs := by
        intro q hq hqcs
        exact hdisj hq (List.mem_flatMap.2 ⟨q, hqcs, pid_mem_nodeIds s h q⟩)
      have hfr2 : ∀ q ∈ nodeIds (setParent s c newPar) h c,
          pageAt (reparentAll (setParent s c newPar) cs newPar) q =
          pageAt (setParent s c newPar) q := by
        intro q hq
        rw [hnc] at hq
        exact ihF q (hcnotin q hq)
      obtain ⟨hsubF, hnF, hlF, haF⟩ := subOk_frame hsubc' hfr2
      refine ⟨?_, ?_, ?_, ?_, ?_, ?_, ?_, ?_⟩
      · rw [KidsOkF]
        exact ⟨hsubF, ihK⟩
      · intro q hq
        rw [List.mem_cons] at hq
        push_neg at hq
        rw [ihF q hq.2]
        exact pageAt_setParent_ne newPar hq.1
      · intro q
        obtain ⟨e1, e2⟩ := ihEN q
        obtain ⟨f1, f2⟩ := (pageAt_setParent c newPar q).2
        exact ⟨e1.trans f1, e2.trans f2⟩
      · rw [ihR]
        exact setParent_root _ _ _
      · rw [ihLen]
        exact setParent_length
      · simp only [List.flatMap_cons]
        rw [hnF, hnc, ihN, flatMap_congr (fun p2 hp2 => (hsibEq p2 hp2).1)]
      · simp only [List.flatMap_cons]
        rw [hlF, hlc, ihLf, flatMap_congr (fun p2 hp2 => (hsibEq p2 hp2).2.1)]
      · simp only [List.flatMap_cons]
        rw [haF, hac, ihA, flatMap_congr (fun p2 hp2 => (hsibEq p2 hp2).2.2)]

/-- The parent field of a well-formed subtree's root page. -/
theorem subOk_parentOf {s : Store} {h : Nat} {pid par : Int} {lb ub : Option Int}
    (hsub : SubOk s h pid par lb ub) : parentOf (pageAt s pid) = par := by
  cases h with
  | zero =>
    obtain ⟨nx, es, hpg, _⟩ := hsub
    rw [hpg]
    rfl
  | succ h =>
    obtain ⟨ks, cs, hpg, _⟩ := hsub
    rw [hpg]
    rfl

theorem mem_of_getLast {α : Type} :
    ∀ {l : List α} {a : α}, l.getLast? = some a → a ∈ l := by
  intro l
  induction l with
  | nil => intro a ha; exact absurd ha (by simp)
  | cons b t ih =>
    intro a ha
    cases t with
    | nil =>
      simp at ha
      simp [ha]
    | cons c t2 =>
      rw [List.getLast?_cons_cons] at ha
      exact List.mem_cons_of_mem _ (ih ha)

/-- The sibling chain only looks at `next_page_id` of its members. -/
theorem chainNext_frame {s s2 : Store} :
    ∀ {lst : List Int}, ChainNext s lst →
    (∀ a ∈ lst, nextOf (pageAt s2 a) = nextOf (pageAt s a)) →
    ChainNext s2 lst := by
  intro lst h hfr
  obtain ⟨hch, hlast⟩ := h
  constructor
  · clear hlast
    induction lst with
    | nil => trivial
    | cons a t ih =>
      cases t with
      | nil => exact List.chain'_singleton a
      | cons b t2 =>
        rw [List.chain'_cons] at hch ⊢
        refine ⟨?_, ih (fun x hx => hfr x (List.mem_cons_of_mem _ hx)) hch.2⟩
        rw [hfr a (by simp)]
        exact hch.1
  · intro a ha
    rw [hfr a (mem_of_getLast ha)]
    exact hlast a ha

theorem ctxLvL_subset {s : Store} :
    ∀ {ctx : List Crumb} {hh : Nat}, ∀ p ∈ ctxLvL s ctx hh, p ∈ ctxIds s ctx hh := by
  intro ctx
  induction ctx with
  | nil => intro hh p hp; simp [ctxLvL] at hp
  | cons c rest ih =>
    intro hh p hp
    rw [show ctxLvL s (c :: rest) hh =
      ctxLvL s rest (hh + 1) ++ c.csL.flatMap (leafIds s hh) from rfl] at hp
    rw [show ctxIds s (c :: rest) hh =
      c.pid :: ((c.csL ++ c.csR).flatMap (nodeIds s hh) ++ ctxIds s rest (hh + 1))
      from rfl]
    rcases List.mem_append.1 hp with hp | hp
    · exact List.mem_cons_of_mem _ (List.mem_append.2 (Or.inr (ih p hp)))
    · rcases List.mem_flatMap.1 hp with ⟨c2, hc2, hq⟩
      exact List.mem_cons_of_mem _ (List.mem_append.2 (Or.inl
        (List.mem_flatMap.2 ⟨c2, List.mem_append.2 (Or.inl hc2),
          leafIds_subset_nodeIds s hh c2 p hq⟩)))

theorem ctxLvR_subset {s : Store} :
    ∀ {ctx : List Crumb} {hh : Nat}, ∀ p ∈ ctxLvR s ctx hh, p ∈ ctxIds s ctx hh := by
  intro ctx
  induction ctx with
  | nil => intro hh p hp; simp [ctxLvR] at hp
  | cons c rest ih =>
    intro hh p hp
    rw [show ctxLvR s (c :: rest) hh =
      c.csR.flatMap (leafIds s hh) ++ ctxLvR s rest (hh + 1) from rfl] at hp
    rw [show ctxIds s (c :: rest) hh =
      c.pid :: ((c.csL ++ c.csR).flatMap (nodeIds s hh) ++ ctxIds s rest (hh + 1))
      from rfl]
    rcases List.mem_append.1 hp with hp | hp
    · rcases List.mem_flatMap.1 hp with ⟨c2, hc2, hq⟩
      exact List.mem_cons_of_mem _ (List.mem_append.2 (Or.inl
        (List.mem_flatMap.2 ⟨c2, List.mem_append.2 (Or.inr hc2),
          leafIds_subset_nodeIds s hh c2 p hq⟩)))
    · exact List.mem_cons_of_mem _ (List.mem_append.2 (Or.inr (ih p hp)))

/-- The store's root is the hole itself or one of the context's node pages. -/
theorem ctxOk_root {s : Store} :
    ∀ {ctx : List Crumb} {hole : Int} {hh : Nat} {lbH ubH : Option Int},
    CtxOk s ctx hole hh lbH ubH → s.root = hole ∨ s.root ∈ ctxIds s ctx hh := by
  intro ctx
  induction ctx with
  | nil =>
    intro hole hh lbH ubH hctx
    exact Or.inl hctx.1.symm
  | cons c rest ih =>
    intro hole hh lbH ubH hctx
    rcases ih hctx.2.2.2.2.2.2.2 with h | h
    · exact Or.inr (h ▸ List.mem_cons_self _ _)
    · exact Or.inr (List.mem_cons_of_mem _ (List.mem_append.2 (Or.inr h)))

/-- Reading an existing page is unaffected by `AllocatePage`. -/
theorem pageAt_alloc {s : Store} {q : Int} (h : q.toNat < s.pages.length) :
    pageAt (allocPage s).2 q = pageAt s q := by
  unfold pageAt allocPage
  by_cases hq : q < 0
  · rw [if_pos hq, if_pos hq]
  · rw [if_neg hq, if_neg hq]
    dsimp only
    rw [List.getD_eq_getElem?_getD, List.getElem?_append_left h, ← List.getD_eq_getElem?_getD]

theorem takeWhile_append_eq {α : Type} {p : α → Bool} :
    ∀ {l1 l2 : List α}, (∀ x ∈ l1, p x = true) →
    (l2 = [] ∨ ∃ k0 t, l2 = k0 :: t ∧ p k0 = false) →
    (l1 ++ l2).takeWhile p = l1 := by
  intro l1
  induction l1 with
  | nil =>
    intro l2 _ h2
    rcases h2 with h2 | ⟨k0, t, h2, hp⟩
    · rw [h2]; rfl
    · subst h2
      simp [hp]
  | cons a l1 ih =>
    intro l2 h1 h2
    have hrest := ih (fun x hx => h1 x (List.mem_cons_of_mem _ hx)) h2
    rw [List.cons_append]
    simp only [List.takeWhile_cons, h1 a (by simp), if_true, hrest]

theorem take_append_cons {α : Type} :
    ∀ (l1 : List α) (a : α) (l2 : List α),
    (l1 ++ a :: l2).take (l1.length + 1) = l1 ++ [a] := by
  intro l1 a l2
  induction l1 with
  | nil => rfl
  | cons b l1 ih =>
    rw [List.cons_append, List.length_cons]
    rw [show l1.length + 1 + 1 = (l1.length + 1) + 1 from rfl, List.take_succ_cons, ih]
    rfl

theorem drop_append_cons {α : Type} :
    ∀ (l1 : List α) (a : α) (l2 : List α),
    (l1 ++ a :: l2).drop (l1.length + 1) = l2 := by
  intro l1 a l2
  induction l1 with
  | nil => rfl
  | cons b l1 ih =>
    rw [List.cons_append, List.length_cons]
    rw [show l1.length + 1 + 1 = (l1.length + 1) + 1 from rfl, List.drop_succ_cons, ih]

/-- `CreateNewRoot` correctness: growing the tree by one level with the two
    split siblings as the only children. -/
theorem createNewRoot_ok {s : Store} {hh : Nat} {l k r rp : Int}
    (hl : SubOk s hh l INVALID_PAGE_ID none (some k))
    (hr : SubOk s hh r rp (some k) none)
    (hnodup : (0 :: (nodeIds s hh l ++ nodeIds s hh r)).Nodup)
    (hvalid : ∀ p ∈ nodeIds s hh l ++ nodeIds s hh r,
      1 ≤ p ∧ p.toNat < s.pages.length)
    (hchain : ChainNext s (leafIds s hh l ++ leafIds s hh r))
    (hcomplete : ∀ i : Nat, i < s.pages.length → (i : Int) = 0 ∨
      (i : Int) ∈ nodeIds s hh l ++ nodeIds s hh r) :
    TreeOk (CreateNewRoot s l k r) (hh + 1) ∧
    absOf (CreateNewRoot s l k r) = absAt s hh l ++ absAt s hh r ∧
    (CreateNewRoot s l k r).pages.length = s.pages.length + 1 := by
  rw [List.nodup_cons] at hnodup
  obtain ⟨h0notin, hnodup⟩ := hnodup
  rw [List.nodup_append] at hnodup
  obtain ⟨hndl, hndr, hdisj⟩ := hnodup
  have hlmem := pid_mem_nodeIds s hh l
  have hrmem := pid_mem_nodeIds s hh r
  have hlv := hvalid l (List.mem_append.2 (Or.inl hlmem))
  have hrv := hvalid r (List.mem_append.2 (Or.inr hrmem))
  have hlen2 : 2 ≤ s.pages.length := by omega
  -- the intermediate stores
  have hres : CreateNewRoot s l k r =
      UpdateMetaPage { setParent (setParent
        (setPage (allocPage s).2 (s.pages.length : Int)
          (.internal INVALID_PAGE_ID [k] [l, r])) l (s.pages.length : Int))
        r (s.pages.length : Int) with root := (s.pages.length : Int) } := rfl
  have hN0 : (0 : Int) ≤ (s.pages.length : Int) := by positivity
  have hNtoNat : (s.pages.length : Int).toNat = s.pages.length := Int.toNat_ofNat _
  have hlen1 : (allocPage s).2.pages.length = s.pages.length + 1 := by
    show (s.pages ++ [PageData.free]).length = s.pages.length + 1
    simp
  have hNlt : (s.pages.length : Int).toNat < (allocPage s).2.pages.length := by
    rw [hNtoNat, hlen1]
    omega
  have hidne : ∀ q : Int, 1 ≤ q → q.toNat < s.pages.length →
      q ≠ (s.pages.length : Int) := by
    intro q h1 h2 hc
    rw [hc] at h2
    omega
  -- stage 1: allocation
  have hfr1 : ∀ P : Int, (∀ p ∈ nodeIds s hh P, 1 ≤ p ∧ p.toNat < s.pages.length) →
      ∀ q ∈ nodeIds s hh P, pageAt (allocPage s).2 q = pageAt s q := by
    intro P hids q hq
    exact pageAt_alloc (hids q hq).2
  -- stage 2: write the new root page
  have hfr2 : ∀ P : Int, (∀ p ∈ nodeIds s hh P, 1 ≤ p ∧ p.toNat < s.pages.length) →
      ∀ q ∈ nodeIds s hh P,
      pageAt (setPage (allocPage s).2 (s.pages.length : Int)
        (.internal INVALID_PAGE_ID [k] [l, r])) q = pageAt (allocPage s).2 q := by
    intro P hids q hq
    rw [pageAt_setPage hN0 hNlt]
    exact if_neg (hidne q (hids q hq).1 (hids q hq).2)
  have hvl : ∀ p ∈ nodeIds s hh l, 1 ≤ p ∧ p.toNat < s.pages.length :=
    fun p hp => hvalid p (List.mem_append.2 (Or.inl hp))
  have hvr : ∀ p ∈ nodeIds s hh r, 1 ≤ p ∧ p.toNat < s.pages.length :=
    fun p hp => hvalid p (List.mem_append.2 (Or.inr hp))
  obtain ⟨hl1, hln1, hll1, hla1⟩ := subOk_frame hl (hfr1 l hvl)
  obtain ⟨hr1, hrn1, hrl1, hra1⟩ := subOk_frame hr (hfr1 r hvr)
  obtain ⟨hl2, hln2, hll2, hla2⟩ := subOk_frame hl1 (by rw [hln1]; exact hfr2 l hvl)
  obtain ⟨hr2, hrn2, hrl2, hra2⟩ := subOk_frame hr1 (by rw [hrn1]; exact hfr2 r hvr)
  -- stage 3: reparent the left child
  obtain ⟨hl2a, hln2a, hll2a, hla2a⟩ := subOk_reparent
    ((s.pages.length : Int)) hl2 (by rw [hln2, hln1]; exact hndl)
  have hfr3r : ∀ q ∈ nodeIds s hh r,
      pageAt (setParent (setPage (allocPage s).2 (s.pages.length : Int)
        (.internal INVALID_PAGE_ID [k] [l, r])) l (s.pages.length : Int)) q =
      pageAt (setPage (allocPage s).2 (s.pages.length : Int)
        (.internal INVALID_PAGE_ID [k] [l, r])) q := by
    intro q hq
    refine pageAt_setParent_ne _ ?_
    intro hc
    exact hdisj (hc ▸ hlmem) hq
  obtain ⟨hr2a, hrn2a, hrl2a, hra2a⟩ := subOk_frame hr2 (by rw [hrn2, hrn1]; exact hfr3r)
  -- stage 4: reparent the right child
  obtain ⟨hr3, hrn3, hrl3, hra3⟩ := subOk_reparent
    ((s.pages.length : Int)) hr2a (by rw [hrn2a, hrn2, hrn1]; exact hndr)
  have hfr4l : ∀ q ∈ nodeIds s hh l,
      pageAt (setParent (setParent (setPage (allocPage s).2 (s.pages.length : Int)
        (.internal INVALID_PAGE_ID [k] [l, r])) l (s.pages.length : Int))
        r (s.pages.length : Int)) q =
      pageAt (setParent (setPage (allocPage s).2 (s.pages.length : Int)
        (.internal INVALID_PAGE_ID [k] [l, r])) l (s.pages.length : Int)) q := by
    intro q hq
    refine pageAt_setParent_ne _ ?_
    intro hc
    exact hdisj hq (hc ▸ hrmem)
  obtain ⟨hl3, hln3, hll3, hla3⟩ := subOk_frame hl2a (by rw [hln2a, hln2, hln1]; exact hfr4l)
  -- name the pre-meta store and the final store
  set s3 := setParent (setParent (setPage (allocPage s).2 (s.pages.length : Int)
    (.internal INVALID_PAGE_ID [k] [l, r])) l (s.pages.length : Int))
    r (s.pages.length : Int) with hs3def
  have hlen3 : s3.pages.length = s.pages.length + 1 := by
    rw [hs3def, setParent_length, setParent_length, setPage_length, hlen1]
  set sF := UpdateMetaPage { s3 with root := (s.pages.length : Int) } with hsFdef
  have hroots3 : ({ s3 with root := (s.pages.length : Int) } : Store).pages.length =
      s3.pages.length := rfl
  have hUM : sF = setPage { s3 with root := (s.pages.length : Int) } 0
      (.meta (s.pages.length : Int)) := by
    rw [hsFdef]
    unfold UpdateMetaPage
    rw [if_pos (by rw [hroots3, hlen3]; omega :
      0 < ({ s3 with root := (s.pages.length : Int) } : Store).pages.length)]
  have h0le : (0 : Int) ≤ 0 := le_refl 0
  have h0lt : (0 : Int).toNat < ({ s3 with root := (s.pages.length : Int) } :
      Store).pages.length := by
    show (0 : Int).toNat < s3.pages.length
    rw [hlen3]
    omega
  have hfrF : ∀ q : Int, 1 ≤ q → pageAt sF q = pageAt s3 q := by
    intro q h1
    rw [hUM, pageAt_setPage h0le h0lt, if_neg (by omega : q ≠ 0)]
    rfl
  have hpgN3 : pageAt s3 (s.pages.length : Int) =
      .internal INVALID_PAGE_ID [k] [l, r] := by
    rw [hs3def]
    rw [pageAt_setParent_ne _ (Ne.symm (hidne r hrv.1 hrv.2))]
    rw [pageAt_setParent_ne _ (Ne.symm (hidne l hlv.1 hlv.2))]
    rw [pageAt_setPage hN0 hNlt, if_pos rfl]
  have hpgNF : pageAt sF (s.pages.length : Int) =
      .internal INVALID_PAGE_ID [k] [l, r] := by
    rw [hfrF _ (by omega)]
    exact hpgN3
  have hrootF : sF.root = (s.pages.length : Int) := by
    rw [hUM, setPage_root]
  have hlenF : sF.pages.length = s.pages.length + 1 := by
    rw [hUM, setPage_length]
    exact hlen3
  have hLids : nodeIds sF hh l = nodeIds s hh l := by
    have hfr : ∀ q ∈ nodeIds s3 hh l, pageAt sF q = pageAt s3 q := by
      intro q hq
      rw [hln3, hln2a, hln2, hln1] at hq
      exact hfrF q (hvl q hq).1
    obtain ⟨_, a, b, c⟩ := subOk_frame hl3 hfr
    rw [a, hln3, hln2a, hln2, hln1]
  have hlF : SubOk sF hh l (s.pages.length : Int) none (some k) := by
    have hfr : ∀ q ∈ nodeIds s3 hh l, pageAt sF q = pageAt s3 q := by
      intro q hq
      rw [hln3, hln2a, hln2, hln1] at hq
      exact hfrF q (hvl q hq).1
    exact (subOk_frame hl3 hfr).1
  have hRids : nodeIds sF hh r = nodeIds s hh r := by
    have hfr : ∀ q ∈ nodeIds s3 hh r, pageAt sF q = pageAt s3 q := by
      intro q hq
      rw [hrn3, hrn2a, hrn2, hrn1] at hq
      exact hfrF q (hvr q hq).1
    obtain ⟨_, a, b, c⟩ := subOk_frame hr3 hfr
    rw [a, hrn3, hrn2a, hrn2, hrn1]
  have hrF : SubOk sF hh r (s.pages.length : Int) (some k) none := by
    have hfr : ∀ q ∈ nodeIds s3 hh r, pageAt sF q = pageAt s3 q := by
      intro q hq
      rw [hrn3, hrn2a, hrn2, hrn1] at hq
      exact hfrF q (hvr q hq).1
    exact (subOk_frame hr3 hfr).1
  have hLlv : leafIds sF hh l = leafIds s hh l := by
    have hfr : ∀ q ∈ nodeIds s3 hh l, pageAt sF q = pageAt s3 q := by
      intro q hq
      rw [hln3, hln2a, hln2, hln1] at hq
      exact hfrF q (hvl q hq).1
    obtain ⟨_, a, b, c⟩ := subOk_frame hl3 hfr
    rw [b, hll3, hll2a, hll2, hll1]
  have hRlv : leafIds sF hh r = leafIds s hh r := by
    have hfr : ∀ q ∈ nodeIds s3 hh r, pageAt sF q = pageAt s3 q := by
      intro q hq
      rw [hrn3, hrn2a, hrn2, hrn1] at hq
      exact hfrF q (hvr q hq).1
    obtain ⟨_, a, b, c⟩ := subOk_frame hr3 hfr
    rw [b, hrl3, hrl2a, hrl2, hrl1]
  have hLab : absAt sF hh l = absAt s hh l := by
    have hfr : ∀ q ∈ nodeIds s3 hh l, pageAt sF q = pageAt s3 q := by
      intro q hq
      rw [hln3, hln2a, hln2, hln1] at hq
      exact hfrF q (hvl q hq).1
    obtain ⟨_, a, b, c⟩ := subOk_frame hl3 hfr
    rw [c, hla3, hla2a, hla2, hla1]
  have hRab : absAt sF hh r = absAt s hh r := by
    have hfr : ∀ q ∈ nodeIds s3 hh r, pageAt sF q = pageAt s3 q := by
      intro q hq
      rw [hrn3, hrn2a, hrn2, hrn1] at hq
      exact hfrF q (hvr q hq).1
    obtain ⟨_, a, b, c⟩ := subOk_frame hr3 hfr
    rw [c, hra3, hra2a, hra2, hra1]
  have hNids : nodeIds sF (hh + 1) (s.pages.length : Int) =
      (s.pages.length : Int) :: (nodeIds s hh l ++ (nodeIds s hh r ++ [])) := by
    rw [show nodeIds sF (hh + 1) (s.pages.length : Int) =
      (s.pages.length : Int) :: (match pageAt sF (s.pages.length : Int) with
        | .internal _ _ cs => cs.flatMap (nodeIds sF hh)
        | _ => []) from rfl, hpgNF]
    simp only [List.flatMap_cons, List.flatMap_nil, hLids, hRids]
  have hNlv : leafIds sF (hh + 1) (s.pages.length : Int) =
      leafIds s hh l ++ (leafIds s hh r ++ []) := by
    rw [show leafIds sF (hh + 1) (s.pages.length : Int) =
      (match pageAt sF (s.pages.length : Int) with
        | .internal _ _ cs => cs.flatMap (leafIds sF hh)
        | _ => []) from rfl, hpgNF]
    simp only [List.flatMap_cons, List.flatMap_nil, hLlv, hRlv]
  have hNab : absAt sF (hh + 1) (s.pages.length : Int) =
      absAt s hh l ++ (absAt s hh r ++ []) := by
    rw [show absAt sF (hh + 1) (s.pages.length : Int) =
      (match pageAt sF (s.pages.length : Int) with
        | .internal _ _ cs => cs.flatMap (absAt sF hh)
        | _ => []) from rfl, hpgNF]
    simp only [List.flatMap_cons, List.flatMap_nil, hLab, hRab]
  have hnextF : ∀ a : Int, 1 ≤ a → a.toNat < s.pages.length →
      nextOf (pageAt sF a) = nextOf (pageAt s a) := by
    intro a h1 h2
    rw [hfrF a h1, hs3def]
    rw [(pageAt_setParent r (s.pages.length : Int) a).2.2]
    rw [(pageAt_setParent l (s.pages.length : Int) a).2.2]
    rw [pageAt_setPage hN0 hNlt, if_neg (hidne a h1 h2), pageAt_alloc h2]
  have htree : TreeOk sF (hh + 1) := by
    refine ⟨?_, ?_, ?_, ?_, ?_, ?_, ?_⟩
    · rw [hrootF]
      omega
    · rw [hrootF]
      exact ⟨[k], [l, r], hpgNF, by norm_num, by norm_num [INTERNAL_MAX_KEYS],
        ⟨hlF, hrF⟩⟩
    · rw [hrootF, hNids]
      refine List.nodup_cons.2 ⟨?_, ?_⟩
      · intro hmem
        simp only [List.append_nil] at hmem
        have := hvalid _ hmem
        omega
      · simp only [List.append_nil]
        rw [List.nodup_append]
        exact ⟨hndl, hndr, hdisj⟩
    · rw [hrootF, hNids]
      intro p hp
      rcases List.mem_cons.1 hp with hp | hp
      · subst hp
        rw [hlenF, hNtoNat]
        omega
      · simp only [List.append_nil] at hp
        have := hvalid p hp
        rw [hlenF]
        omega
    · rw [hrootF, hNlv]
      refine chainNext_frame (show ChainNext s (leafIds s hh l ++ (leafIds s hh r ++ []))
        from by simpa using hchain) ?_
      · intro a ha
        simp only [List.append_nil] at ha
        have hmem : a ∈ nodeIds s hh l ++ nodeIds s hh r := by
          rcases List.mem_append.1 ha with ha | ha
          · exact List.mem_append.2 (Or.inl (leafIds_subset_nodeIds s hh l a ha))
          · exact List.mem_append.2 (Or.inr (leafIds_subset_nodeIds s hh r a ha))
        exact hnextF a (hvalid a hmem).1 (hvalid a hmem).2
    · rw [hUM, pageAt_setPage h0le h0lt, if_pos rfl, setPage_root]
    · intro i hi
      rw [hlenF] at hi
      by_cases hilt : i < s.pages.length
      · rcases hcomplete i hilt with h | h
        · exact Or.inl h
        · refine Or.inr ?_
          rw [hrootF, hNids]
          refine List.mem_cons_of_mem _ ?_
          simpa using h
      · have hieq : i = s.pages.length := by omega
        refine Or.inr ?_
        rw [hrootF, hNids, hieq]
        exact List.mem_cons_self _ _
  refine ⟨htree, ?_, hlenF⟩
  show absOf sF = absAt s hh l ++ absAt s hh r
  rw [absOf_eq htree, hrootF, hNab]
  simp

/-- Characterization of `splitInternalStep` on an internal page. -/
theorem splitInternalStep_eq {s : Store} {pid par : Int} {keys children : List Int}
    (hpg : pageAt s pid = .internal par keys children) (k rc : Int)
    {tks tcs : List Int} {sp : Nat}
    (htks : tks = keys.take ((keys.takeWhile (fun x => decide (x < k))).length) ++
      k :: keys.drop ((keys.takeWhile (fun x => decide (x < k))).length))
    (htcs : tcs = children.take ((keys.takeWhile (fun x => decide (x < k))).length + 1) ++
      rc :: children.drop ((keys.takeWhile (fun x => decide (x < k))).length + 1))
    (hsp : sp = tks.length / 2) :
    splitInternalStep s pid k rc =
    some (reparentAll
      (setPage (setPage (allocPage s).2 pid
        (.internal par (tks.take sp) (tcs.take (sp + 1))))
        ((s.pages.length : Int)) (.internal par (tks.drop (sp + 1)) (tcs.drop (sp + 1))))
      (tcs.drop (sp + 1)) ((s.pages.length : Int)),
     tks.getD sp 0, ((s.pages.length : Int))) := by
  subst htks
  subst htcs
  subst hsp
  unfold splitInternalStep
  rw [hpg]
  rfl

/-- One unfolding step of `InsertIntoParent`. -/
theorem iip_succ (s : Store) (l k r : Int) (f : Nat) :
    InsertIntoParent s l k r (f + 1) =
    (if parentOf (pageAt s l) = INVALID_PAGE_ID then CreateNewRoot s l k r
     else
       match pageAt (setParent s r (parentOf (pageAt s l))) (parentOf (pageAt s l)) with
       | .internal gp keys children =>
         if keys.length < INTERNAL_MAX_KEYS then
           setPage (setParent s r (parentOf (pageAt s l))) (parentOf (pageAt s l))
             (.internal gp (InternalInsert keys children k r).1
               (InternalInsert keys children k r).2)
         else
           match splitInternalStep (setParent s r (parentOf (pageAt s l)))
               (parentOf (pageAt s l)) k r with
           | some (s4, middle, newId) =>
             InsertIntoParent s4 (parentOf (pageAt s l)) middle newId f
           | none => setParent s r (parentOf (pageAt s l))
       | _ => setParent s r (parentOf (pageAt s l))) := rfl

/-- Correctness of the `InsertIntoParent` climb: two adjacent sibling
    subtrees produced by a split are spliced into the hole of a well-formed
    context, yielding a well-formed tree with the expected entry list. -/
theorem iip_ok :
    ∀ (ctx : List Crumb) (fuel : Nat) (s : Store) (hh : Nat) (l k r rp : Int)
    (lbH ubH : Option Int),
    CtxOk s ctx l hh lbH ubH →
    SubOk s hh l (ctxPar ctx) lbH (some k) →
    SubOk s hh r rp (some k) ubH →
    (0 :: (ctxIds s ctx hh ++ (nodeIds s hh l ++ nodeIds s hh r))).Nodup →
    (∀ p ∈ ctxIds s ctx hh ++ (nodeIds s hh l ++ nodeIds s hh r),
      1 ≤ p ∧ p.toNat < s.pages.length) →
    pageAt s 0 = .meta s.root →
    ChainNext s (ctxLvL s ctx hh ++ (leafIds s hh l ++ (leafIds s hh r ++ ctxLvR s ctx hh))) →
    (∀ i : Nat, i < s.pages.length → (i : Int) = 0 ∨
      (i : Int) ∈ ctxIds s ctx hh ++ (nodeIds s hh l ++ nodeIds s hh r)) →
    ctx.length + 1 ≤ fuel →
    ∃ H, TreeOk (InsertIntoParent s l k r fuel) H ∧
      absOf (InsertIntoParent s l k r fuel) =
        ctxAbsL s ctx hh ++ (absAt s hh l ++ (absAt s hh r ++ ctxAbsR s ctx hh)) := by
  intro ctx
  induction ctx with
  | nil =>
    intro fuel s hh l k r rp lbH ubH hctx hl hr hnodup hvalid hmeta hchain hcomplete hfuel
    obtain ⟨hroot, hlb, hub⟩ := hctx
    subst hlb; subst hub
    cases fuel with
    | zero => omega
    | succ f =>
      have hpar : parentOf (pageAt s l) = INVALID_PAGE_ID := subOk_parentOf hl
      have hstep : InsertIntoParent s l k r (f + 1) = CreateNewRoot s l k r := by
        rw [iip_succ, if_pos hpar]
      rw [hstep]
      obtain ⟨htree, habs, hlen⟩ := createNewRoot_ok hl hr
        (by simpa [ctxIds] using hnodup)
        (by intro p hp; exact hvalid p (by simpa [ctxIds] using hp))
        (by simpa [ctxLvL, ctxLvR] using hchain)
        (by intro i hi; simpa [ctxIds] using hcomplete i hi)
      exact ⟨hh + 1, htree, by simpa [ctxAbsL, ctxAbsR] using habs⟩
  | cons c rest ih =>
    intro fuel s hh l k r rp lbH ubH hctx hl hr hnodup hvalid hmeta hchain hcomplete hfuel
    obtain ⟨hpage, hparrest, hk1, hk2, hlen, hKL, hKR, hrestctx⟩ := hctx
    cases fuel with
    | zero => omega
    | succ f =>
      -- dissect the nodup hypothesis
      have hnodup' := hnodup
      rw [show ctxIds s (c :: rest) hh =
        c.pid :: ((c.csL ++ c.csR).flatMap (nodeIds s hh) ++ ctxIds s rest (hh + 1))
        from rfl] at hnodup' hvalid hcomplete
      simp only [List.cons_append, List.nodup_cons] at hnodup'
      obtain ⟨h0notin, hpidnotin, hbignd⟩ := hnodup'
      rw [List.nodup_append] at hbignd
      obtain ⟨hsibctxnd, hlrnd, hdisj1⟩ := hbignd
      rw [List.nodup_append] at hsibctxnd
      obtain ⟨hsibnd, hctxnd, hdisj2⟩ := hsibctxnd
      rw [List.nodup_append] at hlrnd
      obtain ⟨hndl, hndr, hdisjlr⟩ := hlrnd
      have hvc : 1 ≤ c.pid ∧ c.pid.toNat < s.pages.length :=
        hvalid c.pid (by simp)
      have hvl2 : ∀ p ∈ nodeIds s hh l, 1 ≤ p ∧ p.toNat < s.pages.length := by
        intro p hp
        exact hvalid p (by simp [hp])
      have hvr2 : ∀ p ∈ nodeIds s hh r, 1 ≤ p ∧ p.toNat < s.pages.length := by
        intro p hp
        exact hvalid p (by simp [hp])
      have hpar : parentOf (pageAt s l) = c.pid := subOk_parentOf hl
      have hparne : ¬ (c.pid = INVALID_PAGE_ID) := by
        have := hvc.1
        intro hcon
        rw [hcon] at this
        norm_num [INVALID_PAGE_ID] at this
      -- the reparented store s1
      have hrmeml : r ∈ nodeIds s hh r := pid_mem_nodeIds s hh r
      have hlmeml : l ∈ nodeIds s hh l := pid_mem_nodeIds s hh l
      have hrne_pid : r ≠ c.pid := by
        intro hcon
        exact hpidnotin (List.mem_append.2 (Or.inr (List.mem_append.2 (Or.inr
          (by rw [← hcon]; exact hrmeml)))))
      have hlne_pid : l ≠ c.pid := by
        intro hcon
        exact hpidnotin (List.mem_append.2 (Or.inr (List.mem_append.2 (Or.inl
          (by rw [← hcon]; exact hlmeml)))))
      have hrne_l : ∀ q ∈ nodeIds s hh l, q ≠ r := by
        intro q hq hcon
        exact hdisjlr (hcon ▸ hq) hrmeml
      obtain ⟨hr1, hrn1, hrl1, hra1⟩ := subOk_reparent c.pid hr hndr
      have hfr_r : ∀ q : Int, q ≠ r →
          pageAt (setParent s r c.pid) q = pageAt s q :=
        fun q hq => pageAt_setParent_ne c.pid hq
      obtain ⟨hl1, hln1, hll1, hla1⟩ := subOk_frame hl
        (fun q hq => hfr_r q (hrne_l q hq))
      have hpage1 : pageAt (setParent s r c.pid) c.pid =
          .internal c.par (c.ksL ++ c.ksR) (c.csL ++ l :: c.csR) := by
        rw [hfr_r c.pid (Ne.symm hrne_pid)]
        exact hpage
      -- separator position: the promoted key lands right after ksL
      have hwit : ∀ (pp : Int), ∀ c2 lb2 ub2,
          SubOk s hh c2 pp lb2 ub2 → ∃ e : Int, lbOk lb2 e ∧ ubOk ub2 e :=
        fun pp c2 lb2 ub2 hs => subOk_key_witness hs
      have hlbk : ∀ a, lbH = some a → a < k := by
        intro a ha
        obtain ⟨e, he1, he2⟩ := subOk_key_witness hl
        rw [ha] at he1
        have h1 : a ≤ e := he1
        have h2 : e < k := he2
        omega
      have hubk : ∀ b, ubH = some b → k < b := by
        intro b hb
        obtain ⟨e, he1, he2⟩ := subOk_key_witness hr
        rw [hb] at he2
        have h1 : k ≤ e := he1
        have h2 : e < b := he2
        omega
      have hksLlt : ∀ x ∈ c.ksL, decide (x < k) = true := by
        intro x hx
        rcases kidsL_out_mem hKL with ⟨hks, _⟩ | ⟨b, hout, hmem⟩
        · rw [hks] at hx; simp at hx
        · have h1 := kidsL_le_out (hwit c.pid) hKL x hx b hout
          have h2 := hlbk b hout
          simp only [decide_eq_true_eq]
          omega
      have hksRge : c.ksR = [] ∨ ∃ k0 t, c.ksR = k0 :: t ∧ decide (k0 < k) = false := by
        rcases hks : c.ksR with _ | ⟨k0, t⟩
        · exact Or.inl rfl
        · refine Or.inr ⟨k0, t, rfl, ?_⟩
          rw [hks, KidsR] at hKR
          have := hubk k0 hKR.1
          simp only [decide_eq_false_iff_not]
          omega
      have hidx : ((c.ksL ++ c.ksR).takeWhile (fun x => decide (x < k))).length =
          c.ksL.length := by
        rw [takeWhile_append_eq hksLlt hksRge]
      have hql_ne_pid : ∀ q ∈ nodeIds s hh l, q ≠ c.pid := by
        intro q hq hcon
        exact hpidnotin (List.mem_append.2 (Or.inr (List.mem_append.2 (Or.inl
          (hcon ▸ hq)))))
      have hqr_ne_pid : ∀ q ∈ nodeIds s hh r, q ≠ c.pid := by
        intro q hq hcon
        exact hpidnotin (List.mem_append.2 (Or.inr (List.mem_append.2 (Or.inr
          (hcon ▸ hq)))))
      have hsib_ne_pid : ∀ q ∈ (c.csL ++ c.csR).flatMap (nodeIds s hh),
          q ≠ c.pid := by
        intro q hq hcon
        exact hpidnotin (List.mem_append.2 (Or.inl (List.mem_append.2 (Or.inl
          (hcon ▸ hq)))))
      have hctx_ne_pid : ∀ q ∈ ctxIds s rest (hh + 1), q ≠ c.pid := by
        intro q hq hcon
        exact hpidnotin (List.mem_append.2 (Or.inl (List.mem_append.2 (Or.inr
          (hcon ▸ hq)))))
      have hsib_ne_r : ∀ q ∈ (c.csL ++ c.csR).flatMap (nodeIds s hh), q ≠ r := by
        intro q hq hcon
        exact hdisj1 (List.mem_append.2 (Or.inl hq)) (List.mem_append.2 (Or.inr
          (by rw [hcon]; exact hrmeml)))
      have hctx_ne_r : ∀ q ∈ ctxIds s rest (hh + 1), q ≠ r := by
        intro q hq hcon
        exact hdisj1 (List.mem_append.2 (Or.inr hq)) (List.mem_append.2 (Or.inr
          (by rw [hcon]; exact hrmeml)))
      have hsib_sub0 : ∀ p2 ∈ c.csL ++ c.csR, ∃ lb2 ub2,
          SubOk s hh p2 c.pid lb2 ub2 := by
        intro p2 hp2
        rcases List.mem_append.1 hp2 with hp2 | hp2
        · exact kidsL_forall_mem hKL p2 hp2
        · exact kidsR_forall_mem hKR p2 hp2
      have hsib_frame1 : ∀ p2 ∈ c.csL ++ c.csR, ∀ q ∈ nodeIds s hh p2,
          pageAt (setParent s r c.pid) q = pageAt s q := by
        intro p2 hp2 q hq
        exact hfr_r q (hsib_ne_r q (List.mem_flatMap.2 ⟨p2, hp2, hq⟩))
      by_cases hfull : (c.ksL ++ c.ksR).length < INTERNAL_MAX_KEYS
      · -- the parent has room: a single in-place `InternalInsert`
        have hII : InternalInsert (c.ksL ++ c.ksR) (c.csL ++ l :: c.csR) k r =
            (c.ksL ++ k :: c.ksR, c.csL ++ l :: r :: c.csR) := by
          show ((c.ksL ++ c.ksR).take
              (((c.ksL ++ c.ksR).takeWhile (fun x => decide (x < k))).length) ++
              k :: (c.ksL ++ c.ksR).drop
              (((c.ksL ++ c.ksR).takeWhile (fun x => decide (x < k))).length),
            (c.csL ++ l :: c.csR).take
              (((c.ksL ++ c.ksR).takeWhile (fun x => decide (x < k))).length + 1) ++
              r :: (c.csL ++ l :: c.csR).drop
              (((c.ksL ++ c.ksR).takeWhile (fun x => decide (x < k))).length + 1)) = _
          rw [hidx, List.take_left, List.drop_left, ← hlen, take_append_cons,
            drop_append_cons, List.append_assoc]
          rfl
        have hstepA : InsertIntoParent s l k r (f + 1) =
            setPage (setParent s r c.pid) c.pid
              (.internal c.par (c.ksL ++ k :: c.ksR) (c.csL ++ l :: r :: c.csR)) := by
          rw [iip_succ, hpar, if_neg hparne, hpage1]
          show (if (c.ksL ++ c.ksR).length < INTERNAL_MAX_KEYS then _ else _) = _
          rw [if_pos hfull, hII]
        rw [hstepA]
        set sA := setPage (setParent s r c.pid) c.pid
          (.internal c.par (c.ksL ++ k :: c.ksR) (c.csL ++ l :: r :: c.csR))
          with hsAdef
        have hc0 : (0 : Int) ≤ c.pid := by omega
        have hclt1 : c.pid.toNat < (setParent s r c.pid).pages.length := by
          rw [setParent_length]
          exact hvc.2
        have hfr_A : ∀ q : Int, q ≠ c.pid →
            pageAt sA q = pageAt (setParent s r c.pid) q := by
          intro q hq
          rw [hsAdef, pageAt_setPage hc0 hclt1, if_neg hq]
        have hpageA : pageAt sA c.pid =
            .internal c.par (c.ksL ++ k :: c.ksR) (c.csL ++ l :: r :: c.csR) := by
          rw [hsAdef, pageAt_setPage hc0 hclt1, if_pos rfl]
        have hfr_sA : ∀ q : Int, q ≠ c.pid → q ≠ r → pageAt sA q = pageAt s q :=
          fun q h1 h2 => (hfr_A q h1).trans (hfr_r q h2)
        -- subtree transports into sA
        have hfrl_sA : ∀ q ∈ nodeIds s hh l, pageAt sA q = pageAt s q :=
          fun q hq => hfr_sA q (hql_ne_pid q hq) (hrne_l q hq)
        obtain ⟨hl2, hln2, hll2, hla2⟩ := subOk_frame hl hfrl_sA
        have hfrr_sA : ∀ q ∈ nodeIds (setParent s r c.pid) hh r,
            pageAt sA q = pageAt (setParent s r c.pid) q := by
          intro q hq
          rw [hrn1] at hq
          exact hfr_A q (hqr_ne_pid q hq)
        obtain ⟨hr2, hrn2, hrl2, hra2⟩ := subOk_frame hr1 hfrr_sA
        have hrnF : nodeIds sA hh r = nodeIds s hh r := hrn2.trans hrn1
        have hrlF : leafIds sA hh r = leafIds s hh r := hrl2.trans hrl1
        have hraF : absAt sA hh r = absAt s hh r := hra2.trans hra1
        have hsib_sub : ∀ p2 ∈ c.csL ++ c.csR, ∃ lb2 ub2,
            SubOk s hh p2 c.pid lb2 ub2 := by
          intro p2 hp2
          rcases List.mem_append.1 hp2 with hp2 | hp2
          · exact kidsL_forall_mem hKL p2 hp2
          · exact kidsR_forall_mem hKR p2 hp2
        have hsib_frame : ∀ p2 ∈ c.csL ++ c.csR, ∀ q ∈ nodeIds s hh p2,
            pageAt sA q = pageAt s q := by
          intro p2 hp2 q hq
          have hmem : q ∈ (c.csL ++ c.csR).flatMap (nodeIds s hh) :=
            List.mem_flatMap.2 ⟨p2, hp2, hq⟩
          exact hfr_sA q (hsib_ne_pid q hmem) (hsib_ne_r q hmem)
        have hsibEq : ∀ p2 ∈ c.csL ++ c.csR,
            nodeIds sA hh p2 = nodeIds s hh p2 ∧
            leafIds sA hh p2 = leafIds s hh p2 ∧
            absAt sA hh p2 = absAt s hh p2 := by
          intro p2 hp2
          obtain ⟨lb2, ub2, hs2⟩ := hsib_sub p2 hp2
          obtain ⟨_, a, b, c2⟩ := subOk_frame hs2 (hsib_frame p2 hp2)
          exact ⟨a, b, c2⟩
        have hKL2 : KidsL (fun p lb2 ub2 => SubOk sA hh p c.pid lb2 ub2)
            c.csL c.ksL c.lb lbH :=
          kidsL_mono hKL (fun p hp lb2 ub2 hs =>
            (subOk_frame hs (hsib_frame p (List.mem_append.2 (Or.inl hp)))).1)
        have hKR2 : KidsR (fun p lb2 ub2 => SubOk sA hh p c.pid lb2 ub2)
            c.csR c.ksR ubH c.ub :=
          kidsR_mono hKR (fun p hp lb2 ub2 hs =>
            (subOk_frame hs (hsib_frame p (List.mem_append.2 (Or.inr hp)))).1)
        have hnodeA : SubOk sA (hh + 1) c.pid (ctxPar rest) c.lb c.ub := by
          refine ⟨c.ksL ++ k :: c.ksR, c.csL ++ l :: r :: c.csR, ?_, ?_, ?_, ?_⟩
          · rw [hpageA, hparrest]
          · simp only [List.length_append, List.length_cons]
            omega
          · simp only [List.length_append, List.length_cons]
            simp only [List.length_append] at hfull
            omega
          · exact kidsOkF_join2 hKL2 hl2 hr2 hKR2
        have hrootA : sA.root = s.root := by
          rw [hsAdef, setPage_root, setParent_root]
        have hlenA : sA.pages.length = s.pages.length := by
          rw [hsAdef, setPage_length, setParent_length]
        have hctx_frame : ∀ q ∈ ctxIds s rest (hh + 1), pageAt sA q = pageAt s q :=
          fun q hq => hfr_sA q (hctx_ne_pid q hq) (hctx_ne_r q hq)
        obtain ⟨hctxA, hcteq, hctLvL, hctLvR, hctAbsL, hctAbsR⟩ :=
          ctxOk_frame hrootA hrestctx hctx_frame
        obtain ⟨hsubP, hpermP, hlvP, habsP⟩ := ctx_plug hctxA hnodeA
        -- the new node's derived lists
        have eCL : c.csL.flatMap (nodeIds sA hh) = c.csL.flatMap (nodeIds s hh) :=
          flatMap_congr (fun p hp => (hsibEq p (List.mem_append.2 (Or.inl hp))).1)
        have eCR : c.csR.flatMap (nodeIds sA hh) = c.csR.flatMap (nodeIds s hh) :=
          flatMap_congr (fun p hp => (hsibEq p (List.mem_append.2 (Or.inr hp))).1)
        have eCLlv : c.csL.flatMap (leafIds sA hh) = c.csL.flatMap (leafIds s hh) :=
          flatMap_congr (fun p hp => (hsibEq p (List.mem_append.2 (Or.inl hp))).2.1)
        have eCRlv : c.csR.flatMap (leafIds sA hh) = c.csR.flatMap (leafIds s hh) :=
          flatMap_congr (fun p hp => (hsibEq p (List.mem_append.2 (Or.inr hp))).2.1)
        have eCLab : c.csL.flatMap (absAt sA hh) = c.csL.flatMap (absAt s hh) :=
          flatMap_congr (fun p hp => (hsibEq p (List.mem_append.2 (Or.inl hp))).2.2)
        have eCRab : c.csR.flatMap (absAt sA hh) = c.csR.flatMap (absAt s hh) :=
          flatMap_congr (fun p hp => (hsibEq p (List.mem_append.2 (Or.inr hp))).2.2)
        have hNidsA : nodeIds sA (hh + 1) c.pid =
            c.pid :: (c.csL.flatMap (nodeIds s hh) ++ (nodeIds s hh l ++
              (nodeIds s hh r ++ c.csR.flatMap (nodeIds s hh)))) := by
          rw [show nodeIds sA (hh + 1) c.pid = c.pid :: (match pageAt sA c.pid with
            | .internal _ _ cs => cs.flatMap (nodeIds sA hh)
            | _ => []) from rfl, hpageA]
          simp only [List.flatMap_append, List.flatMap_cons]
          rw [eCL, eCR, hln2, hrnF]
        have hNlvA : leafIds sA (hh + 1) c.pid =
            c.csL.flatMap (leafIds s hh) ++ (leafIds s hh l ++
              (leafIds s hh r ++ c.csR.flatMap (leafIds s hh))) := by
          rw [show leafIds sA (hh + 1) c.pid = (match pageAt sA c.pid with
            | .internal _ _ cs => cs.flatMap (leafIds sA hh)
            | _ => []) from rfl, hpageA]
          simp only [List.flatMap_append, List.flatMap_cons]
          rw [eCLlv, eCRlv, hll2, hrlF]
        have hNabA : absAt sA (hh + 1) c.pid =
            c.csL.flatMap (absAt s hh) ++ (absAt s hh l ++
              (absAt s hh r ++ c.csR.flatMap (absAt s hh))) := by
          rw [show absAt sA (hh + 1) c.pid = (match pageAt sA c.pid with
            | .internal _ _ cs => cs.flatMap (absAt sA hh)
            | _ => []) from rfl, hpageA]
          simp only [List.flatMap_append, List.flatMap_cons]
          rw [eCLab, eCRab, hla2, hraF]
        -- permutation to the canonical id list of the hypothesis
        have hnd_tail : ((c.pid :: ((c.csL ++ c.csR).flatMap (nodeIds s hh) ++
            ctxIds s rest (hh + 1))) ++
            (nodeIds s hh l ++ nodeIds s hh r)).Nodup := by
          have := hnodup
          rw [show ctxIds s (c :: rest) hh =
            c.pid :: ((c.csL ++ c.csR).flatMap (nodeIds s hh) ++ ctxIds s rest (hh + 1))
            from rfl] at this
          exact (List.nodup_cons.1 this).2
        have hpermBig : (nodeIds sA (hh + 1 + rest.length) sA.root).Perm
            ((c.pid :: ((c.csL ++ c.csR).flatMap (nodeIds s hh) ++
              ctxIds s rest (hh + 1))) ++
              (nodeIds s hh l ++ nodeIds s hh r)) := by
          refine hpermP.trans ?_
          rw [hcteq, hNidsA, List.perm_iff_count]
          intro a
          simp only [List.flatMap_append, List.count_append, List.count_cons]
          omega
        have htreeA : TreeOk sA (hh + 1 + rest.length) := by
          refine ⟨?_, hsubP, ?_, ?_, ?_, ?_, ?_⟩
          · rw [hrootA]
            rcases ctxOk_root hrestctx with hq | hq
            · rw [hq]; exact hvc.1
            · exact (hvalid s.root (List.mem_cons_of_mem _ (List.mem_append.2
                (Or.inl (List.mem_append.2 (Or.inr hq)))))).1
          · exact hpermBig.symm.nodup hnd_tail
          · intro p hp
            have hmem := hpermBig.mem_iff.1 hp
            rw [hlenA]
            have hmem2 : p = c.pid ∨ (p ∈ (c.csL ++ c.csR).flatMap (nodeIds s hh) ∨
                p ∈ ctxIds s rest (hh + 1)) ∨
                (p ∈ nodeIds s hh l ∨ p ∈ nodeIds s hh r) := by
              simpa only [List.cons_append, List.mem_cons, List.mem_append] using hmem
            rcases hmem2 with hq | (hq | hq) | (hq | hq)
            · exact hq ▸ hvc
            · exact hvalid p (List.mem_cons_of_mem _ (List.mem_append.2
                (Or.inl (List.mem_append.2 (Or.inl hq)))))
            · exact hvalid p (List.mem_cons_of_mem _ (List.mem_append.2
                (Or.inl (List.mem_append.2 (Or.inr hq)))))
            · exact hvalid p (List.mem_cons_of_mem _ (List.mem_append.2
                (Or.inr (List.mem_append.2 (Or.inl hq)))))
            · exact hvalid p (List.mem_cons_of_mem _ (List.mem_append.2
                (Or.inr (List.mem_append.2 (Or.inr hq)))))
          · rw [hlvP, hctLvL, hctLvR, hNlvA]
            have hle : ctxLvL s rest (hh + 1) ++
                (c.csL.flatMap (leafIds s hh) ++ (leafIds s hh l ++
                  (leafIds s hh r ++ c.csR.flatMap (leafIds s hh)))) ++
                ctxLvR s rest (hh + 1) =
                ctxLvL s (c :: rest) hh ++ (leafIds s hh l ++ (leafIds s hh r ++
                  ctxLvR s (c :: rest) hh)) := by
              rw [show ctxLvL s (c :: rest) hh =
                ctxLvL s rest (hh + 1) ++ c.csL.flatMap (leafIds s hh) from rfl]
              rw [show ctxLvR s (c :: rest) hh =
                c.csR.flatMap (leafIds s hh) ++ ctxLvR s rest (hh + 1) from rfl]
              simp only [List.append_assoc]
            rw [hle]
            refine chainNext_frame hchain ?_
            intro a ha
            have hane : a ≠ c.pid ∧ a ≠ r ∨ a = r := by
              rw [show ctxLvL s (c :: rest) hh =
                ctxLvL s rest (hh + 1) ++ c.csL.flatMap (leafIds s hh) from rfl] at ha
              rw [show ctxLvR s (c :: rest) hh =
                c.csR.flatMap (leafIds s hh) ++ ctxLvR s rest (hh + 1) from rfl] at ha
              by_cases har : a = r
              · exact Or.inr har
              refine Or.inl ⟨?_, har⟩
              simp only [List.mem_append] at ha
              rcases ha with (ha | ha) | ha | ha | (ha | ha)
              · exact hctx_ne_pid a (ctxLvL_subset a ha)
              · rcases List.mem_flatMap.1 ha with ⟨p2, hp2, hq⟩
                exact hsib_ne_pid a (List.mem_flatMap.2
                  ⟨p2, List.mem_append.2 (Or.inl hp2),
                    leafIds_subset_nodeIds s hh p2 a hq⟩)
              · exact hql_ne_pid a (leafIds_subset_nodeIds s hh l a ha)
              · exact hqr_ne_pid a (leafIds_subset_nodeIds s hh r a ha)
              · rcases List.mem_flatMap.1 ha with ⟨p2, hp2, hq⟩
                exact hsib_ne_pid a (List.mem_flatMap.2
                  ⟨p2, List.mem_append.2 (Or.inr hp2),
                    leafIds_subset_nodeIds s hh p2 a hq⟩)
              · exact hctx_ne_pid a (ctxLvR_subset a ha)
            rcases hane with ⟨h1, h2⟩ | ha
            · rw [hfr_sA a h1 h2]
            · rw [hfr_A a (ha ▸ hrne_pid), (pageAt_setParent r c.pid a).2.2]
          · have h0pid : (0 : Int) ≠ c.pid := by omega
            have h0r : (0 : Int) ≠ r := by
              have := (hvr2 r hrmeml).1
              omega
            rw [hfr_sA 0 h0pid h0r, hmeta, hrootA]
          · intro i hi
            rw [hlenA] at hi
            rcases hcomplete i hi with h | h
            · exact Or.inl h
            · refine Or.inr (hpermBig.mem_iff.2 ?_)
              simpa only [List.cons_append, List.mem_cons, List.mem_append] using h
        refine ⟨hh + 1 + rest.length, htreeA, ?_⟩
        rw [absOf_eq htreeA, habsP, hctAbsL, hctAbsR, hNabA]
        rw [show ctxAbsL s (c :: rest) hh =
          ctxAbsL s rest (hh + 1) ++ c.csL.flatMap (absAt s hh) from rfl]
        rw [show ctxAbsR s (c :: rest) hh =
          c.csR.flatMap (absAt s hh) ++ ctxAbsR s rest (hh + 1) from rfl]
        simp only [List.append_assoc]
      · -- the parent is full: `SplitInternal` and recurse one level up
        have h510 : INTERNAL_MAX_KEYS = 510 := rfl
        have hklen : c.ksL.length + c.ksR.length = 510 := by
          have h2 := hfull
          have h3 := hk2
          rw [List.length_append, h510] at h2
          rw [h510] at h3
          omega
        have hlenR : c.csR.length = c.ksR.length := kidsR_shape hKR
        have hTKSlen : (c.ksL ++ k :: c.ksR).length = 511 := by
          rw [List.length_append, List.length_cons]
          omega
        have hspB : (255 : Nat) = (c.ksL ++ k :: c.ksR).length / 2 := by
          rw [hTKSlen]
        have htksB : c.ksL ++ k :: c.ksR =
            (c.ksL ++ c.ksR).take
              (((c.ksL ++ c.ksR).takeWhile (fun x => decide (x < k))).length) ++
            k :: (c.ksL ++ c.ksR).drop
              (((c.ksL ++ c.ksR).takeWhile (fun x => decide (x < k))).length) := by
          rw [hidx, List.take_left, List.drop_left]
        have htcsB : c.csL ++ l :: r :: c.csR =
            (c.csL ++ l :: c.csR).take
              (((c.ksL ++ c.ksR).takeWhile (fun x => decide (x < k))).length + 1) ++
            r :: (c.csL ++ l :: c.csR).drop
              (((c.ksL ++ c.ksR).takeWhile (fun x => decide (x < k))).length + 1) := by
          rw [hidx, ← hlen, take_append_cons, drop_append_cons, List.append_assoc]
          rfl
        have hsplit3 := splitInternalStep_eq hpage1 k r htksB htcsB hspB
        have hstepB : InsertIntoParent s l k r (f + 1) =
            InsertIntoParent (reparentAll (setPage (setPage
              (allocPage (setParent s r c.pid)).2 c.pid
              (.internal c.par ((c.ksL ++ k :: c.ksR).take 255)
                ((c.csL ++ l :: r :: c.csR).take (255 + 1))))
              (((setParent s r c.pid).pages.length : Int))
              (.internal c.par ((c.ksL ++ k :: c.ksR).drop (255 + 1))
                ((c.csL ++ l :: r :: c.csR).drop (255 + 1))))
              ((c.csL ++ l :: r :: c.csR).drop (255 + 1))
              (((setParent s r c.pid).pages.length : Int)))
              c.pid ((c.ksL ++ k :: c.ksR).getD 255 0)
              (((setParent s r c.pid).pages.length : Int)) f := by
          rw [iip_succ, hpar, if_neg hparne, hpage1]
          show (if (c.ksL ++ c.ksR).length < INTERNAL_MAX_KEYS then _ else _) = _
          rw [if_neg hfull, hsplit3]
        rw [hstepB]
        set s1 := setParent s r c.pid with hs1def
        set NID := ((s1.pages.length : Int)) with hNIDdef
        set TKS := c.ksL ++ k :: c.ksR with hTKSdef
        set TCS := c.csL ++ l :: r :: c.csR with hTCSdef
        set sA1 := (allocPage s1).2 with hsA1def
        set sB2 := setPage sA1 c.pid
          (.internal c.par (TKS.take 255) (TCS.take (255 + 1))) with hsB2def
        set sB3 := setPage sB2 NID
          (.internal c.par (TKS.drop (255 + 1)) (TCS.drop (255 + 1))) with hsB3def
        -- basic address arithmetic for the two split pages
        have hs1len : s1.pages.length = s.pages.length := setParent_length
        have hNID0 : (0 : Int) ≤ NID := by
          rw [hNIDdef]
          omega
        have hNIDtoNat : NID.toNat = s.pages.length := by
          rw [hNIDdef, hs1len]
          exact Int.toNat_ofNat _
        have h2NID : (2 : Int) ≤ NID := by
          have h1 := hvc.1
          have h2 := hvc.2
          rw [hNIDdef, hs1len]
          omega
        have hne_NID : ∀ q : Int, q.toNat < s.pages.length → q ≠ NID := by
          intro q hq hcon
          rw [hcon, hNIDtoNat] at hq
          omega
        have hsA1len : sA1.pages.length = s.pages.length + 1 := by
          rw [hsA1def]
          show (s1.pages ++ [PageData.free]).length = s.pages.length + 1
          rw [List.length_append, hs1len]
          rfl
        have hsB2len : sB2.pages.length = s.pages.length + 1 := by
          rw [hsB2def, setPage_length, hsA1len]
        have hsB3len : sB3.pages.length = s.pages.length + 1 := by
          rw [hsB3def, setPage_length, hsB2len]
        have hc0 : (0 : Int) ≤ c.pid := by
          have := hvc.1
          omega
        have hcltA1 : c.pid.toNat < sA1.pages.length := by
          rw [hsA1len]
          have := hvc.2
          omega
        have hNIDltB2 : NID.toNat < sB2.pages.length := by
          rw [hsB2len, hNIDtoNat]
          omega
        have hfr13 : ∀ q : Int, q ≠ c.pid → q.toNat < s.pages.length →
            pageAt sB3 q = pageAt s1 q := by
          intro q h1 h3
          rw [hsB3def, pageAt_setPage hNID0 hNIDltB2, if_neg (hne_NID q h3),
            hsB2def, pageAt_setPage hc0 hcltA1, if_neg h1, hsA1def,
            pageAt_alloc (by rw [hs1len]; exact h3)]
        -- the full child block of the parent node, seen in `s1`
        have hKL1 : KidsL (fun p lb2 ub2 => SubOk s1 hh p c.pid lb2 ub2)
            c.csL c.ksL c.lb lbH :=
          kidsL_mono hKL (fun p hp lb2 ub2 hs =>
            (subOk_frame hs (hsib_frame1 p (List.mem_append.2 (Or.inl hp)))).1)
        have hKR1 : KidsR (fun p lb2 ub2 => SubOk s1 hh p c.pid lb2 ub2)
            c.csR c.ksR ubH c.ub :=
          kidsR_mono hKR (fun p hp lb2 ub2 hs =>
            (subOk_frame hs (hsib_frame1 p (List.mem_append.2 (Or.inr hp)))).1)
        have hbig1 : KidsOkF (fun p lb2 ub2 => SubOk s1 hh p c.pid lb2 ub2)
            (c.csL ++ l :: r :: c.csR) (c.ksL ++ k :: c.ksR) c.lb c.ub :=
          kidsOkF_join2 hKL1 hl1 hr1 hKR1
        rw [← hTKSdef, ← hTCSdef] at hbig1
        have hTCS_cases : ∀ p2 ∈ TCS,
            p2 ∈ c.csL ∨ p2 = l ∨ p2 = r ∨ p2 ∈ c.csR := by
          intro p2 hp2
          rw [hTCSdef] at hp2
          rcases List.mem_append.1 hp2 with h | h
          · exact Or.inl h
          · rcases List.mem_cons.1 h with h | h
            · exact Or.inr (Or.inl h)
            · rcases List.mem_cons.1 h with h | h
              · exact Or.inr (Or.inr (Or.inl h))
              · exact Or.inr (Or.inr (Or.inr h))
        have hids1 : ∀ p2 ∈ TCS, nodeIds s1 hh p2 = nodeIds s hh p2 ∧
            leafIds s1 hh p2 = leafIds s hh p2 ∧
            absAt s1 hh p2 = absAt s hh p2 := by
          intro p2 hp2
          rcases hTCS_cases p2 hp2 with h | h | h | h
          · obtain ⟨lb2, ub2, hs2⟩ := kidsL_forall_mem hKL p2 h
            obtain ⟨_, a, b, c2⟩ := subOk_frame hs2
              (hsib_frame1 p2 (List.mem_append.2 (Or.inl h)))
            exact ⟨a, b, c2⟩
          · subst h
            exact ⟨hln1, hll1, hla1⟩
          · subst h
            exact ⟨hrn1, hrl1, hra1⟩
          · obtain ⟨lb2, ub2, hs2⟩ := kidsR_forall_mem hKR p2 h
            obtain ⟨_, a, b, c2⟩ := subOk_frame hs2
              (hsib_frame1 p2 (List.mem_append.2 (Or.inr h)))
            exact ⟨a, b, c2⟩
        have hmemTCS : ∀ p2 ∈ TCS, ∀ q ∈ nodeIds s hh p2,
            (1 ≤ q ∧ q.toNat < s.pages.length) ∧ q ≠ c.pid := by
          intro p2 hp2 q hq
          rcases hTCS_cases p2 hp2 with h | h | h | h
          · have hm : q ∈ (c.csL ++ c.csR).flatMap (nodeIds s hh) :=
              List.mem_flatMap.2 ⟨p2, List.mem_append.2 (Or.inl h), hq⟩
            exact ⟨hvalid q (List.mem_cons_of_mem _ (List.mem_append.2
              (Or.inl (List.mem_append.2 (Or.inl hm))))), hsib_ne_pid q hm⟩
          · subst h
            exact ⟨hvl2 q hq, hql_ne_pid q hq⟩
          · subst h
            exact ⟨hvr2 q hq, hqr_ne_pid q hq⟩
          · have hm : q ∈ (c.csL ++ c.csR).flatMap (nodeIds s hh) :=
              List.mem_flatMap.2 ⟨p2, List.mem_append.2 (Or.inr h), hq⟩
            exact ⟨hvalid q (List.mem_cons_of_mem _ (List.mem_append.2
              (Or.inl (List.mem_append.2 (Or.inl hm))))), hsib_ne_pid q hm⟩
        have hfr13sub : ∀ p2 ∈ TCS, ∀ q ∈ nodeIds s1 hh p2,
            pageAt sB3 q = pageAt s1 q := by
          intro p2 hp2 q hq
          rw [(hids1 p2 hp2).1] at hq
          obtain ⟨⟨_, hq2⟩, hq3⟩ := hmemTCS p2 hp2 q hq
          exact hfr13 q hq3 hq2
        have hbig3 : KidsOkF (fun p lb2 ub2 => SubOk sB3 hh p c.pid lb2 ub2)
            TCS TKS c.lb c.ub :=
          kidsOkF_mono hbig1 (fun p2 hp2 lb2 ub2 hs =>
            (subOk_frame hs (hfr13sub p2 hp2)).1)
        have hids3 : ∀ p2 ∈ TCS, nodeIds sB3 hh p2 = nodeIds s hh p2 ∧
            leafIds sB3 hh p2 = leafIds s hh p2 ∧
            absAt sB3 hh p2 = absAt s hh p2 := by
          intro p2 hp2
          obtain ⟨lb2, ub2, hs2⟩ := kidsOkF_forall_mem hbig1 p2 hp2
          obtain ⟨_, a, b, c2⟩ := subOk_frame hs2 (hfr13sub p2 hp2)
          have h0 := hids1 p2 hp2
          exact ⟨a.trans h0.1, b.trans h0.2.1, c2.trans h0.2.2⟩
        -- split the overflowing node at the middle key
        have h255 : 255 < TKS.length := by
          rw [hTKSlen]
          omega
        obtain ⟨hleft3, hright3⟩ := kidsOkF_split_at 255 hbig3 h255
        -- the ids moving to the new right node are fresh for each other
        have hTCSflat_nd : (TCS.flatMap (nodeIds s hh)).Nodup := by
          have hcomb : (((c.csL ++ c.csR).flatMap (nodeIds s hh)) ++
              (nodeIds s hh l ++ nodeIds s hh r)).Nodup := by
            rw [List.nodup_append]
            refine ⟨hsibnd, ?_, ?_⟩
            · rw [List.nodup_append]
              exact ⟨hndl, hndr, hdisjlr⟩
            · intro a ha hb
              exact hdisj1 (List.mem_append.2 (Or.inl ha)) hb
          refine (List.Perm.nodup ?_ hcomb)
          rw [List.perm_iff_count]
          intro a
          rw [hTCSdef]
          simp only [List.flatMap_append, List.flatMap_cons, List.count_append]
          omega
        have hTDsplit : TCS.flatMap (nodeIds s hh) =
            (TCS.take (255 + 1)).flatMap (nodeIds s hh) ++
            (TCS.drop (255 + 1)).flatMap (nodeIds s hh) := by
          rw [← List.flatMap_append, List.take_append_drop]
        obtain ⟨hndTake, hndDrop, hTDdisj⟩ :=
          List.nodup_append.1 (hTDsplit ▸ hTCSflat_nd)
        have hMVnd : ((TCS.drop (255 + 1)).flatMap (nodeIds sB3 hh)).Nodup := by
          have he : (TCS.drop (255 + 1)).flatMap (nodeIds sB3 hh) =
              (TCS.drop (255 + 1)).flatMap (nodeIds s hh) :=
            flatMap_congr (fun p2 hp2 => (hids3 p2 (List.mem_of_mem_drop hp2)).1)
          rw [he]
          exact hndDrop
        obtain ⟨hreparK, hreparF, hreparEN, hreparRoot, hreparLen,
            hreparN, hreparLf, hreparA⟩ :=
          @reparent_fold hh NID c.pid (TCS.drop (255 + 1)) (TKS.drop (255 + 1))
            (some (TKS.getD 255 0)) c.ub sB3 hright3 hMVnd
        set s4 := reparentAll sB3 (TCS.drop (255 + 1)) NID with hs4def
        have hs4len : s4.pages.length = s.pages.length + 1 := by
          rw [hreparLen, hsB3len]
        have hTCSmem_self : ∀ m ∈ TCS,
            (1 ≤ m ∧ m.toNat < s.pages.length) ∧ m ≠ c.pid :=
          fun m hm => hmemTCS m hm m (pid_mem_nodeIds s hh m)
        have hpidnotMV : c.pid ∉ TCS.drop (255 + 1) := by
          intro hmem
          exact (hTCSmem_self c.pid (List.mem_of_mem_drop hmem)).2 rfl
        have hNIDnotMV : NID ∉ TCS.drop (255 + 1) := by
          intro hmem
          have := (hTCSmem_self NID (List.mem_of_mem_drop hmem)).1.2
          rw [hNIDtoNat] at this
          omega
        have hpage4pid : pageAt s4 c.pid =
            .internal c.par (TKS.take 255) (TCS.take (255 + 1)) := by
          rw [hreparF c.pid hpidnotMV, hsB3def, pageAt_setPage hNID0 hNIDltB2,
            if_neg (hne_NID c.pid hvc.2), hsB2def, pageAt_setPage hc0 hcltA1,
            if_pos rfl]
        have hpage4N : pageAt s4 NID =
            .internal c.par (TKS.drop (255 + 1)) (TCS.drop (255 + 1)) := by
          rw [hreparF NID hNIDnotMV, hsB3def, pageAt_setPage hNID0 hNIDltB2,
            if_pos rfl]
        -- left half: unchanged subtrees, new shorter parent page
        have hfr34take : ∀ p2 ∈ TCS.take (255 + 1), ∀ q ∈ nodeIds sB3 hh p2,
            pageAt s4 q = pageAt sB3 q := by
          intro p2 hp2 q hq
          rw [(hids3 p2 (List.mem_of_mem_take hp2)).1] at hq
          refine hreparF q ?_
          intro hqmv
          exact hTDdisj (List.mem_flatMap.2 ⟨p2, hp2, hq⟩)
            (List.mem_flatMap.2 ⟨q, hqmv, pid_mem_nodeIds s hh q⟩)
        have hbigTake4 : KidsOkF (fun p lb2 ub2 => SubOk s4 hh p c.pid lb2 ub2)
            (TCS.take (255 + 1)) (TKS.take 255) c.lb (some (TKS.getD 255 0)) :=
          kidsOkF_mono hleft3 (fun p2 hp2 lb2 ub2 hs =>
            (subOk_frame hs (hfr34take p2 hp2)).1)
        have hLtakeLen : (TKS.take 255).length = 255 := by
          rw [List.length_take, hTKSlen]
          omega
        have hLdropLen : (TKS.drop (255 + 1)).length = 255 := by
          rw [List.length_drop, hTKSlen]
        have hl4 : SubOk s4 (hh + 1) c.pid (ctxPar rest) c.lb
            (some (TKS.getD 255 0)) := by
          refine ⟨TKS.take 255, TCS.take (255 + 1), by rw [hpage4pid, hparrest],
            ?_, ?_, hbigTake4⟩
          · rw [hLtakeLen]
            omega
          · rw [hLtakeLen, h510]
            omega
        have hr4 : SubOk s4 (hh + 1) NID c.par (some (TKS.getD 255 0)) c.ub := by
          refine ⟨TKS.drop (255 + 1), TCS.drop (255 + 1), hpage4N, ?_, ?_, hreparK⟩
          · rw [hLdropLen]
            omega
          · rw [hLdropLen, h510]
            omega
        -- id, leaf and entry lists of the two halves, expressed over `s`
        have hids4take : ∀ p2 ∈ TCS.take (255 + 1),
            nodeIds s4 hh p2 = nodeIds s hh p2 ∧
            leafIds s4 hh p2 = leafIds s hh p2 ∧
            absAt s4 hh p2 = absAt s hh p2 := by
          intro p2 hp2
          obtain ⟨lb2, ub2, hs2⟩ := kidsOkF_forall_mem hleft3 p2 hp2
          obtain ⟨_, a, b, c2⟩ := subOk_frame hs2 (hfr34take p2 hp2)
          have h0 := hids3 p2 (List.mem_of_mem_take hp2)
          exact ⟨a.trans h0.1, b.trans h0.2.1, c2.trans h0.2.2⟩
        have eTakeN : (TCS.take (255 + 1)).flatMap (nodeIds s4 hh) =
            (TCS.take (255 + 1)).flatMap (nodeIds s hh) :=
          flatMap_congr (fun p2 hp2 => (hids4take p2 hp2).1)
        have eTakeLf : (TCS.take (255 + 1)).flatMap (leafIds s4 hh) =
            (TCS.take (255 + 1)).flatMap (leafIds s hh) :=
          flatMap_congr (fun p2 hp2 => (hids4take p2 hp2).2.1)
        have eTakeAb : (TCS.take (255 + 1)).flatMap (absAt s4 hh) =
            (TCS.take (255 + 1)).flatMap (absAt s hh) :=
          flatMap_congr (fun p2 hp2 => (hids4take p2 hp2).2.2)
        have eDropN : (TCS.drop (255 + 1)).flatMap (nodeIds s4 hh) =
            (TCS.drop (255 + 1)).flatMap (nodeIds s hh) :=
          hreparN.trans (flatMap_congr (fun p2 hp2 =>
            (hids3 p2 (List.mem_of_mem_drop hp2)).1))
        have eDropLf : (TCS.drop (255 + 1)).flatMap (leafIds s4 hh) =
            (TCS.drop (255 + 1)).flatMap (leafIds s hh) :=
          hreparLf.trans (flatMap_congr (fun p2 hp2 =>
            (hids3 p2 (List.mem_of_mem_drop hp2)).2.1))
        have eDropAb : (TCS.drop (255 + 1)).flatMap (absAt s4 hh) =
            (TCS.drop (255 + 1)).flatMap (absAt s hh) :=
          hreparA.trans (flatMap_congr (fun p2 hp2 =>
            (hids3 p2 (List.mem_of_mem_drop hp2)).2.2))
        have hN4pid : nodeIds s4 (hh + 1) c.pid =
            c.pid :: (TCS.take (255 + 1)).flatMap (nodeIds s hh) := by
          rw [show nodeIds s4 (hh + 1) c.pid = c.pid :: (match pageAt s4 c.pid with
            | .internal _ _ cs => cs.flatMap (nodeIds s4 hh)
            | _ => []) from rfl, hpage4pid]
          show c.pid :: (TCS.take (255 + 1)).flatMap (nodeIds s4 hh) = _
          rw [eTakeN]
        have hN4N : nodeIds s4 (hh + 1) NID =
            NID :: (TCS.drop (255 + 1)).flatMap (nodeIds s hh) := by
          rw [show nodeIds s4 (hh + 1) NID = NID :: (match pageAt s4 NID with
            | .internal _ _ cs => cs.flatMap (nodeIds s4 hh)
            | _ => []) from rfl, hpage4N]
          show NID :: (TCS.drop (255 + 1)).flatMap (nodeIds s4 hh) = _
          rw [eDropN]
        have hLv4pid : leafIds s4 (hh + 1) c.pid =
            (TCS.take (255 + 1)).flatMap (leafIds s hh) := by
          rw [show leafIds s4 (hh + 1) c.pid = (match pageAt s4 c.pid with
            | .internal _ _ cs => cs.flatMap (leafIds s4 hh)
            | _ => []) from rfl, hpage4pid]
          show (TCS.take (255 + 1)).flatMap (leafIds s4 hh) = _
          rw [eTakeLf]
        have hLv4N : leafIds s4 (hh + 1) NID =
            (TCS.drop (255 + 1)).flatMap (leafIds s hh) := by
          rw [show leafIds s4 (hh + 1) NID = (match pageAt s4 NID with
            | .internal _ _ cs => cs.flatMap (leafIds s4 hh)
            | _ => []) from rfl, hpage4N]
          show (TCS.drop (255 + 1)).flatMap (leafIds s4 hh) = _
          rw [eDropLf]
        have hAb4pid : absAt s4 (hh + 1) c.pid =
            (TCS.take (255 + 1)).flatMap (absAt s hh) := by
          rw [show absAt s4 (hh + 1) c.pid = (match pageAt s4 c.pid with
            | .internal _ _ cs => cs.flatMap (absAt s4 hh)
            | _ => []) from rfl, hpage4pid]
          show (TCS.take (255 + 1)).flatMap (absAt s4 hh) = _
          rw [eTakeAb]
        have hAb4N : absAt s4 (hh + 1) NID =
            (TCS.drop (255 + 1)).flatMap (absAt s hh) := by
          rw [show absAt s4 (hh + 1) NID = (match pageAt s4 NID with
            | .internal _ _ cs => cs.flatMap (absAt s4 hh)
            | _ => []) from rfl, hpage4N]
          show (TCS.drop (255 + 1)).flatMap (absAt s4 hh) = _
          rw [eDropAb]
        -- the rest of the context is untouched
        have hroot4 : s4.root = s.root := by
          rw [hreparRoot, hsB3def, setPage_root, hsB2def, setPage_root,
            hsA1def, allocPage_root, hs1def, setParent_root]
        have hctxframe4 : ∀ q ∈ ctxIds s rest (hh + 1),
            pageAt s4 q = pageAt s q := by
          intro q hq
          have hqv := hvalid q (List.mem_cons_of_mem _ (List.mem_append.2
            (Or.inl (List.mem_append.2 (Or.inr hq)))))
          have hqMV : q ∉ TCS.drop (255 + 1) := by
            intro hmem
            rcases hTCS_cases q (List.mem_of_mem_drop hmem) with h | h | h | h
            · exact hdisj2 (List.mem_flatMap.2 ⟨q, List.mem_append.2 (Or.inl h),
                pid_mem_nodeIds s hh q⟩) hq
            · exact hdisj1 (List.mem_append.2 (Or.inr hq)) (List.mem_append.2
                (Or.inl (by rw [h]; exact hlmeml)))
            · exact hdisj1 (List.mem_append.2 (Or.inr hq)) (List.mem_append.2
                (Or.inr (by rw [h]; exact hrmeml)))
            · exact hdisj2 (List.mem_flatMap.2 ⟨q, List.mem_append.2 (Or.inr h),
                pid_mem_nodeIds s hh q⟩) hq
          rw [hreparF q hqMV, hfr13 q (hctx_ne_pid q hq) hqv.2,
            hfr_r q (hctx_ne_r q hq)]
        obtain ⟨hctx4, hcteq4, hctLvL4, hctLvR4, hctAbsL4, hctAbsR4⟩ :=
          ctxOk_frame hroot4 hrestctx hctxframe4
        -- the canonical id permutation after the split
        have hperm4 : (ctxIds s4 rest (hh + 1) ++ (nodeIds s4 (hh + 1) c.pid ++
            nodeIds s4 (hh + 1) NID)).Perm
            (NID :: ((c.pid :: ((c.csL ++ c.csR).flatMap (nodeIds s hh) ++
              ctxIds s rest (hh + 1))) ++
              (nodeIds s hh l ++ nodeIds s hh r))) := by
          rw [hcteq4, hN4pid, hN4N, List.perm_iff_count]
          intro a
          have h1 : List.count a ((TCS.take (255 + 1)).flatMap (nodeIds s hh)) +
              List.count a ((TCS.drop (255 + 1)).flatMap (nodeIds s hh)) =
              List.count a (TCS.flatMap (nodeIds s hh)) := by
            rw [← List.count_append, ← List.flatMap_append, List.take_append_drop]
          have h2 : List.count a (TCS.flatMap (nodeIds s hh)) =
              List.count a ((c.csL ++ c.csR).flatMap (nodeIds s hh)) +
              (List.count a (nodeIds s hh l) + List.count a (nodeIds s hh r)) := by
            rw [hTCSdef]
            simp only [List.flatMap_append, List.flatMap_cons, List.count_append]
            omega
          simp only [List.cons_append, List.count_cons, List.count_append]
          omega
        have hnd_orig : (0 :: ((c.pid :: ((c.csL ++ c.csR).flatMap (nodeIds s hh) ++
            ctxIds s rest (hh + 1))) ++
            (nodeIds s hh l ++ nodeIds s hh r))).Nodup := by
          have h2 := hnodup
          rw [show ctxIds s (c :: rest) hh =
            c.pid :: ((c.csL ++ c.csR).flatMap (nodeIds s hh) ++
              ctxIds s rest (hh + 1)) from rfl] at h2
          exact h2
        have hnd_big : (NID :: ((c.pid :: ((c.csL ++ c.csR).flatMap (nodeIds s hh) ++
            ctxIds s rest (hh + 1))) ++
            (nodeIds s hh l ++ nodeIds s hh r))).Nodup := by
          refine List.nodup_cons.2 ⟨?_, (List.nodup_cons.1 hnd_orig).2⟩
          intro hmem
          have := (hvalid NID hmem).2
          rw [hNIDtoNat] at this
          omega
        have hnodup4 : (0 :: (ctxIds s4 rest (hh + 1) ++
            (nodeIds s4 (hh + 1) c.pid ++ nodeIds s4 (hh + 1) NID))).Nodup := by
          refine List.nodup_cons.2 ⟨?_, hperm4.symm.nodup hnd_big⟩
          intro hmem
          have hmem2 := hperm4.mem_iff.1 hmem
          rcases List.mem_cons.1 hmem2 with h | h
          · omega
          · exact (List.nodup_cons.1 hnd_orig).1 h
        have hvalid4 : ∀ p ∈ ctxIds s4 rest (hh + 1) ++
            (nodeIds s4 (hh + 1) c.pid ++ nodeIds s4 (hh + 1) NID),
            1 ≤ p ∧ p.toNat < s4.pages.length := by
          intro p hp
          rw [hs4len]
          have hmem2 := hperm4.mem_iff.1 hp
          rcases List.mem_cons.1 hmem2 with h | h
          · refine ⟨by rw [h]; omega, ?_⟩
            rw [h, hNIDtoNat]
            omega
          · have h2 := hvalid p h
            exact ⟨h2.1, by omega⟩
        have h0pidB : ¬ ((0 : Int) = c.pid) := by
          have := hvc.1
          omega
        have h0rB : ¬ ((0 : Int) = r) := by
          have := (hvr2 r hrmeml).1
          omega
        have h0MV : (0 : Int) ∉ TCS.drop (255 + 1) := by
          intro hmem
          have := (hTCSmem_self 0 (List.mem_of_mem_drop hmem)).1.1
          omega
        have h0lt : (0 : Int).toNat < s.pages.length := by
          have h1 := hvc.1
          have h2 := hvc.2
          omega
        have hmeta4 : pageAt s4 0 = .meta s4.root := by
          rw [hreparF 0 h0MV, hfr13 0 h0pidB h0lt, hfr_r 0 h0rB, hmeta, hroot4]
        -- the sibling chain: only parent pointers changed
        have hjoinLv : (TCS.take (255 + 1)).flatMap (leafIds s hh) ++
            ((TCS.drop (255 + 1)).flatMap (leafIds s hh) ++
              ctxLvR s rest (hh + 1)) =
            c.csL.flatMap (leafIds s hh) ++ (leafIds s hh l ++ (leafIds s hh r ++
              (c.csR.flatMap (leafIds s hh) ++ ctxLvR s rest (hh + 1)))) := by
          rw [← List.append_assoc, ← List.flatMap_append, List.take_append_drop,
            hTCSdef]
          simp only [List.flatMap_append, List.flatMap_cons, List.append_assoc]
        have hlist4 : ctxLvL s rest (hh + 1) ++
            ((TCS.take (255 + 1)).flatMap (leafIds s hh) ++
              ((TCS.drop (255 + 1)).flatMap (leafIds s hh) ++
                ctxLvR s rest (hh + 1))) =
            ctxLvL s (c :: rest) hh ++ (leafIds s hh l ++ (leafIds s hh r ++
              ctxLvR s (c :: rest) hh)) := by
          rw [hjoinLv]
          rw [show ctxLvL s (c :: rest) hh =
            ctxLvL s rest (hh + 1) ++ c.csL.flatMap (leafIds s hh) from rfl]
          rw [show ctxLvR s (c :: rest) hh =
            c.csR.flatMap (leafIds s hh) ++ ctxLvR s rest (hh + 1) from rfl]
          simp only [List.append_assoc]
        have hchain4 : ChainNext s4 (ctxLvL s4 rest (hh + 1) ++
            (leafIds s4 (hh + 1) c.pid ++ (leafIds s4 (hh + 1) NID ++
              ctxLvR s4 rest (hh + 1)))) := by
          rw [hctLvL4, hctLvR4, hLv4pid, hLv4N, hlist4]
          refine chainNext_frame hchain ?_
          intro a ha
          rw [show ctxLvL s (c :: rest) hh =
            ctxLvL s rest (hh + 1) ++ c.csL.flatMap (leafIds s hh) from rfl,
            show ctxLvR s (c :: rest) hh =
            c.csR.flatMap (leafIds s hh) ++ ctxLvR s rest (hh + 1) from rfl] at ha
          simp only [List.mem_append] at ha
          have hfacts : (1 ≤ a ∧ a.toNat < s.pages.length) ∧ a ≠ c.pid := by
            rcases ha with (ha | ha) | ha | ha | ha | ha
            · exact ⟨hvalid a (List.mem_cons_of_mem _ (List.mem_append.2
                (Or.inl (List.mem_append.2 (Or.inr (ctxLvL_subset a ha)))))),
                hctx_ne_pid a (ctxLvL_subset a ha)⟩
            · rcases List.mem_flatMap.1 ha with ⟨p2, hp2, hq⟩
              have hmem : a ∈ (c.csL ++ c.csR).flatMap (nodeIds s hh) :=
                List.mem_flatMap.2 ⟨p2, List.mem_append.2 (Or.inl hp2),
                  leafIds_subset_nodeIds s hh p2 a hq⟩
              exact ⟨hvalid a (List.mem_cons_of_mem _ (List.mem_append.2
                (Or.inl (List.mem_append.2 (Or.inl hmem))))), hsib_ne_pid a hmem⟩
            · have hmem := leafIds_subset_nodeIds s hh l a ha
              exact ⟨hvl2 a hmem, hql_ne_pid a hmem⟩
            · have hmem := leafIds_subset_nodeIds s hh r a ha
              exact ⟨hvr2 a hmem, hqr_ne_pid a hmem⟩
            · rcases List.mem_flatMap.1 ha with ⟨p2, hp2, hq⟩
              have hmem : a ∈ (c.csL ++ c.csR).flatMap (nodeIds s hh) :=
                List.mem_flatMap.2 ⟨p2, List.mem_append.2 (Or.inr hp2),
                  leafIds_subset_nodeIds s hh p2 a hq⟩
              exact ⟨hvalid a (List.mem_cons_of_mem _ (List.mem_append.2
                (Or.inl (List.mem_append.2 (Or.inl hmem))))), hsib_ne_pid a hmem⟩
            · exact ⟨hvalid a (List.mem_cons_of_mem _ (List.mem_append.2
                (Or.inl (List.mem_append.2 (Or.inr (ctxLvR_subset a ha)))))),
                hctx_ne_pid a (ctxLvR_subset a ha)⟩
          rw [(hreparEN a).2, hfr13 a hfacts.2 hfacts.1.2, hs1def]
          exact (pageAt_setParent r c.pid a).2.2
        have hcomplete4 : ∀ i : Nat, i < s4.pages.length → (i : Int) = 0 ∨
            (i : Int) ∈ ctxIds s4 rest (hh + 1) ++
              (nodeIds s4 (hh + 1) c.pid ++ nodeIds s4 (hh + 1) NID) := by
          intro i hi
          rw [hs4len] at hi
          by_cases hi2 : i < s.pages.length
          · rcases hcomplete i hi2 with h | h
            · exact Or.inl h
            · exact Or.inr (hperm4.mem_iff.2 (List.mem_cons_of_mem _ h))
          · refine Or.inr (hperm4.mem_iff.2 (List.mem_cons.2 (Or.inl ?_)))
            rw [hNIDdef, hs1len]
            have h3 : i = s.pages.length := by omega
            rw [h3]
        have hfuel4 : rest.length + 1 ≤ f := by
          simp only [List.length_cons] at hfuel
          omega
        obtain ⟨H, htreeB, habsB⟩ := ih f s4 (hh + 1) c.pid (TKS.getD 255 0) NID
          c.par c.lb c.ub hctx4 hl4 hr4 hnodup4 hvalid4 hmeta4 hchain4
          hcomplete4 hfuel4
        refine ⟨H, htreeB, ?_⟩
        rw [habsB, hctAbsL4, hctAbsR4, hAb4pid, hAb4N]
        have hjoinAb : (TCS.take (255 + 1)).flatMap (absAt s hh) ++
            ((TCS.drop (255 + 1)).flatMap (absAt s hh) ++
              ctxAbsR s rest (hh + 1)) =
            c.csL.flatMap (absAt s hh) ++ (absAt s hh l ++ (absAt s hh r ++
              (c.csR.flatMap (absAt s hh) ++ ctxAbsR s rest (hh + 1)))) := by
          rw [← List.append_assoc, ← List.flatMap_append, List.take_append_drop,
            hTCSdef]
          simp only [List.flatMap_append, List.flatMap_cons, List.append_assoc]
        rw [hjoinAb]
        rw [show ctxAbsL s (c :: rest) hh =
          ctxAbsL s rest (hh + 1) ++ c.csL.flatMap (absAt s hh) from rfl]
        rw [show ctxAbsR s (c :: rest) hh =
          c.csR.flatMap (absAt s hh) ++ ctxAbsR s rest (hh + 1) from rfl]
        simp only [List.append_assoc]

/-- C2 counterexample: in the store obtained by `Insert(1, "A"); Remove(1)`,
    every leaf entry with key 1 has zero value bytes (key 1 is a tombstone,
    hence "absent" in the claim's sense, and `Search(1)` agrees), yet a second
    `Remove(1)` returns `true`, not `false` as the claim demands: `Remove`
    only tests slot existence, not the tombstone bit. -/
theorem C2_counterexample :
    (∀ p ∈ ((Remove (Insert emptyStore 1 [65]).2 1).2).pages,
        ∀ e ∈ entriesOf p, e.key = 1 → e.value.headD 0 = 0) ∧
    Search (Remove (Insert emptyStore 1 [65]).2 1).2 1 = none ∧
    (Remove (Remove (Insert emptyStore 1 [65]).2 1).2 1).1 = true := by
  refine ⟨by decide, by decide, by decide⟩


/-! ## The abstraction-level effect of the public operations -/

/-- The expected effect of one `Insert` on the key-sorted global entry list:
    overwrite the entry of `key` in place, or insert a new entry at its
    sorted position. -/
def upsertAbs : List LeafEntry → Int → List Nat → List LeafEntry
  | [], key, v => [⟨key, storeBytes v⟩]
  | e :: rest, key, v =>
    if e.key < key then e :: upsertAbs rest key v
    else if e.key = key then ⟨key, storeBytes v⟩ :: rest
    else ⟨key, storeBytes v⟩ :: e :: rest

/-- The expected effect of one successful `Remove`: zero the value bytes of
    the entry of `key` in place. -/
def zeroAbs (es : List LeafEntry) (key : Int) : List LeafEntry :=
  es.map (fun e => if e.key = key then ⟨key, zeroValue⟩ else e)

/-- The answer `Search` is expected to give, read off the global entry
    list. -/
def lookupAbs (es : List LeafEntry) (key : Int) : Option (List Nat) :=
  match es.find? (fun e => decide (e.key = key)) with
  | some e => if e.value.headD 0 ≠ 0 then some (cstr e.value) else none
  | none => none

/-- The answer `Scan` is expected to give: the live entries with keys in
    `[a, b]`, in order. -/
def scanPure (a b : Int) (es : List LeafEntry) : List (Int × List Nat) :=
  (es.filter (fun e => decide (a ≤ e.key) && decide (e.key ≤ b) &&
    !(e.value.headD 0 == 0))).map (fun e => (e.key, cstr e.value))

theorem upsertAbs_cons (e : LeafEntry) (rest : List LeafEntry) (key : Int) (v : List Nat) :
    upsertAbs (e :: rest) key v =
    if e.key < key then e :: upsertAbs rest key v
    else if e.key = key then ⟨key, storeBytes v⟩ :: rest
    else ⟨key, storeBytes v⟩ :: e :: rest := rfl

theorem upsertAbs_append_left {A rest : List LeafEntry} {key : Int} (v : List Nat)
    (hA : ∀ e ∈ A, e.key < key) :
    upsertAbs (A ++ rest) key v = A ++ upsertAbs rest key v := by
  induction A with
  | nil => rfl
  | cons a A ih =>
    rw [List.cons_append, upsertAbs_cons, if_pos (hA a (by simp)),
      ih (fun e he => hA e (List.mem_cons_of_mem _ he)), List.cons_append]

theorem upsertAbs_append_right {es B : List LeafEntry} {key : Int} (v : List Nat)
    (hB : ∀ e ∈ B, key < e.key) :
    upsertAbs (es ++ B) key v = upsertAbs es key v ++ B := by
  induction es with
  | nil =>
    cases B with
    | nil => rfl
    | cons b B2 =>
      rw [List.nil_append, upsertAbs_cons,
        if_neg (by have := hB b (by simp); omega),
        if_neg (by have := hB b (by simp); omega)]
      rfl
  | cons e es ih =>
    rw [List.cons_append, upsertAbs_cons, upsertAbs_cons]
    by_cases h1 : e.key < key
    · rw [if_pos h1, if_pos h1, ih, List.cons_append]
    · rw [if_neg h1, if_neg h1]
      by_cases h2 : e.key = key
      · rw [if_pos h2, if_pos h2, List.cons_append]
      · rw [if_neg h2, if_neg h2]
        rfl

/-- Take/drop around the number of keys `< key` in a sorted entry list. -/
theorem entries_take_drop (key : Int) :
    ∀ {es : List LeafEntry}, List.Pairwise (fun a b => a.key < b.key) es →
    (∀ e ∈ es.take (es.countP (fun e => decide (e.key < key))), e.key < key) ∧
    (∀ e ∈ es.drop (es.countP (fun e => decide (e.key < key))), key ≤ e.key) := by
  intro es
  induction es with
  | nil => intro _; exact ⟨by simp, by simp⟩
  | cons a es ih =>
    intro hs
    rw [List.pairwise_cons] at hs
    obtain ⟨ih1, ih2⟩ := ih hs.2
    by_cases hak : a.key < key
    · have hcnt : (a :: es).countP (fun e => decide (e.key < key)) =
          es.countP (fun e => decide (e.key < key)) + 1 := by
        rw [List.countP_cons]
        simp [hak]
      rw [hcnt]
      constructor
      · intro b hb
        rw [List.take_succ_cons] at hb
        rcases List.mem_cons.1 hb with hb | hb
        · exact hb ▸ hak
        · exact ih1 b hb
      · intro b hb
        rw [List.drop_succ_cons] at hb
        exact ih2 b hb
    · have hcz : es.countP (fun e => decide (e.key < key)) = 0 := by
        rw [List.countP_eq_zero]
        intro x hx
        have := hs.1 x hx
        simp only [decide_eq_true_eq]
        omega
      have hcnt : (a :: es).countP (fun e => decide (e.key < key)) = 0 := by
        rw [List.countP_cons, hcz]
        simp [hak]
      rw [hcnt]
      refine ⟨by simp, ?_⟩
      intro b hb
      rw [List.drop_zero] at hb
      rcases List.mem_cons.1 hb with hb | hb
      · subst hb
        omega
      · have := hs.1 b hb
        omega

/-- On a sorted list with `key` absent, `upsertAbs` inserts at the sorted
    position. -/
theorem upsertAbs_insert (key : Int) (v : List Nat) :
    ∀ {es : List LeafEntry}, List.Pairwise (fun a b => a.key < b.key) es →
    (∀ e ∈ es, e.key ≠ key) →
    upsertAbs es key v =
      es.take (es.countP (fun e => decide (e.key < key))) ++
      ⟨key, storeBytes v⟩ :: es.drop (es.countP (fun e => decide (e.key < key))) := by
  intro es
  induction es with
  | nil => intro _ _; rfl
  | cons a es ih =>
    intro hs habs
    rw [List.pairwise_cons] at hs
    by_cases hak : a.key < key
    · have hcnt : (a :: es).countP (fun e => decide (e.key < key)) =
          es.countP (fun e => decide (e.key < key)) + 1 := by
        rw [List.countP_cons]
        simp [hak]
      rw [hcnt, upsertAbs_cons, if_pos hak,
        ih hs.2 (fun e he => habs e (List.mem_cons_of_mem _ he)),
        List.take_succ_cons, List.drop_succ_cons, List.cons_append]
    · have hcz : es.countP (fun e => decide (e.key < key)) = 0 := by
        rw [List.countP_eq_zero]
        intro x hx
        have := hs.1 x hx
        simp only [decide_eq_true_eq]
        omega
      have hcnt : (a :: es).countP (fun e => decide (e.key < key)) = 0 := by
        rw [List.countP_cons, hcz]
        simp [hak]
      have hne := habs a (by simp)
      rw [hcnt, upsertAbs_cons, if_neg hak, if_neg hne, List.take_zero,
        List.drop_zero, List.nil_append]

/-- On a sorted list with `key` present, `upsertAbs` overwrites in place. -/
theorem upsertAbs_found (key : Int) (v : List Nat) :
    ∀ {es : List LeafEntry}, List.Pairwise (fun a b => a.key < b.key) es →
    ∀ e0 ∈ es, e0.key = key →
    upsertAbs es key v =
      es.set (es.countP (fun e => decide (e.key < key))) ⟨key, storeBytes v⟩ := by
  intro es
  induction es with
  | nil =>
    intro _ e0 he _
    simp at he
  | cons a es ih =>
    intro hs e0 he0 hk
    rw [List.pairwise_cons] at hs
    rcases List.mem_cons.1 he0 with he | he
    · subst he
      have hcz : es.countP (fun e => decide (e.key < key)) = 0 := by
        rw [List.countP_eq_zero]
        intro x hx
        have := hs.1 x hx
        simp only [decide_eq_true_eq]
        omega
      have hcnt : (e0 :: es).countP (fun e => decide (e.key < key)) = 0 := by
        rw [List.countP_cons, hcz]
        simp [hk]
      rw [hcnt, upsertAbs_cons, if_neg (by omega), if_pos hk, List.set_cons_zero]
    · have hak : a.key < key := by
        have := hs.1 e0 he
        omega
      have hcnt : (a :: es).countP (fun e => decide (e.key < key)) =
          es.countP (fun e => decide (e.key < key)) + 1 := by
        rw [List.countP_cons]
        simp [hak]
      rw [hcnt, upsertAbs_cons, if_pos hak, ih hs.2 e0 he hk, List.set_cons_succ]

/-- Sorted-ness of a list with one entry spliced between a lower and an
    upper part. -/
theorem pairwise_mid {A B : List LeafEntry} {key : Int} (sb : List Nat)
    (hA : List.Pairwise (fun a b => a.key < b.key) A)
    (hB : List.Pairwise (fun a b => a.key < b.key) B)
    (hAk : ∀ e ∈ A, e.key < key) (hkB : ∀ e ∈ B, key < e.key) :
    List.Pairwise (fun a b => a.key < b.key)
      (A ++ (⟨key, sb⟩ : LeafEntry) :: B) := by
  rw [List.pairwise_append]
  refine ⟨hA, ?_, ?_⟩
  · rw [List.pairwise_cons]
    exact ⟨fun e he => hkB e he, hB⟩
  · intro x hx y hy
    rcases List.mem_cons.1 hy with hy | hy
    · have h2 := congrArg LeafEntry.key hy
      have h1 := hAk x hx
      simp only at h2
      omega
    · have h1 := hAk x hx
      have h2 := hkB y hy
      omega

/-- Every entry of the upserted list is an old entry or the new one. -/
theorem upsertAbs_mem {key : Int} {v : List Nat} :
    ∀ {es : List LeafEntry}, ∀ e ∈ upsertAbs es key v,
    e ∈ es ∨ e = (⟨key, storeBytes v⟩ : LeafEntry) := by
  intro es
  induction es with
  | nil =>
    intro e he
    rw [show upsertAbs [] key v = [⟨key, storeBytes v⟩] from rfl] at he
    exact Or.inr (List.mem_singleton.1 he)
  | cons a es ih =>
    intro e he
    rw [upsertAbs_cons] at he
    by_cases h1 : a.key < key
    · rw [if_pos h1] at he
      rcases List.mem_cons.1 he with he | he
      · exact Or.inl (he ▸ List.mem_cons_self _ _)
      · rcases ih e he with h | h
        · exact Or.inl (List.mem_cons_of_mem _ h)
        · exact Or.inr h
    · rw [if_neg h1] at he
      by_cases h2 : a.key = key
      · rw [if_pos h2] at he
        rcases List.mem_cons.1 he with he | he
        · exact Or.inr he
        · exact Or.inl (List.mem_cons_of_mem _ he)
      · rw [if_neg h2] at he
        rcases List.mem_cons.1 he with he | he
        · exact Or.inr he
        · exact Or.inl he

theorem upsertAbs_ne_nil (key : Int) (v : List Nat) :
    ∀ (es : List LeafEntry), upsertAbs es key v ≠ [] := by
  intro es
  cases es with
  | nil => simp [upsertAbs]
  | cons a es =>
    rw [upsertAbs_cons]
    split
    · simp
    · split <;> simp

/-- The raw byte array written by `LeafInsert` is well-formed. -/
theorem valWF_storeBytes (v : List Nat) : ValWF (storeBytes v) := by
  have hlen : (cstrTrunc v).length ≤ VALUE_SIZE - 1 := by
    unfold cstrTrunc
    rw [List.length_take]
    omega
  have hcstr : cstr (storeBytes v) = cstrTrunc v := by
    unfold cstr storeBytes
    refine takeWhile_append_eq ?_ ?_
    · intro x hx
      have hx2 : x ∈ v.takeWhile (fun y => decide (y ≠ 0)) := List.mem_of_mem_take hx
      simpa using List.mem_takeWhile_imp hx2
    · right
      refine ⟨0, List.replicate (VALUE_SIZE - (cstrTrunc v).length - 1) 0, ?_, ?_⟩
      · conv_lhs => rw [show VALUE_SIZE - (cstrTrunc v).length =
          (VALUE_SIZE - (cstrTrunc v).length - 1) + 1 from by
            norm_num [VALUE_SIZE] at hlen ⊢
            omega]
        rw [List.replicate_succ]
      · simp
  constructor
  · unfold storeBytes
    rw [List.length_append, List.length_replicate]
    norm_num [VALUE_SIZE] at hlen ⊢
    omega
  · rw [hcstr]
    rfl

/-- Sorted-ness is preserved by `upsertAbs`. -/
theorem upsertAbs_sorted {es : List LeafEntry} {key : Int} (v : List Nat)
    (hs : List.Pairwise (fun a b => a.key < b.key) es) :
    List.Pairwise (fun a b => a.key < b.key) (upsertAbs es key v) := by
  by_cases hf : ∃ e0 ∈ es, e0.key = key
  · obtain ⟨e0, he0, hk⟩ := hf
    rw [upsertAbs_found key v hs e0 he0 hk]
    have htd := entries_take_drop key hs
    set cnt := es.countP (fun e => decide (e.key < key)) with hcntdef
    have hlt : cnt < es.length := by
      by_contra hcon
      have hdn : es.drop cnt = [] := List.drop_eq_nil_of_le (by omega)
      have he0d : e0 ∈ es.drop cnt := by
        rcases List.mem_append.1
            (by rw [List.take_append_drop]; exact he0 :
              e0 ∈ es.take cnt ++ es.drop cnt) with h | h
        · have := htd.1 e0 h
          omega
        · exact h
      rw [hdn] at he0d
      simp at he0d
    rw [List.set_eq_take_append_cons_drop, if_pos hlt]
    have hdec := drop_decomp default hlt
    refine pairwise_mid _ (hs.sublist (List.take_sublist _ _))
      (hs.sublist (List.drop_sublist _ _)) ?_ ?_
    · exact htd.1
    · -- entries after position cnt exceed the key found there
      have hks : (es.getD cnt default).key = key := by
        have hgd : es.getD cnt default ∈ es.getD cnt default :: es.drop (cnt + 1) :=
          List.mem_cons_self _ _
        have hge : key ≤ (es.getD cnt default).key := by
          refine htd.2 _ ?_
          rw [getD_eq_get hlt, List.drop_eq_getElem_cons hlt]
          exact List.mem_cons_self _ _
        have he0d : e0 ∈ es.drop cnt := by
          rcases List.mem_append.1
              (by rw [List.take_append_drop]; exact he0 :
                e0 ∈ es.take cnt ++ es.drop cnt) with h | h
          · have := htd.1 e0 h
            omega
          · exact h
        rw [getD_eq_get hlt]
        rw [List.drop_eq_getElem_cons hlt] at he0d
        rcases List.mem_cons.1 he0d with h | h
        · rw [← h, hk]
        · have hp : List.Pairwise (fun a b => a.key < b.key) (es.drop cnt) :=
            hs.sublist (List.drop_sublist _ _)
          rw [List.drop_eq_getElem_cons hlt, List.pairwise_cons] at hp
          have := hp.1 e0 h
          rw [getD_eq_get hlt] at hge
          omega
      intro e he
      have hp : List.Pairwise (fun a b => a.key < b.key) (es.drop cnt) :=
        hs.sublist (List.drop_sublist _ _)
      rw [List.drop_eq_getElem_cons hlt, List.pairwise_cons] at hp
      have := hp.1 e he
      rw [getD_eq_get hlt] at hks
      omega
  · push_neg at hf
    rw [upsertAbs_insert key v hs hf]
    have htd := entries_take_drop key hs
    refine pairwise_mid _ (hs.sublist (List.take_sublist _ _))
      (hs.sublist (List.drop_sublist _ _)) htd.1 ?_
    intro e he
    have h1 := htd.2 e he
    have h2 := hf e (List.mem_of_mem_drop he)
    omega

/-- The `LeafInsert`/`Search`/`Remove` hit test succeeds exactly when the key
    is present (sorted entries). -/
theorem leaf_found_iff {es : List LeafEntry} {key : Int}
    (hs : List.Pairwise (fun a b => a.key < b.key) es) :
    (LeafFindKey es key < es.length ∧
      (es.getD (LeafFindKey es key) default).key = key) ↔
    ∃ e ∈ es, e.key = key := by
  rw [leafFindKey_count hs]
  have htd := entries_take_drop key hs
  set cnt := es.countP (fun e => decide (e.key < key)) with hcntdef
  constructor
  · rintro ⟨h1, h2⟩
    refine ⟨es.getD cnt default, ?_, h2⟩
    rw [getD_eq_get h1]
    exact List.getElem_mem _
  · rintro ⟨e0, he0, hk⟩
    have he0d : e0 ∈ es.drop cnt := by
      rcases List.mem_append.1
          (by rw [List.take_append_drop]; exact he0 :
            e0 ∈ es.take cnt ++ es.drop cnt) with h | h
      · have := htd.1 e0 h
        omega
      · exact h
    have hlt : cnt < es.length := by
      by_contra hcon
      have hdn : es.drop cnt = [] := List.drop_eq_nil_of_le (by omega)
      rw [hdn] at he0d
      simp at he0d
    refine ⟨hlt, ?_⟩
    have hge : key ≤ (es.getD cnt default).key := by
      refine htd.2 _ ?_
      rw [getD_eq_get hlt, List.drop_eq_getElem_cons hlt]
      exact List.mem_cons_self _ _
    rw [List.drop_eq_getElem_cons hlt] at he0d
    rcases List.mem_cons.1 he0d with h | h
    · have h2 := congrArg LeafEntry.key h
      simp only at h2
      rw [getD_eq_get hlt]
      omega
    · have hp : List.Pairwise (fun a b => a.key < b.key) (es.drop cnt) :=
        hs.sublist (List.drop_sublist _ _)
      rw [List.drop_eq_getElem_cons hlt, List.pairwise_cons] at hp
      have := hp.1 e0 h
      rw [getD_eq_get hlt] at hge
      rw [getD_eq_get hlt]
      omega

/-- `LeafInsert` on sorted entries is exactly the sorted upsert. -/
theorem leafInsert_eq_upsert {es : List LeafEntry} {key : Int} (v : List Nat)
    (hs : List.Pairwise (fun a b => a.key < b.key) es) :
    LeafInsert es key v = upsertAbs es key v := by
  show (if LeafFindKey es key < es.length ∧
      (es.getD (LeafFindKey es key) default).key = key then
      es.set (LeafFindKey es key) ⟨key, storeBytes v⟩
    else
      es.take (LeafFindKey es key) ++
        ⟨key, storeBytes v⟩ :: es.drop (LeafFindKey es key)) = upsertAbs es key v
  by_cases hf : LeafFindKey es key < es.length ∧
      (es.getD (LeafFindKey es key) default).key = key
  · rw [if_pos hf]
    obtain ⟨e0, he0, hk⟩ := (leaf_found_iff hs).1 hf
    rw [upsertAbs_found key v hs e0 he0 hk, leafFindKey_count hs]
  · rw [if_neg hf]
    have habs : ∀ e ∈ es, e.key ≠ key := by
      intro e he hk
      exact hf ((leaf_found_iff hs).2 ⟨e, he, hk⟩)
    rw [upsertAbs_insert key v hs habs, leafFindKey_count hs]

theorem upsertAbs_length_found {es : List LeafEntry} {key : Int} (v : List Nat)
    (hs : List.Pairwise (fun a b => a.key < b.key) es)
    (hf : ∃ e ∈ es, e.key = key) :
    (upsertAbs es key v).length = es.length := by
  obtain ⟨e0, he0, hk⟩ := hf
  rw [upsertAbs_found key v hs e0 he0 hk, List.length_set]

theorem upsertAbs_length_insert {es : List LeafEntry} {key : Int} (v : List Nat)
    (hs : List.Pairwise (fun a b => a.key < b.key) es)
    (habs : ∀ e ∈ es, e.key ≠ key) :
    (upsertAbs es key v).length = es.length + 1 := by
  rw [upsertAbs_insert key v hs habs]
  rw [List.length_append, List.length_cons, List.length_take, List.length_drop]
  have := List.countP_le_length (l := es) (p := fun e => decide (e.key < key))
  omega

/-- `find?` at the upserted key returns the new entry. -/
theorem find_upsert_self {key : Int} (v : List Nat) :
    ∀ {es : List LeafEntry}, List.Pairwise (fun a b => a.key < b.key) es →
    (upsertAbs es key v).find? (fun e => decide (e.key = key)) =
      some ⟨key, storeBytes v⟩ := by
  intro es
  induction es with
  | nil =>
    intro _
    rw [show upsertAbs [] key v = [⟨key, storeBytes v⟩] from rfl]
    exact List.find?_cons_of_pos _ (by simp)
  | cons a es ih =>
    intro hs
    rw [List.pairwise_cons] at hs
    rw [upsertAbs_cons]
    by_cases h1 : a.key < key
    · rw [if_pos h1, List.find?_cons_of_neg _ (by simp; omega)]
      exact ih hs.2
    · rw [if_neg h1]
      by_cases h2 : a.key = key
      · rw [if_pos h2]
        exact List.find?_cons_of_pos _ (by simp)
      · rw [if_neg h2]
        exact List.find?_cons_of_pos _ (by simp)

/-- `find?` at another key is unchanged by the upsert. -/
theorem find_upsert_other {key k2 : Int} (v : List Nat) (hne : k2 ≠ key) :
    ∀ (es : List LeafEntry),
    (upsertAbs es key v).find? (fun e => decide (e.key = k2)) =
      es.find? (fun e => decide (e.key = k2)) := by
  intro es
  induction es with
  | nil =>
    rw [show upsertAbs [] key v = [⟨key, storeBytes v⟩] from rfl]
    rw [List.find?_cons_of_neg _ (by simp; omega)]
  | cons a es ih =>
    rw [upsertAbs_cons]
    by_cases h1 : a.key < key
    · rw [if_pos h1]
      by_cases hm : a.key = k2
      · rw [List.find?_cons_of_pos _ (by simp [hm]),
          List.find?_cons_of_pos _ (by simp [hm])]
      · rw [List.find?_cons_of_neg _ (by simp [hm]),
          List.find?_cons_of_neg _ (by simp [hm])]
        exact ih
    · rw [if_neg h1]
      by_cases h2 : a.key = key
      · rw [if_pos h2]
        rw [List.find?_cons_of_neg _ (by simp; omega),
          List.find?_cons_of_neg _ (by simp [h2]; omega)]
      · rw [if_neg h2]
        rw [List.find?_cons_of_neg _ (by simp; omega)]

/-- Reading back a freshly stored value yields the truncated C string. -/
theorem cstr_storeBytes (v : List Nat) : cstr (storeBytes v) = cstrTrunc v := by
  have hlen : (cstrTrunc v).length ≤ VALUE_SIZE - 1 := by
    unfold cstrTrunc
    rw [List.length_take]
    omega
  unfold cstr storeBytes
  refine takeWhile_append_eq ?_ ?_
  · intro x hx
    have hx2 : x ∈ v.takeWhile (fun y => decide (y ≠ 0)) := List.mem_of_mem_take hx
    simpa using List.mem_takeWhile_imp hx2
  · right
    refine ⟨0, List.replicate (VALUE_SIZE - (cstrTrunc v).length - 1) 0, ?_, ?_⟩
    · conv_lhs => rw [show VALUE_SIZE - (cstrTrunc v).length =
        (VALUE_SIZE - (cstrTrunc v).length - 1) + 1 from by
          norm_num [VALUE_SIZE] at hlen ⊢
          omega]
      rw [List.replicate_succ]
    · simp

theorem headD_storeBytes (v : List Nat) :
    (storeBytes v).headD 0 = (cstrTrunc v).headD 0 := by
  unfold storeBytes
  cases hc : cstrTrunc v with
  | nil =>
    rw [List.nil_append]
    rfl
  | cons x xs => rfl

/-- `lookupAbs` right after an upsert at the same key. -/
theorem lookup_upsert_self {es : List LeafEntry} {key : Int} (v : List Nat)
    (hs : List.Pairwise (fun a b => a.key < b.key) es) :
    lookupAbs (upsertAbs es key v) key =
      if (cstrTrunc v).headD 0 ≠ 0 then some (cstrTrunc v) else none := by
  unfold lookupAbs
  rw [find_upsert_self v hs]
  show (if (storeBytes v).headD 0 ≠ 0 then some (cstr (storeBytes v)) else none) = _
  rw [headD_storeBytes, cstr_storeBytes]

/-- `lookupAbs` at a different key is unchanged by an upsert. -/
theorem lookup_upsert_other {es : List LeafEntry} {key k2 : Int} (v : List Nat)
    (hne : k2 ≠ key) :
    lookupAbs (upsertAbs es key v) k2 = lookupAbs es k2 := by
  unfold lookupAbs
  rw [find_upsert_other v hne es]

/-- Every `zeroAbs` entry at the removed key carries the zeroed value. -/
theorem zeroAbs_mem_key {es : List LeafEntry} {key : Int} :
    ∀ e ∈ zeroAbs es key, e.key = key → e.value = zeroValue := by
  intro e he hk
  rcases List.mem_map.1 he with ⟨e0, he0, heq⟩
  by_cases h0 : e0.key = key
  · rw [if_pos h0] at heq
    rw [← heq]
  · rw [if_neg h0] at heq
    rw [← heq] at hk
    exact absurd hk h0

/-- The keys of `zeroAbs` entries are the original keys. -/
theorem find_zeroAbs_other {key k2 : Int} (hne : k2 ≠ key) :
    ∀ (es : List LeafEntry),
    (zeroAbs es key).find? (fun e => decide (e.key = k2)) =
      es.find? (fun e => decide (e.key = k2)) := by
  intro es
  induction es with
  | nil => rfl
  | cons e0 es ih =>
    rw [show zeroAbs (e0 :: es) key =
      (if e0.key = key then (⟨key, zeroValue⟩ : LeafEntry) else e0) ::
        zeroAbs es key from rfl]
    by_cases hm : e0.key = k2
    · have h0 : ¬ e0.key = key := by omega
      rw [if_neg h0, List.find?_cons_of_pos _ (by simp [hm]),
        List.find?_cons_of_pos _ (by simp [hm])]
    · by_cases h0 : e0.key = key
      · rw [if_pos h0, List.find?_cons_of_neg _ (by simp; omega),
          List.find?_cons_of_neg _ (by simp [hm])]
        exact ih
      · rw [if_neg h0, List.find?_cons_of_neg _ (by simp [hm]),
          List.find?_cons_of_neg _ (by simp [hm])]
        exact ih

theorem lookup_zeroAbs_self (es : List LeafEntry) (key : Int) :
    lookupAbs (zeroAbs es key) key = none := by
  unfold lookupAbs
  cases hf : (zeroAbs es key).find? (fun e => decide (e.key = key)) with
  | none => rfl
  | some e =>
    have hk : e.key = key := by
      have := List.find?_some hf
      simpa using this
    have hv : e.value = zeroValue :=
      zeroAbs_mem_key e (List.mem_of_find?_eq_some hf) hk
    show (if e.value.headD 0 ≠ 0 then some (cstr e.value) else none) = none
    rw [if_neg (by rw [hv]; decide)]

theorem lookup_zeroAbs_other {key k2 : Int} (hne : k2 ≠ key) (es : List LeafEntry) :
    lookupAbs (zeroAbs es key) k2 = lookupAbs es k2 := by
  unfold lookupAbs
  rw [find_zeroAbs_other hne es]

theorem scanPure_append (a b : Int) (A B : List LeafEntry) :
    scanPure a b (A ++ B) = scanPure a b A ++ scanPure a b B := by
  unfold scanPure
  rw [List.filter_append, List.map_append]

theorem scanPure_nil_lt {a b : Int} {A : List LeafEntry}
    (h : ∀ e ∈ A, e.key < a) : scanPure a b A = [] := by
  unfold scanPure
  have hf : A.filter (fun e => decide (a ≤ e.key) && decide (e.key ≤ b) &&
      !(e.value.headD 0 == 0)) = [] := by
    rw [List.filter_eq_nil_iff]
    intro e he hcon
    rw [Bool.and_eq_true, Bool.and_eq_true] at hcon
    have h1 := of_decide_eq_true hcon.1.1
    have h2 := h e he
    omega
  rw [hf]
  rfl

theorem scanPure_nil_gt {a b : Int} {A : List LeafEntry}
    (h : ∀ e ∈ A, b < e.key) : scanPure a b A = [] := by
  unfold scanPure
  have hf : A.filter (fun e => decide (a ≤ e.key) && decide (e.key ≤ b) &&
      !(e.value.headD 0 == 0)) = [] := by
    rw [List.filter_eq_nil_iff]
    intro e he hcon
    rw [Bool.and_eq_true, Bool.and_eq_true] at hcon
    have h1 := of_decide_eq_true hcon.1.2
    have h2 := h e he
    omega
  rw [hf]
  rfl

/-- A removed key never appears in the expected scan output. -/
theorem scanPure_zeroAbs_ne (a b : Int) (es : List LeafEntry) (key : Int) :
    ∀ p ∈ scanPure a b (zeroAbs es key), p.1 ≠ key := by
  intro p hp hkey
  unfold scanPure at hp
  rcases List.mem_map.1 hp with ⟨e, hef, hpe⟩
  have hmem := List.mem_of_mem_filter hef
  have hq := List.of_mem_filter hef
  rw [Bool.and_eq_true] at hq
  have hlive := hq.2
  have hk : e.key = key := by
    rw [← hpe] at hkey
    exact hkey
  have hv := zeroAbs_mem_key e hmem hk
  rw [hv] at hlive
  exact absurd hlive (by decide)

/-- `find?` for a key on a sorted entry list, in terms of the hit test. -/
theorem find_sorted_eq {es : List LeafEntry} {key : Int}
    (hs : List.Pairwise (fun a b => a.key < b.key) es) :
    es.find? (fun e => decide (e.key = key)) =
    if LeafFindKey es key < es.length ∧
        (es.getD (LeafFindKey es key) default).key = key then
      some (es.getD (LeafFindKey es key) default)
    else none := by
  by_cases hf : ∃ e ∈ es, e.key = key
  · rw [if_pos ((leaf_found_iff hs).2 hf)]
    obtain ⟨hlt, hkey⟩ := (leaf_found_iff hs).2 hf
    rw [leafFindKey_count hs] at hlt hkey ⊢
    have htd := entries_take_drop key hs
    set cnt := es.countP (fun e => decide (e.key < key)) with hcntdef
    have hdec : es = es.take cnt ++ es.getD cnt default :: es.drop (cnt + 1) :=
      drop_decomp default hlt
    have htn : (es.take cnt).find? (fun e => decide (e.key = key)) = none := by
      rw [List.find?_eq_none]
      intro x hx
      have := htd.1 x hx
      simp only [decide_eq_true_eq]
      omega
    conv_lhs => rw [hdec]
    rw [List.find?_append, htn, Option.none_or,
      List.find?_cons_of_pos _ (by simpa using hkey)]
  · rw [if_neg (fun hcon => hf ((leaf_found_iff hs).1 hcon))]
    rw [List.find?_eq_none]
    intro x hx
    push_neg at hf
    have := hf x hx
    simp only [decide_eq_true_eq]
    exact this

/-- Locating the leaf of `key` in a well-formed tree: the descent context,
    its bounds and the global decompositions. -/
theorem tree_locate {s : Store} {h : Nat} (ht : TreeOk s h) (key : Int) :
    ∃ ctx2 lb2 ub2 nx es,
      pageAt s (FindLeafPage s key) = .leaf nx (ctxPar ctx2) es ∧
      CtxOk s ctx2 (FindLeafPage s key) 0 lb2 ub2 ∧
      SubOk s 0 (FindLeafPage s key) (ctxPar ctx2) lb2 ub2 ∧
      lbOk lb2 key ∧ ubOk ub2 key ∧
      ctx2.length = h ∧
      (ctxIds s ctx2 0 ++ [FindLeafPage s key]).Perm (nodeIds s h s.root) ∧
      ctxLvL s ctx2 0 ++ [FindLeafPage s key] ++ ctxLvR s ctx2 0 =
        leafIds s h s.root ∧
      ctxAbsL s ctx2 0 ++ es ++ ctxAbsR s ctx2 0 = absOf s := by
  have hsub0 : SubOk s h s.root (ctxPar []) none none := ht.sub
  have hctx0 : CtxOk s [] s.root h none none := ⟨rfl, rfl, rfl⟩
  obtain ⟨ctx2, lb2, ub2, c1, c2, c3, c4, c5, c6, c7, c8⟩ :=
    findLeaf_ctx key hsub0 hctx0 trivial trivial
      (le_of_lt (treeOk_height_lt ht))
  rw [show findLeafFrom s s.pages.length s.root key = FindLeafPage s key from rfl]
    at c1 c2 c6 c7 c8
  obtain ⟨nx, es, hpg, hrest⟩ := c2
  refine ⟨ctx2, lb2, ub2, nx, es, hpg, c1, ⟨nx, es, hpg, hrest⟩, c3, c4, ?_, ?_, ?_, ?_⟩
  · simpa using c5
  · have := c6
    rw [show ctxIds s ([] : List Crumb) h = [] from rfl] at this
    rw [show nodeIds s 0 (FindLeafPage s key) = [FindLeafPage s key] from rfl] at this
    simpa using this
  · have := c7
    rw [show ctxLvL s ([] : List Crumb) h = [] from rfl,
      show ctxLvR s ([] : List Crumb) h = [] from rfl,
      show leafIds s 0 (FindLeafPage s key) = [FindLeafPage s key] from rfl] at this
    simpa using this
  · have := c8
    rw [show ctxAbsL s ([] : List Crumb) h = [] from rfl,
      show ctxAbsR s ([] : List Crumb) h = [] from rfl,
      show absAt s 0 (FindLeafPage s key) = entriesOf (pageAt s (FindLeafPage s key))
        from rfl, hpg,
      show entriesOf (.leaf nx (ctxPar ctx2) es) = es from rfl] at this
    rw [absOf_eq ht]
    simpa using this

/-- Entries left of the located leaf are below the key; entries right of it
    are above. -/
theorem ctx_bounds_key {s : Store} {ctx2 : List Crumb} {hole : Int}
    {lb2 ub2 : Option Int} {key : Int}
    (hctx : CtxOk s ctx2 hole 0 lb2 ub2)
    (hlb : lbOk lb2 key) (hub : ubOk ub2 key) :
    (∀ e ∈ ctxAbsL s ctx2 0, e.key < key) ∧
    (∀ e ∈ ctxAbsR s ctx2 0, key < e.key) := by
  obtain ⟨hL, hR⟩ := ctx_abs_bounds hctx
  constructor
  · intro e he
    obtain ⟨a', heq, hlt⟩ := hL e he
    rw [heq] at hlb
    have : a' ≤ key := hlb
    omega
  · intro e he
    obtain ⟨b', heq, hge⟩ := hR e he
    rw [heq] at hub
    have : key < b' := hub
    omega

/-- `Search` under the tree invariant is lookup on the global entry list. -/
theorem search_abs {s : Store} {h : Nat} (ht : TreeOk s h) (key : Int) :
    Search s key = lookupAbs (absOf s) key := by
  obtain ⟨ctx2, lb2, ub2, nx, es, hpg, hctx2, hsub2, hlb2, hub2, hlen2,
    hperm2, hlv2, habs2⟩ := tree_locate ht key
  obtain ⟨hbL, hbR⟩ := ctx_bounds_key hctx2 hlb2 hub2
  have hne : ¬ (s.root = INVALID_PAGE_ID) := by
    have := ht.root1
    intro hc
    rw [hc] at this
    norm_num [INVALID_PAGE_ID] at this
  have hef : EntryFacts es lb2 ub2 := by
    have h2 := subOk_entryFacts hsub2
    rw [show absAt s 0 (FindLeafPage s key) =
      entriesOf (pageAt s (FindLeafPage s key)) from rfl, hpg] at h2
    exact h2
  obtain ⟨hesne, hsort, hbnd⟩ := hef
  unfold Search
  rw [if_neg hne]
  show (if LeafFindKey (entriesOf (pageAt s (FindLeafPage s key))) key <
        (entriesOf (pageAt s (FindLeafPage s key))).length ∧
      ((entriesOf (pageAt s (FindLeafPage s key))).getD
        (LeafFindKey (entriesOf (pageAt s (FindLeafPage s key))) key) default).key
        = key then
      if ((entriesOf (pageAt s (FindLeafPage s key))).getD
          (LeafFindKey (entriesOf (pageAt s (FindLeafPage s key))) key)
          default).value.headD 0 ≠ 0 then
        some (cstr ((entriesOf (pageAt s (FindLeafPage s key))).getD
          (LeafFindKey (entriesOf (pageAt s (FindLeafPage s key))) key)
          default).value)
      else none
    else none) = lookupAbs (absOf s) key
  rw [hpg]
  show (if LeafFindKey es key < es.length ∧
      (es.getD (LeafFindKey es key) default).key = key then
      if (es.getD (LeafFindKey es key) default).value.headD 0 ≠ 0 then
        some (cstr (es.getD (LeafFindKey es key) default).value)
      else none
    else none) = lookupAbs (absOf s) key
  rw [← habs2]
  unfold lookupAbs
  rw [show ctxAbsL s ctx2 0 ++ es ++ ctxAbsR s ctx2 0 =
    ctxAbsL s ctx2 0 ++ (es ++ ctxAbsR s ctx2 0) from by rw [List.append_assoc]]
  rw [List.find?_append,
    show (ctxAbsL s ctx2 0).find? (fun e => decide (e.key = key)) = none from by
      rw [List.find?_eq_none]
      intro x hx
      have := hbL x hx
      simp only [decide_eq_true_eq]
      omega,
    Option.none_or, List.find?_append, find_sorted_eq hsort]
  by_cases hf : LeafFindKey es key < es.length ∧
      (es.getD (LeafFindKey es key) default).key = key
  · rw [if_pos hf, if_pos hf]
    rfl
  · rw [if_neg hf, if_neg hf, Option.none_or,
      show (ctxAbsR s ctx2 0).find? (fun e => decide (e.key = key)) = none from by
        rw [List.find?_eq_none]
        intro x hx
        have := hbR x hx
        simp only [decide_eq_true_eq]
        omega]

/-- The link-following half of the sibling-chain condition only looks at
    `next_page_id`. -/
theorem chain_links_frame {s s2 : Store} : ∀ {lst : List Int},
    List.Chain' (fun a b => nextOf (pageAt s a) = b) lst →
    (∀ a ∈ lst, nextOf (pageAt s2 a) = nextOf (pageAt s a)) →
    List.Chain' (fun a b => nextOf (pageAt s2 a) = b) lst := by
  intro lst h hfr
  induction lst with
  | nil => trivial
  | cons a t ih =>
    cases t with
    | nil => exact List.chain'_singleton a
    | cons b t2 =>
      rw [List.chain'_cons] at h ⊢
      refine ⟨?_, ih h.2 (fun x hx => hfr x (List.mem_cons_of_mem _ hx))⟩
      rw [hfr a (by simp)]
      exact h.1

/-- Splicing a fresh page `NID` into the sibling chain right after `L`
    (the link structure of `SplitLeaf`). -/
theorem chain'_splice_go {s s2 : Store} {L NID : Int} {lvR : List Int}
    (hL : nextOf (pageAt s2 L) = NID)
    (hN : nextOf (pageAt s2 NID) = nextOf (pageAt s L)) :
    ∀ (lvL : List Int),
    List.Chain' (fun a b => nextOf (pageAt s a) = b) (lvL ++ L :: lvR) →
    (∀ a ∈ lvL ++ lvR, nextOf (pageAt s2 a) = nextOf (pageAt s a)) →
    List.Chain' (fun a b => nextOf (pageAt s2 a) = b) (lvL ++ L :: NID :: lvR) := by
  intro lvL
  induction lvL with
  | nil =>
    intro hch hfr
    rw [List.nil_append] at hch ⊢
    rw [List.chain'_cons]
    refine ⟨hL, ?_⟩
    cases lvR with
    | nil => exact List.chain'_singleton _
    | cons c lvR2 =>
      rw [List.chain'_cons] at hch
      rw [List.chain'_cons]
      refine ⟨by rw [hN]; exact hch.1, ?_⟩
      exact chain_links_frame hch.2 (fun x hx => hfr x (by simpa using hx))
  | cons a lvL ih =>
    intro hch hfr
    rw [List.cons_append] at hch ⊢
    refine List.chain'_cons'.2 ⟨?_, ?_⟩
    · intro b hb
      have hres := (List.chain'_cons'.1 hch).1
      rw [hfr a (by simp)]
      apply hres
      cases lvL with
      | nil => simpa using hb
      | cons c lvL2 => simpa using hb
    · exact ih (List.chain'_cons'.1 hch).2
        (fun x hx => hfr x (by
          rcases List.mem_append.1 hx with h | h
          · exact List.mem_append.2 (Or.inl (List.mem_cons_of_mem _ h))
          · exact List.mem_append.2 (Or.inr h)))

/-- Full chain splice for `SplitLeaf`: links plus the end-of-chain
    condition. -/
theorem chain_splice {s s2 : Store} {lvL lvR : List Int} {L NID : Int}
    (hch : ChainNext s (lvL ++ L :: lvR))
    (hfr : ∀ a ∈ lvL ++ lvR, nextOf (pageAt s2 a) = nextOf (pageAt s a))
    (hL : nextOf (pageAt s2 L) = NID)
    (hN : nextOf (pageAt s2 NID) = nextOf (pageAt s L)) :
    ChainNext s2 (lvL ++ L :: NID :: lvR) := by
  obtain ⟨hch1, hch2⟩ := hch
  refine ⟨chain'_splice_go hL hN lvL hch1 hfr, ?_⟩
  intro a ha
  cases lvR with
  | nil =>
    rw [List.getLast?_append_of_ne_nil _ (by simp),
      show ([L, NID] : List Int).getLast? = some NID from rfl] at ha
    have haN : a = NID := by
      have := ha
      simp only [Option.mem_def, Option.some.injEq] at this
      omega
    rw [haN, hN]
    refine hch2 L ?_
    rw [List.getLast?_append_of_ne_nil _ (by simp)]
    rfl
  | cons c lvR2 =>
    have hlast : (lvL ++ L :: NID :: c :: lvR2).getLast? = (c :: lvR2).getLast? := by
      rw [List.getLast?_append_of_ne_nil _ (by simp),
        show (L :: NID :: c :: lvR2).getLast? = (NID :: c :: lvR2).getLast? from by
          rw [List.getLast?_cons_cons],
        List.getLast?_cons_cons]
    rw [hlast] at ha
    have hmem : a ∈ c :: lvR2 := mem_of_getLast ha
    rw [hfr a (List.mem_append.2 (Or.inr hmem))]
    refine hch2 a ?_
    rw [List.getLast?_append_of_ne_nil _ (by simp), List.getLast?_cons_cons]
    exact ha

/-- Keys strictly below the middle entry on its left, at or above it on its
    right. -/
theorem sorted_split_mid {es2 : List LeafEntry} {sp : Nat}
    (hs : List.Pairwise (fun a b => a.key < b.key) es2) (hlt : sp < es2.length) :
    (∀ e ∈ es2.take sp, e.key < (es2.getD sp default).key) ∧
    (∀ e ∈ es2.drop sp, (es2.getD sp default).key ≤ e.key) := by
  have hdec := drop_decomp default hlt
  constructor
  · intro e he
    have hs2 := hs
    rw [hdec, List.pairwise_append] at hs2
    exact hs2.2.2 e he _ (List.mem_cons_self _ _)
  · intro e he
    rw [List.drop_eq_getElem_cons hlt] at he
    rcases List.mem_cons.1 he with h2 | h2
    · rw [getD_eq_get hlt, h2]
    · have hs2 : List.Pairwise (fun a b => a.key < b.key) (es2.drop sp) :=
        hs.sublist (List.drop_sublist _ _)
      rw [List.drop_eq_getElem_cons hlt, List.pairwise_cons] at hs2
      have := hs2.1 e h2
      rw [getD_eq_get hlt]
      omega

/-- The effect of `Insert` on a non-empty well-formed tree, provided the
    target leaf has room or does not already hold the key (otherwise
    `SplitLeaf` would duplicate the key). -/
theorem insert_effect {s : Store} {h : Nat} (ht : TreeOk s h) (key : Int) (v : List Nat)
    (hok : (entriesOf (pageAt s (FindLeafPage s key))).length < LEAF_MAX_ENTRIES ∨
      ∀ e ∈ entriesOf (pageAt s (FindLeafPage s key)), e.key ≠ key) :
    ∃ h2, TreeOk (Insert s key v).2 h2 ∧
      absOf (Insert s key v).2 = upsertAbs (absOf s) key v := by
  obtain ⟨ctx2, lb2, ub2, nx, es, hpg, hctx2, hsub2, hlb2, hub2, hlen2,
    hperm2, hlv2, habs2⟩ := tree_locate ht key
  obtain ⟨hbL, hbR⟩ := ctx_bounds_key hctx2 hlb2 hub2
  have hne : ¬ (s.root = INVALID_PAGE_ID) := by
    have := ht.root1
    intro hc
    rw [hc] at this
    norm_num [INVALID_PAGE_ID] at this
  obtain ⟨nx2, es2, hpg2, hesne2, heslen2, hsort2, hbnd2⟩ := hsub2
  rw [hpg] at hpg2
  injection hpg2 with hnx2 hpar2 hes2
  subst hnx2
  subst hes2
  have hLmem : FindLeafPage s key ∈ nodeIds s h s.root :=
    hperm2.mem_iff.1 (List.mem_append.2 (Or.inr (by simp)))
  have hLv := ht.bounds _ hLmem
  have hnd2 : (ctxIds s ctx2 0 ++ [FindLeafPage s key]).Nodup :=
    hperm2.symm.nodup ht.nodup
  have hLnotin : ∀ q ∈ ctxIds s ctx2 0, q ≠ FindLeafPage s key := by
    intro q hq hcon
    exact (List.nodup_append.1 hnd2).2.2 hq (by simp [hcon])
  have hLM : LEAF_MAX_ENTRIES = 30 := rfl
  by_cases hroom : es.length < LEAF_MAX_ENTRIES
  · -- the leaf has room: an in-place `LeafInsert`
    have hstep : (Insert s key v).2 = setPage s (FindLeafPage s key)
        (.leaf nx (ctxPar ctx2) (LeafInsert es key v)) := by
      unfold Insert
      rw [if_neg hne]
      show (if (entriesOf (pageAt s (FindLeafPage s key))).length < LEAF_MAX_ENTRIES
          then (true, setPage s (FindLeafPage s key)
            (.leaf (nextOf (pageAt s (FindLeafPage s key)))
              (parentOf (pageAt s (FindLeafPage s key)))
              (LeafInsert (entriesOf (pageAt s (FindLeafPage s key))) key v)))
          else (true, SplitLeaf s (FindLeafPage s key) key v s.pages.length)).2 = _
      rw [hpg]
      show (if es.length < LEAF_MAX_ENTRIES
          then (true, setPage s (FindLeafPage s key)
            (.leaf nx (ctxPar ctx2) (LeafInsert es key v)))
          else (true, SplitLeaf s (FindLeafPage s key) key v s.pages.length)).2 = _
      rw [if_pos hroom]
    rw [hstep]
    set L := FindLeafPage s key with hLdef
    set es' := LeafInsert es key v with hesdef
    have hesU : es' = upsertAbs es key v := leafInsert_eq_upsert v hsort2
    set s' := setPage s L (.leaf nx (ctxPar ctx2) es') with hsdef
    have hL0 : (0:Int) ≤ L := by
      have := hLv.1
      omega
    have hLlt : L.toNat < s.pages.length := hLv.2
    have hfr : ∀ q : Int, q ≠ L → pageAt s' q = pageAt s q := by
      intro q hq
      rw [hsdef, pageAt_setPage hL0 hLlt, if_neg hq]
    have hpg' : pageAt s' L = .leaf nx (ctxPar ctx2) es' := by
      rw [hsdef, pageAt_setPage hL0 hLlt, if_pos rfl]
    have hlen' : s'.pages.length = s.pages.length := by
      rw [hsdef, setPage_length]
    have hroot' : s'.root = s.root := by
      rw [hsdef, setPage_root]
    have hval' : ∀ e ∈ es', lbOk lb2 e.key ∧ ubOk ub2 e.key ∧ ValWF e.value := by
      intro e he
      rw [hesU] at he
      rcases upsertAbs_mem e he with h2 | h2
      · exact hbnd2 e h2
      · subst h2
        exact ⟨hlb2, hub2, valWF_storeBytes v⟩
    have hlen'' : es'.length ≤ LEAF_MAX_ENTRIES := by
      by_cases hdup : ∃ e0 ∈ es, e0.key = key
      · rw [hesU, upsertAbs_length_found v hsort2 hdup]
        exact heslen2
      · push_neg at hdup
        rw [hesU, upsertAbs_length_insert v hsort2 hdup, hLM]
        rw [hLM] at hroom
        omega
    have hsub' : SubOk s' 0 L (ctxPar ctx2) lb2 ub2 :=
      ⟨nx, es', hpg', by rw [hesU]; exact upsertAbs_ne_nil key v es, hlen'',
        by rw [hesU]; exact upsertAbs_sorted v hsort2, hval'⟩
    have hctxfr : ∀ q ∈ ctxIds s ctx2 0, pageAt s' q = pageAt s q :=
      fun q hq => hfr q (hLnotin q hq)
    obtain ⟨hctx', hcteq, hctLvL, hctLvR, hctAbsL, hctAbsR⟩ :=
      ctxOk_frame hroot' hctx2 hctxfr
    obtain ⟨hsubP, hpermP, hlvP, habsP⟩ := ctx_plug hctx' hsub'
    have hpermBig : (nodeIds s' (0 + ctx2.length) s'.root).Perm (nodeIds s h s.root) := by
      refine hpermP.trans ?_
      rw [hcteq, show nodeIds s' 0 L = [L] from rfl]
      exact hperm2
    have htree' : TreeOk s' (0 + ctx2.length) := by
      refine ⟨?_, hsubP, ?_, ?_, ?_, ?_, ?_⟩
      · rw [hroot']
        exact ht.root1
      · exact hpermBig.symm.nodup ht.nodup
      · intro p hp
        rw [hlen']
        exact ht.bounds p (hpermBig.mem_iff.1 hp)
      · rw [hlvP, hctLvL, hctLvR, show leafIds s' 0 L = [L] from rfl, hlv2]
        refine chainNext_frame ht.chain ?_
        intro a ha
        by_cases haL : a = L
        · rw [haL, hpg', hpg]
          rfl
        · rw [hfr a haL]
      · have h0L : (0:Int) ≠ L := by
          have := hLv.1
          omega
        rw [hfr 0 h0L, ht.meta, hroot']
      · intro i hi
        rw [hlen'] at hi
        rcases ht.complete i hi with h2 | h2
        · exact Or.inl h2
        · exact Or.inr (hpermBig.mem_iff.2 h2)
    refine ⟨0 + ctx2.length, htree', ?_⟩
    rw [absOf_eq htree', habsP, hctAbsL, hctAbsR,
      show absAt s' 0 L = entriesOf (pageAt s' L) from rfl, hpg',
      show entriesOf (PageData.leaf nx (ctxPar ctx2) es') = es' from rfl,
      ← habs2, hesU]
    rw [upsertAbs_append_right v hbR, upsertAbs_append_left v hbL]
  · -- the leaf is full and `key` is new: `SplitLeaf`
    have hlen30 : es.length = 30 := by
      rw [hLM] at hroom
      have h2 := heslen2
      rw [hLM] at h2
      omega
    have habsK : ∀ e ∈ es, e.key ≠ key := by
      rcases hok with h2 | h2
      · rw [hpg] at h2
        exact absurd h2 hroom
      · rw [hpg] at h2
        exact h2
    have hstep : (Insert s key v).2 = SplitLeaf s (FindLeafPage s key) key v s.pages.length := by
      unfold Insert
      rw [if_neg hne]
      show (if (entriesOf (pageAt s (FindLeafPage s key))).length < LEAF_MAX_ENTRIES
          then (true, setPage s (FindLeafPage s key)
            (.leaf (nextOf (pageAt s (FindLeafPage s key)))
              (parentOf (pageAt s (FindLeafPage s key)))
              (LeafInsert (entriesOf (pageAt s (FindLeafPage s key))) key v)))
          else (true, SplitLeaf s (FindLeafPage s key) key v s.pages.length)).2 = _
      rw [hpg]
      show (if es.length < LEAF_MAX_ENTRIES
          then (true, setPage s (FindLeafPage s key)
            (.leaf nx (ctxPar ctx2) (LeafInsert es key v)))
          else (true, SplitLeaf s (FindLeafPage s key) key v s.pages.length)).2 = _
      rw [if_neg hroom]
    have hSL : SplitLeaf s (FindLeafPage s key) key v s.pages.length =
        InsertIntoParent
          (setPage (setPage (allocPage s).2 (FindLeafPage s key)
            (.leaf ((s.pages.length : Int)) (ctxPar ctx2)
              ((es.take (LeafFindKey es key) ++
                (⟨key, storeBytes v⟩ : LeafEntry) :: es.drop (LeafFindKey es key)).take
               ((es.take (LeafFindKey es key) ++
                (⟨key, storeBytes v⟩ : LeafEntry) :: es.drop (LeafFindKey es key)).length / 2))))
            ((s.pages.length : Int))
            (.leaf nx (ctxPar ctx2)
              ((es.take (LeafFindKey es key) ++
                (⟨key, storeBytes v⟩ : LeafEntry) :: es.drop (LeafFindKey es key)).drop
               ((es.take (LeafFindKey es key) ++
                (⟨key, storeBytes v⟩ : LeafEntry) :: es.drop (LeafFindKey es key)).length / 2))))
          (FindLeafPage s key)
          (((es.take (LeafFindKey es key) ++
            (⟨key, storeBytes v⟩ : LeafEntry) :: es.drop (LeafFindKey es key)).drop
            ((es.take (LeafFindKey es key) ++
              (⟨key, storeBytes v⟩ : LeafEntry) :: es.drop (LeafFindKey es key)).length / 2)).headD
            default).key
          ((s.pages.length : Int)) s.pages.length := by
      unfold SplitLeaf
      rw [hpg]
      rfl
    rw [hstep, hSL]
    set L := FindLeafPage s key with hLdef
    set NID := ((s.pages.length : Int)) with hNIDdef
    set TEMP := es.take (LeafFindKey es key) ++
      (⟨key, storeBytes v⟩ : LeafEntry) :: es.drop (LeafFindKey es key) with hTEMPdef
    have hTEMPlen : TEMP.length = 31 := by
      rw [hTEMPdef, List.length_append, List.length_cons, List.length_take,
        List.length_drop, leafFindKey_count hsort2, hlen30]
      have h2 : es.countP (fun e => decide (e.key < key)) ≤ es.length :=
        List.countP_le_length _
      rw [hlen30] at h2
      omega
    have hSP : TEMP.length / 2 = 15 := by
      rw [hTEMPlen]
    rw [hSP]
    have hTEMPU : TEMP = upsertAbs es key v := by
      rw [hTEMPdef, leafFindKey_count hsort2, upsertAbs_insert key v hsort2 habsK]
    set sA := (allocPage s).2 with hsAdef
    set sB := setPage sA L (.leaf NID (ctxPar ctx2) (TEMP.take 15)) with hsBdef
    set s3 := setPage sB NID (.leaf nx (ctxPar ctx2) (TEMP.drop 15)) with hs3def
    set M := ((TEMP.drop 15).headD default).key with hMdef
    have h15 : 15 < TEMP.length := by
      rw [hTEMPlen]
      omega
    have hmidD : (TEMP.drop 15).headD default = TEMP.getD 15 default := by
      rw [List.drop_eq_getElem_cons h15, getD_eq_get h15]
      rfl
    have hM2 : M = (TEMP.getD 15 default).key := by
      rw [hMdef, hmidD]
    have hsortT : List.Pairwise (fun a b => a.key < b.key) TEMP := by
      rw [hTEMPU]
      exact upsertAbs_sorted v hsort2
    have hbndT : ∀ e ∈ TEMP, lbOk lb2 e.key ∧ ubOk ub2 e.key ∧ ValWF e.value := by
      intro e he
      rw [hTEMPU] at he
      rcases upsertAbs_mem e he with h2 | h2
      · exact hbnd2 e h2
      · subst h2
        exact ⟨hlb2, hub2, valWF_storeBytes v⟩
    have hsplitT := sorted_split_mid hsortT h15
    have hNID0 : (0:Int) ≤ NID := by
      rw [hNIDdef]
      omega
    have hNIDtoNat : NID.toNat = s.pages.length := by
      rw [hNIDdef]
      exact Int.toNat_ofNat _
    have hne_NID : ∀ q : Int, q.toNat < s.pages.length → q ≠ NID := by
      intro q hq hcon
      rw [hcon, hNIDtoNat] at hq
      omega
    have hsAlen : sA.pages.length = s.pages.length + 1 := by
      rw [hsAdef]
      show (s.pages ++ [PageData.free]).length = s.pages.length + 1
      rw [List.length_append]
      rfl
    have hL0 : (0:Int) ≤ L := by
      have := hLv.1
      omega
    have hLltA : L.toNat < sA.pages.length := by
      rw [hsAlen]
      have := hLv.2
      omega
    have hsBlen : sB.pages.length = s.pages.length + 1 := by
      rw [hsBdef, setPage_length, hsAlen]
    have hNIDltB : NID.toNat < sB.pages.length := by
      rw [hsBlen, hNIDtoNat]
      omega
    have hs3len : s3.pages.length = s.pages.length + 1 := by
      rw [hs3def, setPage_length, hsBlen]
    have hfr3 : ∀ q : Int, q ≠ L → q.toNat < s.pages.length →
        pageAt s3 q = pageAt s q := by
      intro q h1 h3
      rw [hs3def, pageAt_setPage hNID0 hNIDltB, if_neg (hne_NID q h3), hsBdef,
        pageAt_setPage hL0 hLltA, if_neg h1, hsAdef, pageAt_alloc h3]
    have hpg3L : pageAt s3 L = .leaf NID (ctxPar ctx2) (TEMP.take 15) := by
      rw [hs3def, pageAt_setPage hNID0 hNIDltB, if_neg (hne_NID L hLv.2), hsBdef,
        pageAt_setPage hL0 hLltA, if_pos rfl]
    have hpg3N : pageAt s3 NID = .leaf nx (ctxPar ctx2) (TEMP.drop 15) := by
      rw [hs3def, pageAt_setPage hNID0 hNIDltB, if_pos rfl]
    have hroot3 : s3.root = s.root := by
      rw [hs3def, setPage_root, hsBdef, setPage_root, hsAdef, allocPage_root]
    have hTlen : (TEMP.take 15).length = 15 := by
      rw [List.length_take, hTEMPlen]
      omega
    have hDlen : (TEMP.drop 15).length = 16 := by
      rw [List.length_drop, hTEMPlen]
    have hsubL3 : SubOk s3 0 L (ctxPar ctx2) lb2 (some M) := by
      refine ⟨NID, TEMP.take 15, hpg3L, ?_, ?_,
        hsortT.sublist (List.take_sublist _ _), ?_⟩
      · intro hcon
        rw [hcon] at hTlen
        simp at hTlen
      · rw [hTlen, hLM]
        omega
      · intro e he
        refine ⟨(hbndT e (List.mem_of_mem_take he)).1, ?_,
          (hbndT e (List.mem_of_mem_take he)).2.2⟩
        show e.key < M
        rw [hM2]
        exact hsplitT.1 e he
    have hsubN3 : SubOk s3 0 NID (ctxPar ctx2) (some M) ub2 := by
      refine ⟨nx, TEMP.drop 15, hpg3N, ?_, ?_,
        hsortT.sublist (List.drop_sublist _ _), ?_⟩
      · intro hcon
        rw [hcon] at hDlen
        simp at hDlen
      · rw [hDlen, hLM]
        omega
      · intro e he
        refine ⟨?_, (hbndT e (List.mem_of_mem_drop he)).2.1,
          (hbndT e (List.mem_of_mem_drop he)).2.2⟩
        show M ≤ e.key
        rw [hM2]
        exact hsplitT.2 e he
    have hctxfr3 : ∀ q ∈ ctxIds s ctx2 0, pageAt s3 q = pageAt s q := by
      intro q hq
      have hqv := ht.bounds q (hperm2.mem_iff.1 (List.mem_append.2 (Or.inl hq)))
      exact hfr3 q (hLnotin q hq) hqv.2
    obtain ⟨hctx3, hcteq3, hctLvL3, hctLvR3, hctAbsL3, hctAbsR3⟩ :=
      ctxOk_frame hroot3 hctx2 hctxfr3
    have hperm3 : (ctxIds s3 ctx2 0 ++ (nodeIds s3 0 L ++ nodeIds s3 0 NID)).Perm
        (NID :: (ctxIds s ctx2 0 ++ [L])) := by
      rw [hcteq3, show nodeIds s3 0 L = [L] from rfl,
        show nodeIds s3 0 NID = [NID] from rfl, List.perm_iff_count]
      intro a
      simp only [List.count_append, List.count_cons, List.count_nil]
      omega
    have h0notin : (0:Int) ∉ ctxIds s ctx2 0 ++ [L] := by
      intro hmem
      have := ht.bounds 0 (hperm2.mem_iff.1 hmem)
      omega
    have hnodup3 : (0 :: (ctxIds s3 ctx2 0 ++
        (nodeIds s3 0 L ++ nodeIds s3 0 NID))).Nodup := by
      refine List.nodup_cons.2 ⟨?_, ?_⟩
      · intro hmem
        have hmem2 := hperm3.mem_iff.1 hmem
        rcases List.mem_cons.1 hmem2 with h2 | h2
        · rw [hNIDdef] at h2
          have := hLv.2
          omega
        · exact h0notin h2
      · refine hperm3.symm.nodup ?_
        refine List.nodup_cons.2 ⟨?_, hnd2⟩
        intro hmem
        have h2 := (ht.bounds NID (hperm2.mem_iff.1 hmem)).2
        rw [hNIDtoNat] at h2
        omega
    have hvalid3 : ∀ p ∈ ctxIds s3 ctx2 0 ++ (nodeIds s3 0 L ++ nodeIds s3 0 NID),
        1 ≤ p ∧ p.toNat < s3.pages.length := by
      intro p hp
      rw [hs3len]
      have hmem2 := hperm3.mem_iff.1 hp
      rcases List.mem_cons.1 hmem2 with h2 | h2
      · constructor
        · rw [h2, hNIDdef]
          have := hLv.2
          omega
        · rw [h2, hNIDtoNat]
          omega
      · have h3 := ht.bounds p (hperm2.mem_iff.1 h2)
        exact ⟨h3.1, by omega⟩
    have hmeta3 : pageAt s3 0 = .meta s3.root := by
      have h0L : (0:Int) ≠ L := by
        have := hLv.1
        omega
      rw [hfr3 0 h0L (by have := hLv.2; omega), ht.meta, hroot3]
    have hchain3 : ChainNext s3 (ctxLvL s3 ctx2 0 ++ (leafIds s3 0 L ++
        (leafIds s3 0 NID ++ ctxLvR s3 ctx2 0))) := by
      rw [hctLvL3, hctLvR3, show leafIds s3 0 L = [L] from rfl,
        show leafIds s3 0 NID = [NID] from rfl]
      have hlist : ctxLvL s ctx2 0 ++ ([L] ++ ([NID] ++ ctxLvR s ctx2 0)) =
          ctxLvL s ctx2 0 ++ L :: NID :: ctxLvR s ctx2 0 := by
        simp
      rw [hlist]
      have hchainOld : ChainNext s (ctxLvL s ctx2 0 ++ L :: ctxLvR s ctx2 0) := by
        have h2 := ht.chain
        rw [← hlv2] at h2
        have h3 : ctxLvL s ctx2 0 ++ [L] ++ ctxLvR s ctx2 0 =
            ctxLvL s ctx2 0 ++ L :: ctxLvR s ctx2 0 := by
          simp
        rw [h3] at h2
        exact h2
      refine chain_splice hchainOld ?_ ?_ ?_
      · intro a ha
        have hav : 1 ≤ a ∧ a.toNat < s.pages.length := by
          rcases List.mem_append.1 ha with h2 | h2
          · exact ht.bounds a (hperm2.mem_iff.1 (List.mem_append.2 (Or.inl
              (ctxLvL_subset a h2))))
          · exact ht.bounds a (hperm2.mem_iff.1 (List.mem_append.2 (Or.inl
              (ctxLvR_subset a h2))))
        have haL : a ≠ L := by
          rcases List.mem_append.1 ha with h2 | h2
          · exact hLnotin a (ctxLvL_subset a h2)
          · exact hLnotin a (ctxLvR_subset a h2)
        rw [hfr3 a haL hav.2]
      · rw [hpg3L]
        rfl
      · rw [hpg3N, hpg]
        rfl
    have hcomplete3 : ∀ i : Nat, i < s3.pages.length → (i:Int) = 0 ∨
        (i:Int) ∈ ctxIds s3 ctx2 0 ++ (nodeIds s3 0 L ++ nodeIds s3 0 NID) := by
      intro i hi
      rw [hs3len] at hi
      by_cases hi2 : i < s.pages.length
      · rcases ht.complete i hi2 with h2 | h2
        · exact Or.inl h2
        · exact Or.inr (hperm3.mem_iff.2 (List.mem_cons_of_mem _
            (hperm2.symm.mem_iff.1 h2)))
      · refine Or.inr (hperm3.mem_iff.2 (List.mem_cons.2 (Or.inl ?_)))
        rw [hNIDdef]
        have h3 : i = s.pages.length := by omega
        rw [h3]
    have hfuel : ctx2.length + 1 ≤ s.pages.length := by
      rw [hlen2]
      exact treeOk_height_lt ht
    obtain ⟨H, htreeF, habsF⟩ := iip_ok ctx2 s.pages.length s3 0 L M NID
      (ctxPar ctx2) lb2 ub2 hctx3 hsubL3 hsubN3 hnodup3 hvalid3 hmeta3
      hchain3 hcomplete3 hfuel
    refine ⟨H, htreeF, ?_⟩
    rw [habsF, hctAbsL3, hctAbsR3,
      show absAt s3 0 L = entriesOf (pageAt s3 L) from rfl, hpg3L,
      show entriesOf (PageData.leaf NID (ctxPar ctx2) (TEMP.take 15)) =
        TEMP.take 15 from rfl,
      show absAt s3 0 NID = entriesOf (pageAt s3 NID) from rfl, hpg3N,
      show entriesOf (PageData.leaf nx (ctxPar ctx2) (TEMP.drop 15)) =
        TEMP.drop 15 from rfl,
      ← habs2]
    rw [upsertAbs_append_right v hbR, upsertAbs_append_left v hbL, ← hTEMPU]
    rw [show TEMP.take 15 ++ (TEMP.drop 15 ++ ctxAbsR s ctx2 0) =
      TEMP ++ ctxAbsR s ctx2 0 from by rw [← List.append_assoc, List.take_append_drop]]
    simp only [List.append_assoc]
/-- `Insert` on the untouched empty store builds a one-leaf tree (meta page 0
    plus a root leaf) holding exactly the inserted entry. -/
theorem insert_empty {s : Store} (hr : s.root = INVALID_PAGE_ID)
    (hp : s.pages = []) (key : Int) (v : List Nat) :
    TreeOk (Insert s key v).2 0 ∧
      absOf (Insert s key v).2 = upsertAbs (absOf s) key v := by
  have hse : s = emptyStore := by
    cases s with
    | mk pages root =>
      simp only [emptyStore] at *
      simp_all
  subst hse
  have hstep : (Insert emptyStore key v).2 =
      ⟨[.meta 1, .leaf INVALID_PAGE_ID INVALID_PAGE_ID [⟨key, storeBytes v⟩]], 1⟩ := rfl
  rw [hstep]
  constructor
  · refine ⟨le_refl 1, ?_, ?_, ?_, ?_, rfl, ?_⟩
    · refine ⟨INVALID_PAGE_ID, [⟨key, storeBytes v⟩], rfl, by simp, ?_, ?_, ?_⟩
      · norm_num [LEAF_MAX_ENTRIES]
      · simp
      · intro e he
        simp only [List.mem_singleton] at he
        subst he
        exact ⟨trivial, trivial, valWF_storeBytes v⟩
    · simp [nodeIds]
    · intro p hpmem
      simp only [nodeIds, List.mem_singleton] at hpmem
      subst hpmem
      refine ⟨le_refl 1, ?_⟩
      norm_num
    · constructor
      · simp [leafIds]
      · intro a ha
        have h1 : a = 1 := by
          simp [leafIds] at ha
          omega
        rw [h1]
        rfl
    · intro i hi
      simp only [List.length_cons, List.length_nil] at hi
      interval_cases i
      · left; rfl
      · right; simp [nodeIds]
  · rfl
theorem zeroAbs_cons (a : LeafEntry) (es : List LeafEntry) (key : Int) :
    zeroAbs (a :: es) key =
      (if a.key = key then (⟨key, zeroValue⟩ : LeafEntry) else a) :: zeroAbs es key := rfl

theorem zeroAbs_append (A B : List LeafEntry) (key : Int) :
    zeroAbs (A ++ B) key = zeroAbs A key ++ zeroAbs B key := by
  unfold zeroAbs
  exact List.map_append _ _ _

/-- `zeroAbs` fixes a list not containing the key. -/
theorem zeroAbs_id {key : Int} : ∀ {es : List LeafEntry},
    (∀ e ∈ es, e.key ≠ key) → zeroAbs es key = es := by
  intro es
  induction es with
  | nil => intro _; rfl
  | cons a es ih =>
    intro hne
    rw [zeroAbs_cons, if_neg (hne a (List.mem_cons_self _ _)),
      ih (fun e he => hne e (List.mem_cons_of_mem _ he))]

/-- `zeroAbs` preserves strict key-sortedness (only value bytes change). -/
theorem zeroAbs_sorted {es : List LeafEntry} {key : Int}
    (hs : List.Pairwise (fun a b => a.key < b.key) es) :
    List.Pairwise (fun a b => a.key < b.key) (zeroAbs es key) := by
  unfold zeroAbs
  refine List.Pairwise.map _ ?_ hs
  intro a b hab
  by_cases h1 : a.key = key <;> by_cases h2 : b.key = key <;>
    simp only [h1, h2, if_pos, if_neg, if_true, if_false] <;> simp_all <;> omega

/-- On a sorted list containing `key`, `zeroAbs` is the in-place overwrite
    performed by `Remove` at the binary-search index. -/
theorem zeroAbs_eq_set {key : Int} :
    ∀ {es : List LeafEntry}, List.Pairwise (fun a b => a.key < b.key) es →
    ∀ e0 ∈ es, e0.key = key →
    zeroAbs es key =
      es.set (es.countP (fun e => decide (e.key < key))) ⟨key, zeroValue⟩ := by
  intro es
  induction es with
  | nil =>
    intro _ e0 he _
    simp at he
  | cons a es ih =>
    intro hs e0 he0 hk
    rw [List.pairwise_cons] at hs
    rcases List.mem_cons.1 he0 with he | he
    · subst he
      have hcz : es.countP (fun e => decide (e.key < key)) = 0 := by
        rw [List.countP_eq_zero]
        intro x hx
        have := hs.1 x hx
        simp only [decide_eq_true_eq]
        omega
      have hcnt : (e0 :: es).countP (fun e => decide (e.key < key)) = 0 := by
        rw [List.countP_cons, hcz]
        simp [hk]
      rw [hcnt, zeroAbs_cons, if_pos hk, List.set_cons_zero,
        zeroAbs_id (fun e he2 => by have := hs.1 e he2; omega)]
    · have hak : a.key < key := by
        have := hs.1 e0 he
        omega
      have hcnt : (a :: es).countP (fun e => decide (e.key < key)) =
          es.countP (fun e => decide (e.key < key)) + 1 := by
        rw [List.countP_cons]
        simp [hak]
      rw [hcnt, zeroAbs_cons, if_neg (by omega), ih hs.2 e0 he hk,
        List.set_cons_succ]

theorem cstr_zeroValue : cstr zeroValue = [] := rfl

/-- The zeroed byte array written by `Remove` is well-formed. -/
theorem valWF_zeroValue : ValWF zeroValue := by
  constructor
  · rfl
  · rw [cstr_zeroValue]
    rfl

/-- The effect of `Remove` on a non-empty well-formed tree: the flag reports
    whether the key is present in a leaf (tombstones included), a successful
    removal zeroes the value bytes in place (`zeroAbs`), and an unsuccessful
    one leaves the store untouched. -/
theorem remove_effect {s : Store} {h : Nat} (ht : TreeOk s h) (key : Int) :
    ((Remove s key).1 = true ↔ ∃ e ∈ absOf s, e.key = key) ∧
    ((Remove s key).1 = true →
      TreeOk (Remove s key).2 h ∧
        absOf (Remove s key).2 = zeroAbs (absOf s) key) ∧
    ((Remove s key).1 = false → (Remove s key).2 = s) := by
  obtain ⟨ctx2, lb2, ub2, nx, es, hpg, hctx2, hsub2, hlb2, hub2, hlen2,
    hperm2, hlv2, habs2⟩ := tree_locate ht key
  obtain ⟨hbL, hbR⟩ := ctx_bounds_key hctx2 hlb2 hub2
  have hne : ¬ (s.root = INVALID_PAGE_ID) := by
    have := ht.root1
    intro hc
    rw [hc] at this
    norm_num [INVALID_PAGE_ID] at this
  obtain ⟨nx2, es2, hpg2, hesne2, heslen2, hsort2, hbnd2⟩ := hsub2
  rw [hpg] at hpg2
  injection hpg2 with hnx2 hpar2 hes2
  subst hnx2
  subst hes2
  have hLmem : FindLeafPage s key ∈ nodeIds s h s.root :=
    hperm2.mem_iff.1 (List.mem_append.2 (Or.inr (by simp)))
  have hLv := ht.bounds _ hLmem
  have hnd2 : (ctxIds s ctx2 0 ++ [FindLeafPage s key]).Nodup :=
    hperm2.symm.nodup ht.nodup
  have hLnotin : ∀ q ∈ ctxIds s ctx2 0, q ≠ FindLeafPage s key := by
    intro q hq hcon
    exact (List.nodup_append.1 hnd2).2.2 hq (by simp [hcon])
  have hfound_iff : (LeafFindKey es key < es.length ∧
      (es.getD (LeafFindKey es key) default).key = key) ↔
      ∃ e ∈ absOf s, e.key = key := by
    rw [leaf_found_iff hsort2]
    constructor
    · rintro ⟨e, he, hk⟩
      refine ⟨e, ?_, hk⟩
      rw [← habs2]
      exact List.mem_append.2 (Or.inl (List.mem_append.2 (Or.inr he)))
    · rintro ⟨e, he, hk⟩
      rw [← habs2] at he
      rcases List.mem_append.1 he with h2 | h2
      · rcases List.mem_append.1 h2 with h3 | h3
        · have := hbL e h3
          omega
        · exact ⟨e, h3, hk⟩
      · have := hbR e h2
        omega
  by_cases hf : LeafFindKey es key < es.length ∧
      (es.getD (LeafFindKey es key) default).key = key
  · -- the key is present: the entry's value bytes are zeroed in place
    have hstep : Remove s key = (true, setPage s (FindLeafPage s key)
        (.leaf nx (ctxPar ctx2)
          (es.set (LeafFindKey es key) ⟨key, zeroValue⟩))) := by
      unfold Remove
      rw [if_neg hne]
      show (if LeafFindKey (entriesOf (pageAt s (FindLeafPage s key))) key <
            (entriesOf (pageAt s (FindLeafPage s key))).length ∧
          ((entriesOf (pageAt s (FindLeafPage s key))).getD
            (LeafFindKey (entriesOf (pageAt s (FindLeafPage s key))) key)
              default).key = key then
          (true, setPage s (FindLeafPage s key)
            (.leaf (nextOf (pageAt s (FindLeafPage s key)))
              (parentOf (pageAt s (FindLeafPage s key)))
              ((entriesOf (pageAt s (FindLeafPage s key))).set
                (LeafFindKey (entriesOf (pageAt s (FindLeafPage s key))) key)
                ⟨key, zeroValue⟩)))
        else (false, s)) = _
      rw [hpg]
      show (if LeafFindKey es key < es.length ∧
          (es.getD (LeafFindKey es key) default).key = key then
          (true, setPage s (FindLeafPage s key)
            (.leaf nx (ctxPar ctx2)
              (es.set (LeafFindKey es key) ⟨key, zeroValue⟩)))
        else (false, s)) = _
      rw [if_pos hf]
    rw [hstep]
    set L := FindLeafPage s key with hLdef
    set es' := es.set (LeafFindKey es key) ⟨key, zeroValue⟩ with hesdef
    have hesZ : es' = zeroAbs es key := by
      obtain ⟨e0, he0, hk0⟩ := (leaf_found_iff hsort2).1 hf
      rw [hesdef, leafFindKey_count hsort2, ← zeroAbs_eq_set hsort2 e0 he0 hk0]
    set s' := setPage s L (.leaf nx (ctxPar ctx2) es') with hsdef
    have hL0 : (0:Int) ≤ L := by
      have := hLv.1
      omega
    have hLlt : L.toNat < s.pages.length := hLv.2
    have hfr : ∀ q : Int, q ≠ L → pageAt s' q = pageAt s q := by
      intro q hq
      rw [hsdef, pageAt_setPage hL0 hLlt, if_neg hq]
    have hpg' : pageAt s' L = .leaf nx (ctxPar ctx2) es' := by
      rw [hsdef, pageAt_setPage hL0 hLlt, if_pos rfl]
    have hlen' : s'.pages.length = s.pages.length := by
      rw [hsdef, setPage_length]
    have hroot' : s'.root = s.root := by
      rw [hsdef, setPage_root]
    have hval' : ∀ e ∈ es', lbOk lb2 e.key ∧ ubOk ub2 e.key ∧ ValWF e.value := by
      intro e he
      rw [hesZ] at he
      obtain ⟨e0, he0, hfe⟩ := List.mem_map.1 he
      obtain ⟨hb1, hb2, hb3⟩ := hbnd2 e0 he0
      by_cases hk0 : e0.key = key
      · rw [← hfe, if_pos hk0]
        exact ⟨hk0 ▸ hb1, hk0 ▸ hb2, valWF_zeroValue⟩
      · rw [← hfe, if_neg hk0]
        exact ⟨hb1, hb2, hb3⟩
    have heslen' : es'.length = es.length := by
      rw [hesdef, List.length_set]
    have hesne' : es' ≠ [] := by
      intro hcon
      rw [hcon] at heslen'
      exact hesne2 (List.length_eq_zero.1 heslen'.symm)
    have hsub' : SubOk s' 0 L (ctxPar ctx2) lb2 ub2 :=
      ⟨nx, es', hpg', hesne', heslen' ▸ heslen2,
        by rw [hesZ]; exact zeroAbs_sorted hsort2, hval'⟩
    have hctxfr : ∀ q ∈ ctxIds s ctx2 0, pageAt s' q = pageAt s q :=
      fun q hq => hfr q (hLnotin q hq)
    obtain ⟨hctx', hcteq, hctLvL, hctLvR, hctAbsL, hctAbsR⟩ :=
      ctxOk_frame hroot' hctx2 hctxfr
    obtain ⟨hsubP, hpermP, hlvP, habsP⟩ := ctx_plug hctx' hsub'
    have hpermBig : (nodeIds s' (0 + ctx2.length) s'.root).Perm
        (nodeIds s h s.root) := by
      refine hpermP.trans ?_
      rw [hcteq, show nodeIds s' 0 L = [L] from rfl]
      exact hperm2
    have htree' : TreeOk s' (0 + ctx2.length) := by
      refine ⟨?_, hsubP, ?_, ?_, ?_, ?_, ?_⟩
      · rw [hroot']
        exact ht.root1
      · exact hpermBig.symm.nodup ht.nodup
      · intro p hp
        rw [hlen']
        exact ht.bounds p (hpermBig.mem_iff.1 hp)
      · rw [hlvP, hctLvL, hctLvR, show leafIds s' 0 L = [L] from rfl, hlv2]
        refine chainNext_frame ht.chain ?_
        intro a ha
        by_cases haL : a = L
        · rw [haL, hpg', hpg]
          rfl
        · rw [hfr a haL]
      · have h0L : (0:Int) ≠ L := by
          have := hLv.1
          omega
        rw [hfr 0 h0L, ht.meta, hroot']
      · intro i hi
        rw [hlen'] at hi
        rcases ht.complete i hi with h2 | h2
        · exact Or.inl h2
        · exact Or.inr (hpermBig.mem_iff.2 h2)
    have hheq : 0 + ctx2.length = h := by
      rw [hlen2]
      omega
    have htree'' : TreeOk s' h := hheq ▸ htree'
    have hidL : zeroAbs (ctxAbsL s ctx2 0) key = ctxAbsL s ctx2 0 :=
      zeroAbs_id (fun e he => by have := hbL e he; omega)
    have hidR : zeroAbs (ctxAbsR s ctx2 0) key = ctxAbsR s ctx2 0 :=
      zeroAbs_id (fun e he => by have := hbR e he; omega)
    have habsfin : absOf s' = zeroAbs (absOf s) key := by
      rw [absOf_eq htree', habsP, hctAbsL, hctAbsR,
        show absAt s' 0 L = entriesOf (pageAt s' L) from rfl, hpg',
        show entriesOf (PageData.leaf nx (ctxPar ctx2) es') = es' from rfl,
        ← habs2, hesZ, zeroAbs_append, zeroAbs_append, hidL, hidR]
    refine ⟨?_, ?_, ?_⟩
    · exact iff_of_true rfl (hfound_iff.1 hf)
    · intro _
      exact ⟨htree'', habsfin⟩
    · intro hc
      simp at hc
  · -- the key is absent: the store is untouched and the flag is `false`
    have hstep : Remove s key = (false, s) := by
      unfold Remove
      rw [if_neg hne]
      show (if LeafFindKey (entriesOf (pageAt s (FindLeafPage s key))) key <
            (entriesOf (pageAt s (FindLeafPage s key))).length ∧
          ((entriesOf (pageAt s (FindLeafPage s key))).getD
            (LeafFindKey (entriesOf (pageAt s (FindLeafPage s key))) key)
              default).key = key then
          (true, setPage s (FindLeafPage s key)
            (.leaf (nextOf (pageAt s (FindLeafPage s key)))
              (parentOf (pageAt s (FindLeafPage s key)))
              ((entriesOf (pageAt s (FindLeafPage s key))).set
                (LeafFindKey (entriesOf (pageAt s (FindLeafPage s key))) key)
                ⟨key, zeroValue⟩)))
        else (false, s)) = _
      rw [hpg]
      show (if LeafFindKey es key < es.length ∧
          (es.getD (LeafFindKey es key) default).key = key then
          (true, setPage s (FindLeafPage s key)
            (.leaf nx (ctxPar ctx2)
              (es.set (LeafFindKey es key) ⟨key, zeroValue⟩)))
        else (false, s)) = _
      rw [if_neg hf]
    rw [hstep]
    refine ⟨?_, ?_, ?_⟩
    · constructor
      · intro hc
        simp at hc
      · intro h2
        exact absurd (hfound_iff.2 h2) hf
    · intro hc
      simp at hc
    · intro _
      rfl

end BPT
